import Mathlib

/-!
# User-based collaborative filtering (`cf_user-based.go`)

A shallow embedding of the batch pipeline of `cf_user-based.go`:
`buildUserRaw`, `userMeans`, `buildUserNorm`, `buildInverted`, `pearson`,
`sqrt`, `topKNeighbors`, `globalTopMovies`, `predictForUsers` and the
per-line rule of `readRatings`.

Conventions of the embedding.

* A Go `map[int]V` is an association list `List (ℤ × V)` whose keys are
  pairwise distinct (`GoMap.WF`).  `range` over a map visits the entries in
  list order; Go leaves that order unspecified, so the theorems quantify over
  every list that represents the input map and speak about the maps that are
  produced only through lookups and key membership.  A map built inside a
  function is ranged over in the order in which its keys were first written,
  one of the orders Go may take.
* Go `int` is `ℤ` (ids, scores in `1..5` and their sums stay far below
  `2^63`).
* `float64` is modelled twice.  The functions `userMeans64`, `normProfile64`,
  `sqrt64` and `pearson64` compute on `F64`, binary floating point with 53
  significant bits, rounding to nearest and ties to even, infinities and NaN;
  the statements on the symmetry and the range of `pearson`, on the accuracy
  of `sqrt` and on the mean of an empty profile are about these.  The
  functions `userMeans`, `sqrt`, `pearson` and what is built on them compute
  on `ℚ` without rounding; the statements on the selection and the order of
  neighbours and predictions are relative to the similarities so computed.
* The goroutines of the block-partitioned builders each compute a local
  structure from read-only data and then merge it into the shared result
  while holding the mutex.  The merges are therefore serialised; the order in
  which the workers take the lock is the parameter `sched`, a permutation of
  the worker numbers `0..NumWorkers-1`.
-/

namespace CF

/-! ## Go maps -/

/-- A Go map with `int` keys: the association list of its entries. -/
abbrev GoMap (V : Type) := List (ℤ × V)

namespace GoMap

variable {V : Type}

/-- The comma-ok lookup `v, ok := m[k]`. -/
def get? : GoMap V → ℤ → Option V
  | [], _ => none
  | (k', v) :: m, k => if k' = k then some v else get? m k

/-- The plain lookup `m[k]`, which yields the zero value `d` of the value type
when `k` is absent. -/
def getD (m : GoMap V) (k : ℤ) (d : V) : V := (m.get? k).getD d

/-- The assignment `m[k] = v`: overwrite the entry of `k`, or add one. -/
def set : GoMap V → ℤ → V → GoMap V
  | [], k, v => [(k, v)]
  | (k', v') :: m, k, v => if k' = k then (k, v) :: m else (k', v') :: set m k v

/-- The keys of the map, in `range` order. -/
def keys (m : GoMap V) : List ℤ := m.map Prod.fst

/-- A list represents a Go map when no key occurs twice. -/
def WF (m : GoMap V) : Prop := m.keys.Nodup

instance (m : GoMap V) : Decidable m.WF := inferInstanceAs (Decidable (List.Nodup _))

/-- A map of maps is well formed when it is and each of its values is. -/
def WF2 (m : GoMap (GoMap V)) : Prop := m.WF ∧ ∀ e ∈ m, e.2.WF

instance (m : GoMap (GoMap V)) : Decidable m.WF2 := inferInstanceAs (Decidable (_ ∧ _))

end GoMap

/-! ## Constants and types -/

/-- The constant `KNeighbors`: the length a neighbour list is cut to. -/
def KNeighbors : ℕ := 20

/-- The constant `MinOverlap`: the least number of common items for a
similarity other than zero. -/
def MinOverlap : ℤ := 5

/-- The constant `NumWorkers`: the size of the worker pool. -/
def NumWorkers : ℕ := 16

/-- The struct `Sim`: a neighbour, its similarity and the overlap count. -/
structure Sim where
  V : ℤ
  S : ℚ
  Cnt : ℤ
  deriving DecidableEq

/-! ## Block partition of the worker pool -/

/-- The Go slice expression `l[s:e]`. -/
def slice {α : Type} (l : List α) (s e : ℕ) : List α := (l.take e).drop s

/-- The start of the block of worker `w` for an input of length `n`:
`start = w * block` with `block = n / NumWorkers`. -/
def blockStart (n w : ℕ) : ℕ := w * (n / NumWorkers)

/-- The end of the block of worker `w`: `end = start + block`, and `end = n`
for the last worker. -/
def blockEnd (n w : ℕ) : ℕ :=
  if w = NumWorkers - 1 then n else blockStart n w + n / NumWorkers

/-- The part of the input worker `w` processes. -/
def workerBlock {α : Type} (l : List α) (w : ℕ) : List α :=
  slice l (blockStart l.length w) (blockEnd l.length w)

/-! ## userMeans -/

/-- The inner loop of `userMeans`: `sum += r` over the profile. -/
def sumScores (items : GoMap ℤ) : ℤ := items.foldl (fun sum e => sum + e.2) 0

/-- The function `userMeans`: `means[u] = float64(sum) / float64(len(items))`.
The division is that of `float64`, which does not trap, and the function has
no other failing path: it returns a map for every argument. -/
def userMeans (userRaw : GoMap (GoMap ℤ)) : GoMap ℚ :=
  userRaw.foldl (fun means e =>
    means.set e.1 ((sumScores e.2 : ℚ) / ((e.2.length : ℤ) : ℚ))) []

/-! ## buildUserRaw -/

/-- The first loop of a `buildUserRaw` worker: the local profiles of its block
of rating triples `(u, i, r)`; `m[i] = r` on the profile `local[u]`, which is
created when absent. -/
def rawLocal (block : List (ℤ × ℤ × ℤ)) : GoMap (GoMap ℤ) :=
  block.foldl (fun loc t => loc.set t.1 ((loc.getD t.1 []).set t.2.1 t.2.2)) []

/-- The rating triples a map of profiles stands for. -/
def triples (m : GoMap (GoMap ℤ)) : List (ℤ × ℤ × ℤ) :=
  m.flatMap (fun e => e.2.map (fun x => (e.1, x.1, x.2)))

/-- The merge of a worker of `buildUserRaw` under the mutex: every entry of
every local profile is written into the shared profile of its user. -/
def rawMerge (userRaw loc : GoMap (GoMap ℤ)) : GoMap (GoMap ℤ) :=
  loc.foldl (fun acc e =>
    acc.set e.1 (e.2.foldl (fun m x => m.set x.1 x.2) (acc.getD e.1 []))) userRaw

/-- The function `buildUserRaw`, the workers merging in the order `sched`. -/
def buildUserRaw (sched : List ℕ) (ratings : List (ℤ × ℤ × ℤ)) : GoMap (GoMap ℤ) :=
  sched.foldl (fun userRaw w => rawMerge userRaw (rawLocal (workerBlock ratings w))) []

/-- The invariant of a sequence of writes: the map holds the pairs written
so far, each with one of the scores written for it. -/
def RawInv (m : GoMap (GoMap ℤ)) (L : List (ℤ × ℤ × ℤ)) : Prop :=
  m.WF2 ∧ (∀ u, u ∈ m.keys ↔ ∃ i r, (u, i, r) ∈ L) ∧
  (∀ u i, i ∈ (m.getD u []).keys ↔ ∃ r, (u, i, r) ∈ L) ∧
  (∀ u i r, (m.getD u []).get? i = some r → (u, i, r) ∈ L)

/-! ## buildUserNorm -/

/-- The profile a `buildUserNorm` worker builds for one user:
`m[i] = float64(r) - muU` for every `(i, r)` of the raw profile. -/
def normProfile (items : GoMap ℤ) (muU : ℚ) : GoMap ℚ :=
  items.foldl (fun m e => m.set e.1 ((e.2 : ℚ) - muU)) []

/-- The first loop of a `buildUserNorm` worker over its block of users. -/
def normLocal (userRaw : GoMap (GoMap ℤ)) (means : GoMap ℚ) (block : List ℤ) :
    GoMap (GoMap ℚ) :=
  block.foldl (fun loc u => loc.set u (normProfile (userRaw.getD u []) (means.getD u 0))) []

/-- The merge of a `buildUserNorm` worker: `userNorm[u] = m`. -/
def normMerge (userNorm loc : GoMap (GoMap ℚ)) : GoMap (GoMap ℚ) :=
  loc.foldl (fun acc e => acc.set e.1 e.2) userNorm

/-- The function `buildUserNorm`, the workers merging in the order `sched`. -/
def buildUserNorm (sched : List ℕ) (userRaw : GoMap (GoMap ℤ)) (means : GoMap ℚ) :
    GoMap (GoMap ℚ) :=
  sched.foldl (fun userNorm w =>
    normMerge userNorm (normLocal userRaw means (workerBlock userRaw.keys w))) []

/-! ## buildInverted -/

/-- The first loop of a `buildInverted` worker:
`local[i] = append(local[i], u)` for every item `i` of every user `u` of the
block. -/
def invLocal (userRaw : GoMap (GoMap ℤ)) (block : List ℤ) : GoMap (List ℤ) :=
  block.foldl (fun loc u =>
    (userRaw.getD u []).foldl (fun loc e => loc.set e.1 (loc.getD e.1 [] ++ [u])) loc) []

/-- The merge of a `buildInverted` worker: `inv[i] = append(inv[i], us...)`. -/
def invMerge (inv loc : GoMap (List ℤ)) : GoMap (List ℤ) :=
  loc.foldl (fun acc e => acc.set e.1 (acc.getD e.1 [] ++ e.2)) inv

/-- The function `buildInverted`, the workers merging in the order `sched`. -/
def buildInverted (sched : List ℕ) (userRaw : GoMap (GoMap ℤ)) : GoMap (List ℤ) :=
  sched.foldl (fun inv w => invMerge inv (invLocal userRaw (workerBlock userRaw.keys w))) []

/-- The test "user `u` has rated item `i`". -/
def rated (userRaw : GoMap (GoMap ℤ)) (i u : ℤ) : Bool := decide (i ∈ (userRaw.getD u []).keys)

/-! ## pearson and sqrt -/

/-- The function `sqrt`: `0` for `x ≤ 0`, otherwise twenty Newton steps
`z = 0.5 * (z + x/z)` started at `z = x`. -/
def sqrt (x : ℚ) : ℚ :=
  if x ≤ 0 then 0 else Nat.iterate (fun z => (1 / 2) * (z + x / z)) 20 x

/-- The accumulators `num`, `denU`, `denV`, `cnt` of `pearson`. -/
structure Acc where
  num : ℚ
  denU : ℚ
  denV : ℚ
  cnt : ℤ
  deriving DecidableEq

/-- The loop of `pearson` over `uMap`, adding the items also found in `vMap`. -/
def pearsonLoop (uMap vMap : GoMap ℚ) : Acc :=
  uMap.foldl (fun a e =>
    match vMap.get? e.1 with
    | some rv => ⟨a.num + e.2 * rv, a.denU + e.2 * e.2, a.denV + rv * rv, a.cnt + 1⟩
    | none => a) ⟨0, 0, 0, 0⟩

/-- The end of `pearson`: the guard and the quotient. -/
def pearsonResult (a : Acc) : ℚ × ℤ :=
  if a.cnt < MinOverlap ∨ a.denU = 0 ∨ a.denV = 0 then (0, a.cnt)
  else (a.num / (sqrt a.denU * sqrt a.denV), a.cnt)

/-- The function `pearson`: the two maps are swapped when the first is the
longer one, then the shorter one is ranged over. -/
def pearson (uMap vMap : GoMap ℚ) : ℚ × ℤ :=
  if uMap.length > vMap.length then pearsonResult (pearsonLoop vMap uMap)
  else pearsonResult (pearsonLoop uMap vMap)

/-- The items two profiles have in common, each with the two values, in the
order of the first profile. -/
def common (a b : GoMap ℚ) : List (ℤ × ℚ × ℚ) :=
  a.filterMap (fun e => (b.get? e.1).map (fun rv => (e.1, e.2, rv)))

/-- The number of items both profiles contain. -/
def overlap (a b : GoMap ℚ) : ℕ := (a.keys.filter (fun i => decide (i ∈ b.keys))).length

/-! ## topKNeighbors -/

/-- One step of the insertion sort of `sort.Slice`.  The sorted prefix is
read from its right end: `x` moves left past each element it is `less` than
and stops at the first one it is not `less` than. -/
def insertLeft {α : Type} (less : α → α → Bool) (x : α) : List α → List α
  | [] => [x]
  | y :: ys => if less x y then y :: insertLeft less x ys else x :: y :: ys

/-- The function `sort.Slice` on a list, as the insertion sort the Go runtime
runs on slices of at most twelve elements: the elements are inserted one
after the other into the sorted prefix (kept here from right to left).  On
longer slices Go guarantees a permutation in which no element is `less` than
an earlier one, in an unspecified order of ties; the theorems use no more
than that. -/
def sortSlice {α : Type} (less : α → α → Bool) (l : List α) : List α :=
  (l.foldl (fun acc x => insertLeft less x acc) []).reverse

/-- The comparator of `topKNeighbors`: larger similarity first, and larger
overlap count first among equal similarities. -/
def simLess (a b : Sim) : Bool :=
  if a.S = b.S then decide (a.Cnt > b.Cnt) else decide (a.S > b.S)

/-- The set `candSet` of a task `u`: the users listed by `inv` under an item
of `u`, other than `u`. -/
def candSet (userNorm : GoMap (GoMap ℚ)) (inv : GoMap (List ℤ)) (u : ℤ) : GoMap Unit :=
  (userNorm.getD u []).foldl (fun cs e =>
    (inv.getD e.1 []).foldl (fun cs v => if v ≠ u then cs.set v () else cs) cs) []

/-- The slice `sims` of a task `u` before sorting: the candidates of
non-zero similarity. -/
def simsOf (userNorm : GoMap (GoMap ℚ)) (u : ℤ) (cands : GoMap Unit) : List Sim :=
  cands.foldl (fun sims c =>
    let p := pearson (userNorm.getD u []) (userNorm.getD c.1 [])
    if p.1 ≠ 0 then sims ++ [⟨c.1, p.1, p.2⟩] else sims) []

/-- The body of a `topKNeighbors` task: candidates, similarities, sort,
truncation to `KNeighbors`. -/
def neighborsOf (userNorm : GoMap (GoMap ℚ)) (inv : GoMap (List ℤ)) (u : ℤ) : List Sim :=
  (sortSlice simLess (simsOf userNorm u (candSet userNorm inv u))).take KNeighbors

/-- The function `topKNeighbors`: `out[u]` is the result of the task of `u`,
for every key `u` of `userNorm`.  The tasks are independent and write
distinct keys, so the order in which the pool completes them does not show
in the lookups. -/
def topKNeighbors (userNorm : GoMap (GoMap ℚ)) (inv : GoMap (List ℤ)) : GoMap (List Sim) :=
  userNorm.keys.foldl (fun out u => out.set u (neighborsOf userNorm inv u)) []

/-- The order the comparator `simLess` sorts by, read non-strictly: `a` may
stand before `b` when its similarity is larger, or equal with a count that
is not smaller. -/
def simGE (a b : Sim) : Prop := b.S < a.S ∨ (a.S = b.S ∧ b.Cnt ≤ a.Cnt)

/-- The normalized profiles as `main` builds them:
`buildUserNorm(userRaw, userMeans(userRaw))`. -/
def normOf (sched : List ℕ) (userRaw : GoMap (GoMap ℤ)) : GoMap (GoMap ℚ) :=
  buildUserNorm sched userRaw (userMeans userRaw)

/-- The test "`v` is another user than `u` and their similarity is not
zero". -/
def similarTo (userNorm : GoMap (GoMap ℚ)) (u v : ℤ) : Bool :=
  decide (v ≠ u ∧ (pearson (userNorm.getD u []) (userNorm.getD v [])).1 ≠ 0)

/-- The candidate test of `simsOf` as a partial map: the neighbour entry of
candidate `v` for the task `u`, when the similarity is not zero. -/
def simEntry (userNorm : GoMap (GoMap ℚ)) (u v : ℤ) : Option Sim :=
  if (pearson (userNorm.getD u []) (userNorm.getD v [])).1 ≠ 0 then
    some ⟨v, (pearson (userNorm.getD u []) (userNorm.getD v [])).1,
      (pearson (userNorm.getD u []) (userNorm.getD v [])).2⟩
  else none

/-! ## globalTopMovies -/

/-- The constant `TopN`: the length a prediction list is cut to. -/
def TopN : ℕ := 500

/-- The constant `ColdThresh`: users with fewer rated items are cold. -/
def ColdThresh : ℕ := 10

/-- The struct `Pair`: an item and a score. -/
structure Pair where
  ID : ℤ
  Val : ℚ
  deriving DecidableEq

/-- The comparator of the two prediction sorts: larger value first. -/
def pairLess (a b : Pair) : Bool := decide (a.Val > b.Val)

/-- The first loop of `globalTopMovies`: `counts[i]++` and `sums[i] += r` for
every entry `(i, r)` of every profile; the pair is `(counts, sums)`. -/
def tally (userRaw : GoMap (GoMap ℤ)) : GoMap ℤ × GoMap ℤ :=
  userRaw.foldl (fun cs e =>
    e.2.foldl (fun cs x =>
      (cs.1.set x.1 (cs.1.getD x.1 0 + 1), cs.2.set x.1 (cs.2.getD x.1 0 + x.2))) cs) ([], [])

/-- The second loop of `globalTopMovies`: one pair
`(i, float64(sums[i]) / float64(counts[i]))` for every key of `counts`. -/
def popList (counts sums : GoMap ℤ) : List Pair :=
  counts.foldl (fun pop e =>
    pop ++ [⟨e.1, ((sums.getD e.1 0 : ℤ) : ℚ) / ((counts.getD e.1 0 : ℤ) : ℚ)⟩]) []

/-- The function `globalTopMovies`: the item means, sorted, cut to `TopN`. -/
def globalTopMovies (userRaw : GoMap (GoMap ℤ)) : List Pair :=
  (sortSlice pairLess (popList (tally userRaw).1 (tally userRaw).2)).take TopN

/-- The scores an item received, one for each user who rated it. -/
def itemScores (userRaw : GoMap (GoMap ℤ)) (i : ℤ) : List ℤ :=
  userRaw.filterMap (fun e => e.2.get? i)

/-- The mean score of an item over every user who rated it. -/
def itemMean (userRaw : GoMap (GoMap ℤ)) (i : ℤ) : ℚ :=
  (((itemScores userRaw i).sum : ℤ) : ℚ) / (((itemScores userRaw i).length : ℕ) : ℚ)

/-- The distinct items that occur in some profile. -/
def ratedItems (userRaw : GoMap (GoMap ℤ)) : List ℤ :=
  (userRaw.flatMap (fun e => e.2.keys)).dedup

/-! ## predictForUsers -/

/-- The function `abs`. -/
def abs (x : ℚ) : ℚ := if x < 0 then -x else x

/-- The clipping of a prediction to the range of the scores:
`if rhat > 5 { rhat = 5 } else if rhat < 1 { rhat = 1 }`. -/
def clip (rhat : ℚ) : ℚ := if rhat > 5 then 5 else if rhat < 1 then 1 else rhat

/-- The set `cand` of a warm user: the items of the profiles of the
neighbours that are not in `seen`, the profile of the user. -/
def predCands (userRaw : GoMap (GoMap ℤ)) (neighU : List Sim) (seen : GoMap ℤ) : GoMap Unit :=
  neighU.foldl (fun cand nb =>
    (userRaw.getD nb.V []).foldl (fun cand e =>
      if (seen.get? e.1).isNone then cand.set e.1 () else cand) cand) []

/-- The accumulators `(num, den)` of one candidate item `i`: the loop over the
neighbours, adding those whose profile contains `i`. -/
def predAcc (userRaw : GoMap (GoMap ℤ)) (means : GoMap ℚ) (neighU : List Sim) (i : ℤ) : ℚ × ℚ :=
  neighU.foldl (fun a nb =>
    match (userRaw.getD nb.V []).get? i with
    | some rv => (a.1 + nb.S * ((rv : ℚ) - means.getD nb.V 0), a.2 + abs nb.S)
    | none => a) (0, 0)

/-- The prediction of one candidate item, when the denominator is positive:
`rhat = muU + num/den`, clipped. -/
def predEntry (userRaw : GoMap (GoMap ℤ)) (means : GoMap ℚ) (neighU : List Sim) (muU : ℚ)
    (i : ℤ) : Option Pair :=
  if (predAcc userRaw means neighU i).2 > 0 then
    some ⟨i, clip (muU + (predAcc userRaw means neighU i).1 / (predAcc userRaw means neighU i).2)⟩
  else none

/-- The slice `preds` of a warm user before sorting. -/
def predsOf (userRaw : GoMap (GoMap ℤ)) (means : GoMap ℚ) (neighU : List Sim) (muU : ℚ)
    (cand : GoMap Unit) : List Pair :=
  cand.foldl (fun preds c =>
    if (predAcc userRaw means neighU c.1).2 > 0 then
      preds ++ [⟨c.1, clip (muU + (predAcc userRaw means neighU c.1).1 /
        (predAcc userRaw means neighU c.1).2)⟩]
    else preds) []

/-- The warm path of a `predictForUsers` task: candidates, predictions, sort,
truncation to `TopN`. -/
def warmPreds (userRaw : GoMap (GoMap ℤ)) (means : GoMap ℚ) (neigh : GoMap (List Sim))
    (u : ℤ) : List Pair :=
  (sortSlice pairLess (predsOf userRaw means (neigh.getD u []) (means.getD u 0)
    (predCands userRaw (neigh.getD u []) (userRaw.getD u [])))).take TopN

/-- The body of a `predictForUsers` task: the list `global` for a cold user,
the warm path otherwise. -/
def predictOne (userRaw : GoMap (GoMap ℤ)) (means : GoMap ℚ) (neigh : GoMap (List Sim))
    (global : List Pair) (u : ℤ) : List Pair :=
  if (userRaw.getD u []).length < ColdThresh then global
  else warmPreds userRaw means neigh u

/-- The function `predictForUsers`: `res[u]` is the result of the task of `u`,
for every key `u` of `userRaw`. -/
def predictForUsers (userRaw : GoMap (GoMap ℤ)) (means : GoMap ℚ) (neigh : GoMap (List Sim))
    (global : List Pair) : GoMap (List Pair) :=
  userRaw.keys.foldl (fun res u => res.set u (predictOne userRaw means neigh global u)) []

/-- The neighbours of a list whose profile contains the item `i`, each with
the score it gave. -/
def raters (userRaw : GoMap (GoMap ℤ)) (neighU : List Sim) (i : ℤ) : List (Sim × ℤ) :=
  neighU.filterMap (fun nb => ((userRaw.getD nb.V []).get? i).map (fun rv => (nb, rv)))

/-- The pipeline of `main` from the rating triples to the recommendations,
for the merge orders `s1`, `s2`, `s3` of the three block-partitioned builders. -/
def recommend (s1 s2 s3 : List ℕ) (ratings : List (ℤ × ℤ × ℤ)) : GoMap (List Pair) :=
  predictForUsers (buildUserRaw s1 ratings) (userMeans (buildUserRaw s1 ratings))
    (topKNeighbors (normOf s2 (buildUserRaw s1 ratings))
      (buildInverted s3 (buildUserRaw s1 ratings)))
    (globalTopMovies (buildUserRaw s1 ratings))

/-! ## The example of three users -/

/-- The records of the example: the users 1, 2, 3 rate the items 1 and 2 with
(5, 4), (4, 5) and (1, 2). -/
def toyRatings : List (ℤ × ℤ × ℤ) :=
  [(1, 1, 5), (1, 2, 4), (2, 1, 4), (2, 2, 5), (3, 1, 1), (3, 2, 2)]

/-- The profiles of the example, the workers merging in the order of their
numbers. -/
def toyRaw : GoMap (GoMap ℤ) := buildUserRaw (List.range NumWorkers) toyRatings

/-- The normalized profiles of the example. -/
def toyNorm : GoMap (GoMap ℚ) := buildUserNorm (List.range NumWorkers) toyRaw (userMeans toyRaw)

/-- The inverted index of the example. -/
def toyInv : GoMap (List ℤ) := buildInverted (List.range NumWorkers) toyRaw

/-! ## An example with a tie -/

/-- Eighteen records: the users 1, 2 and 3 rate the items 1 to 5 alike,
(4, 3, 3, 3, 3), and each rates one further item of their own with 2. -/
def tieRatings : List (ℤ × ℤ × ℤ) :=
  [(1, 1, 4), (1, 2, 3), (1, 3, 3), (1, 4, 3), (1, 5, 3), (1, 6, 2),
   (2, 1, 4), (2, 2, 3), (2, 3, 3), (2, 4, 3), (2, 5, 3), (2, 7, 2),
   (3, 1, 4), (3, 2, 3), (3, 3, 3), (3, 4, 3), (3, 5, 3), (3, 8, 2)]

/-- The profiles of these records, the workers merging in the order of their
numbers. -/
def tieRaw : GoMap (GoMap ℤ) := buildUserRaw (List.range NumWorkers) tieRatings

/-- The normalized profiles of these records. -/
def tieNorm : GoMap (GoMap ℚ) := buildUserNorm (List.range NumWorkers) tieRaw (userMeans tieRaw)

/-- The inverted index of these records. -/
def tieInv : GoMap (List ℤ) := buildInverted (List.range NumWorkers) tieRaw

/-! ## Examples for the popularity list and the predictions -/

/-- Five users rate the items 3, 1 and 2; the item means are 3, 24/5 and
24/5. -/
def popRaw : GoMap (GoMap ℤ) :=
  [(1, [(3, 3), (1, 5), (2, 4)]), (2, [(3, 3), (1, 5), (2, 5)]),
   (3, [(3, 3), (1, 5), (2, 5)]), (4, [(3, 3), (1, 5), (2, 5)]),
   (5, [(3, 3), (1, 4), (2, 5)])]

/-- One user who rates the items 1 and 2 with the same score 5. -/
def evenRaw : GoMap (GoMap ℤ) := [(1, [(1, 5), (2, 5)])]

/-- The same profile map as `evenRaw`, the profile being traversed in the
other order. -/
def evenRawSwapped : GoMap (GoMap ℤ) := [(1, [(2, 5), (1, 5)])]

/-- Two profile lists stand for the same Go map: the same users, and for each
user the same entries, in any order. -/
def SameMap (m1 m2 : GoMap (GoMap ℤ)) : Prop :=
  m1.keys.Perm m2.keys ∧ ∀ u, (m1.getD u []).Perm (m2.getD u [])

/-- Two users with ten rated items each, all with the score 3; user 2 also
rated the items 11 and 12, with 4 and 2. -/
def warmRaw : GoMap (GoMap ℤ) :=
  [(1, [(1, 3), (2, 3), (3, 3), (4, 3), (5, 3), (6, 3), (7, 3), (8, 3), (9, 3), (10, 3)]),
   (2, [(1, 3), (2, 3), (3, 3), (4, 3), (5, 3), (6, 3), (7, 3), (8, 3), (9, 3), (10, 3),
     (11, 4), (12, 2)])]

/-- The means of `warmRaw`. -/
def warmMeans : GoMap ℚ := [(1, 3), (2, 3)]

/-- A neighbour table for `warmRaw`: user 2 is the neighbour of user 1, with
similarity 1/2. -/
def warmNeigh : GoMap (List Sim) := [(1, [⟨2, 1 / 2, 10⟩])]

/-! ## The per-line rule of readRatings -/

/-- Modelled from the spec: the library call `strings.Split(line, "::")`,
named by the record rule and not part of the repository: the pieces between
the occurrences of the separator, found from left to right without overlap.
The first argument holds the characters of the current piece, last one
first. -/
def splitColons : List Char → List Char → List (List Char)
  | cur, ':' :: ':' :: cs => cur.reverse :: splitColons [] cs
  | cur, c :: cs => splitColons (c :: cur) cs
  | cur, [] => [cur.reverse]

/-- The value of a string of decimal digits, `none` when a character is not
a digit. -/
def parseDigits (acc : ℕ) : List Char → Option ℕ
  | [] => some acc
  | c :: cs =>
    if '0' ≤ c ∧ c ≤ '9' then parseDigits (acc * 10 + (c.toNat - 48)) cs else none

/-- The end of `strconv.Atoi`: a value outside the range of a 64-bit `int` is
replaced by the nearest bound and reported as an error. -/
def clampInt (v : ℤ) : ℤ × Bool :=
  if v > 2 ^ 63 - 1 then (2 ^ 63 - 1, false)
  else if v < -(2 ^ 63) then (-(2 ^ 63), false)
  else (v, true)

/-- The string without its optional sign. -/
def atoiBody : List Char → List Char
  | '+' :: r => r
  | '-' :: r => r
  | s => s

/-- Whether the string starts with a minus sign. -/
def atoiNeg : List Char → Bool
  | '-' :: _ => true
  | _ => false

/-- The result of `strconv.Atoi` from the sign and the value of the digits:
a syntax error when some character is not a digit. -/
def atoiValue (neg : Bool) : Option ℕ → ℤ × Bool
  | none => (0, false)
  | some n => clampInt (if neg then -(n : ℤ) else (n : ℤ))

/-- Modelled from the spec: the library function `strconv.Atoi`, named by the
record rule and not part of the repository, on a 64-bit platform: an optional
sign followed by one or more decimal digits.  The result is the value and
`true`; on a syntax error `0` and `false`; on a value outside the range of
`int` the nearest bound and `false`. -/
def atoi (s : List Char) : ℤ × Bool :=
  if atoiBody s = [] then (0, false)
  else atoiValue (atoiNeg s) (parseDigits 0 (atoiBody s))

/-- The body of the loop of `readRatings` for one line: the line is split at
`"::"`; a line that does not have exactly four parts is skipped; the first
three parts go through `strconv.Atoi`, the error being discarded; the record
is kept when `r >= 1 && r <= 5`. -/
def parseLine (line : List Char) : Option (ℤ × ℤ × ℤ) :=
  match splitColons [] line with
  | [p0, p1, p2, _] =>
    if 1 ≤ (atoi p2).1 ∧ (atoi p2).1 ≤ 5 then some ((atoi p0).1, (atoi p1).1, (atoi p2).1)
    else none
  | _ => none

/-- The function `readRatings` on the lines of the file. -/
def readRatings (lines : List (List Char)) : List (ℤ × ℤ × ℤ) :=
  lines.filterMap parseLine

/-! ## The type float64

The functions `userMeans`, `pearson` and `sqrt` of the source compute on
`float64`.  The definitions below give that arithmetic on integers: every finite
value is `m * 2 ^ e`, every operation computes the exact result and rounds it to
53 significant bits, to nearest and ties to even, with gradual underflow below
`2 ^ (-1022)`, overflow to an infinity from `2 ^ 1024` on, and NaN for `0 / 0`
and the like.  Each operation is rounded on its own.  The sign of a zero is not
kept. -/

/-- A `float64` value: NaN, an infinity with its sign, or the finite number
`m * 2 ^ e`.  The operations return the representative with
`2 ^ 52 ≤ |m| < 2 ^ 53` and `-1074 ≤ e ≤ 971` (normal), with `|m| < 2 ^ 52` and
`e = -1074` (subnormal), or `fin 0 0` (zero). -/
inductive F64 where
  | nan : F64
  | inf (neg : Bool) : F64
  | fin (m : ℤ) (e : ℤ) : F64
  deriving DecidableEq

/-- The number of binary digits of `n`, with `fuel` halvings allowed. -/
def bitsAux : ℕ → ℕ → ℕ
  | 0, _ => 0
  | fuel + 1, n => if n = 0 then 0 else bitsAux fuel (n / 2) + 1

/-- The number of binary digits of `n`: `2 ^ (bits n - 1) ≤ n < 2 ^ bits n`. -/
def bits (n : ℕ) : ℕ := bitsAux n n

namespace F64

/-- The value of a finite float as a rational number (0 for NaN and the
infinities). -/
def val : F64 → ℚ
  | fin m e => (m : ℚ) * (2 : ℚ) ^ e
  | _ => 0

/-- Rounding a quotient `q` with remainder `r` to nearest, ties to even: `h` is
half of the divisor. -/
def roundNat (q r h : ℕ) : ℕ := if h < r ∨ (r = h ∧ q % 2 = 1) then q + 1 else q

/-- The representative of `m * 2 ^ e` once `|m| ≤ 2 ^ 53` and `-1074 ≤ e`: a
significand of `2 ^ 53` is renormalised, and a value from `2 ^ 1024` on is an
infinity. -/
def pack (m e : ℤ) : F64 :=
  if m = 0 then fin 0 0
  else if m.natAbs = 2 ^ 53 then
    (if 971 < e + 1 then inf (decide (m < 0)) else fin (m.sign * 2 ^ 52) (e + 1))
  else if 971 < e then inf (decide (m < 0)) else fin m e

/-- The `float64` nearest to the exact number `n * 2 ^ e`.  The `s` low bits of
`n` are dropped, where `s` leaves 53 bits or, for a subnormal result, leaves the
exponent at `-1074`. -/
def round (n e : ℤ) : F64 :=
  if n = 0 then fin 0 0
  else
    let s : ℤ := max ((bits n.natAbs : ℤ) - 53) (-1074 - e)
    if s ≤ 0 then pack (n * ((2 ^ (-s).toNat : ℕ) : ℤ)) (e + s)
    else pack (n.sign * (roundNat (n.natAbs / 2 ^ s.toNat) (n.natAbs % 2 ^ s.toNat)
      (2 ^ (s.toNat - 1)) : ℕ)) (e + s)

/-- The conversion `float64(n)` of an `int`. -/
def ofInt (n : ℤ) : F64 := round n 0

/-- The constant `0.5`. -/
def half : F64 := fin (2 ^ 52) (-53)

/-- The operator `-x`. -/
def neg : F64 → F64
  | fin m e => fin (-m) e
  | inf s => inf (!s)
  | nan => nan

/-- The operator `x + y`. -/
def add : F64 → F64 → F64
  | fin m1 e1, fin m2 e2 =>
    round (m1 * ((2 ^ (e1 - min e1 e2).toNat : ℕ) : ℤ)
      + m2 * ((2 ^ (e2 - min e1 e2).toNat : ℕ) : ℤ)) (min e1 e2)
  | inf s1, inf s2 => if s1 = s2 then inf s1 else nan
  | inf s, fin _ _ => inf s
  | fin _ _, inf s => inf s
  | _, _ => nan

/-- The operator `x - y`. -/
def sub (x y : F64) : F64 := add x (neg y)

/-- The operator `x * y`. -/
def mul : F64 → F64 → F64
  | fin m1 e1, fin m2 e2 => round (m1 * m2) (e1 + e2)
  | inf s, fin m _ => if m = 0 then nan else inf (s != decide (m < 0))
  | fin m _, inf s => if m = 0 then nan else inf (s != decide (m < 0))
  | inf s1, inf s2 => inf (s1 != s2)
  | _, _ => nan

/-- The operator `x / y`.  For finite operands the quotient of the significands
is taken with at least 57 bits, and one more bit records whether the division
left a remainder, so that rounding the result rounds the exact quotient. -/
def div : F64 → F64 → F64
  | fin m1 e1, fin m2 e2 =>
    if m2 = 0 then (if m1 = 0 then nan else inf (decide (m1 < 0)))
    else
      let k := 56 + bits m2.natAbs
      let q := (m1.natAbs * 2 ^ k) / m2.natAbs
      let r := (m1.natAbs * 2 ^ k) % m2.natAbs
      round (m1.sign * m2.sign * ((2 * q + (if r = 0 then 0 else 1) : ℕ) : ℤ))
        (e1 - e2 - (k : ℤ) - 1)
  | fin _ _, inf _ => fin 0 0
  | inf s, fin m _ => inf (s != decide (m < 0))
  | _, _ => nan

/-- The comparison `x <= 0`. -/
def le0 : F64 → Bool
  | fin m _ => decide (m ≤ 0)
  | inf s => s
  | nan => false

/-- The comparison `x == 0`. -/
def eq0 : F64 → Bool
  | fin m _ => decide (m = 0)
  | _ => false

end F64

/-- The function `sqrt` on `float64`: 0 for `x <= 0`, else 20 times
`z = 0.5 * (z + x/z)` from `z = x`. -/
def sqrt64 (x : F64) : F64 :=
  if F64.le0 x then F64.fin 0 0
  else Nat.iterate (fun z => F64.mul F64.half (F64.add z (F64.div x z))) 20 x

/-! ## userMeans, buildUserNorm and pearson on float64 -/

/-- The function `userMeans` on `float64`:
`means[u] = float64(sum) / float64(len(items))`. -/
def userMeans64 (userRaw : GoMap (GoMap ℤ)) : GoMap F64 :=
  userRaw.foldl (fun means e =>
    means.set e.1 (F64.div (F64.ofInt (sumScores e.2)) (F64.ofInt (e.2.length : ℤ)))) []

/-- The inner loop of a `buildUserNorm` worker on `float64`:
`m[i] = float64(r) - muU` for every item of the profile. -/
def normProfile64 (items : GoMap ℤ) (muU : F64) : GoMap F64 :=
  items.foldl (fun m e => m.set e.1 (F64.sub (F64.ofInt e.2) muU)) []

/-- The local variables `num`, `denU`, `denV` and `cnt` of `pearson`. -/
structure Acc64 where
  num : F64
  denU : F64
  denV : F64
  cnt : ℤ
  deriving DecidableEq

/-- The loop of `pearson` on `float64`, in the iteration order of `uMap`. -/
def pearsonLoop64 (uMap vMap : GoMap F64) : Acc64 :=
  uMap.foldl (fun a e =>
    match vMap.get? e.1 with
    | some rv => ⟨F64.add a.num (F64.mul e.2 rv), F64.add a.denU (F64.mul e.2 e.2),
        F64.add a.denV (F64.mul rv rv), a.cnt + 1⟩
    | none => a) ⟨F64.fin 0 0, F64.fin 0 0, F64.fin 0 0, 0⟩

/-- The two `return` statements of `pearson` on `float64`. -/
def pearsonResult64 (a : Acc64) : F64 × ℤ :=
  if a.cnt < MinOverlap ∨ F64.eq0 a.denU = true ∨ F64.eq0 a.denV = true then (F64.fin 0 0, a.cnt)
  else (F64.div a.num (F64.mul (sqrt64 a.denU) (sqrt64 a.denV)), a.cnt)

/-- The function `pearson` on `float64`: the loop runs over the smaller map. -/
def pearson64 (uMap vMap : GoMap F64) : F64 × ℤ :=
  if uMap.length > vMap.length then pearsonResult64 (pearsonLoop64 vMap uMap)
  else pearsonResult64 (pearsonLoop64 uMap vMap)

/-- The test "`x` is finite", with an exponent of at least `-1074` as every
finite `float64` has. -/
def F64.finite : F64 → Bool
  | F64.fin _ e => decide (-1074 ≤ e)
  | _ => false

/-- The items two `float64` profiles have in common, each with the two values,
in the iteration order of the first profile. -/
def common64 (a b : GoMap F64) : List (ℤ × F64 × F64) :=
  a.filterMap (fun e => (b.get? e.1).map (fun rv => (e.1, e.2, rv)))

/-- The body of the loop of `pearson` run over a list of common items, from
given values of the local variables. -/
def accum64 (L : List (ℤ × F64 × F64)) (acc : Acc64) : Acc64 :=
  L.foldl (fun a t => ⟨F64.add a.num (F64.mul t.2.1 t.2.2), F64.add a.denU (F64.mul t.2.1 t.2.1),
    F64.add a.denV (F64.mul t.2.2 t.2.2), a.cnt + 1⟩) acc

/-- The profiles of two users with eight ratings each, five of them on
common items. -/
def unitRaw : GoMap (GoMap ℤ) :=
  [(1, [(1, 4), (2, 4), (3, 4), (4, 3), (5, 3), (6, 2), (7, 2), (8, 2)]),
   (2, [(1, 4), (2, 4), (3, 4), (4, 3), (5, 3), (9, 2), (10, 2), (11, 2)])]

/-- The normalized profile of user `u` of `unitRaw`, as `userMeans` and
`buildUserNorm` compute it on `float64`. -/
def unitNorm (u : ℤ) : GoMap F64 :=
  normProfile64 (unitRaw.getD u []) ((userMeans64 unitRaw).getD u (F64.fin 0 0))

/-- The profiles of two users on the same six items; the map of user 2 lists
item 6 before item 5. -/
def orderRaw : GoMap (GoMap ℤ) :=
  [(1, [(1, 5), (2, 4), (3, 4), (4, 5), (5, 4), (6, 4)]),
   (2, [(1, 5), (2, 4), (3, 4), (4, 3), (6, 1), (5, 3)])]

/-- The normalized profile of user `u` of `orderRaw`, as `userMeans` and
`buildUserNorm` compute it on `float64`. -/
def orderNorm (u : ℤ) : GoMap F64 :=
  normProfile64 (orderRaw.getD u []) ((userMeans64 orderRaw).getD u (F64.fin 0 0))

/-- The invariant of the loop of `sqrt` on `float64`: `z` is finite and
positive, and `a * x ≤ z * z ≤ b * x`. -/
def NewtonInv (x : F64) (a b : ℚ) (z : F64) : Prop :=
  z.finite = true ∧ 0 < z.val ∧ a * x.val ≤ z.val ^ 2 ∧ z.val ^ 2 ≤ b * x.val

/-- The test "`x` is zero, or a normal float of magnitude from `2 ^ (-100)` up
to `2 ^ 100`"; the entries of a normalized profile of scores in 1..5 pass it. -/
def F64.moderate : F64 → Bool
  | F64.fin m e => decide ((m = 0 ∧ -1074 ≤ e) ∨
      (2 ^ 52 ≤ m.natAbs ∧ m.natAbs < 2 ^ 53 ∧ -152 ≤ e ∧ e ≤ 47))
  | _ => false

/-- The invariant of the loop of `pearson` on `float64` after `n` common items:
the three sums are finite and lie within the rounding error of the exact sums
`A` of the absolute products, `SU` and `SV` of the squares. -/
def AccumInv (n : ℕ) (acc : Acc64) (A SU SV : ℚ) : Prop :=
  acc.num.finite = true ∧ acc.denU.finite = true ∧ acc.denV.finite = true ∧
  0 ≤ A ∧ 0 ≤ SU ∧ 0 ≤ SV ∧ A ^ 2 ≤ SU * SV ∧
  A ≤ n * 2 ^ 200 ∧ SU ≤ n * 2 ^ 200 ∧ SV ≤ n * 2 ^ 200 ∧
  (SU = 0 ∨ 1 / 2 ^ 200 ≤ SU) ∧ (SV = 0 ∨ 1 / 2 ^ 200 ≤ SV) ∧
  |acc.num.val| ≤ (1 + 1 / 2 ^ 53) ^ (n + 1) * A ∧
  (1 - 1 / 2 ^ 53) ^ (n + 1) * SU ≤ acc.denU.val ∧
  acc.denU.val ≤ (1 + 1 / 2 ^ 53) ^ (n + 1) * SU ∧
  (1 - 1 / 2 ^ 53) ^ (n + 1) * SV ≤ acc.denV.val ∧
  acc.denV.val ≤ (1 + 1 / 2 ^ 53) ^ (n + 1) * SV

/-! ## Lemmas on Go maps -/

namespace GoMap

variable {V : Type}

theorem get?_set (m : GoMap V) (k k' : ℤ) (v : V) :
    (m.set k v).get? k' = if k = k' then some v else m.get? k' := by
  induction m with
  | nil => simp [set, get?]
  | cons e m ih =>
    obtain ⟨a, b⟩ := e
    by_cases h : a = k
    · subst h
      by_cases h' : a = k' <;> simp [set, get?, h']
    · by_cases h' : a = k'
      · subst h'
        simp [set, get?, h, Ne.symm h]
      · simp [set, get?, h, h', ih]

theorem get?_set_self (m : GoMap V) (k : ℤ) (v : V) : (m.set k v).get? k = some v := by
  simp [get?_set]

theorem get?_set_ne (m : GoMap V) {k k' : ℤ} (v : V) (h : k ≠ k') :
    (m.set k v).get? k' = m.get? k' := by
  simp [get?_set, h]

theorem get?_eq_none_iff (m : GoMap V) (k : ℤ) : m.get? k = none ↔ k ∉ m.keys := by
  induction m with
  | nil => simp [get?, keys]
  | cons e m ih =>
    obtain ⟨a, b⟩ := e
    by_cases h : a = k
    · simp [get?, keys, h]
    · simp only [get?, h, if_false, ih]
      simp [keys, Ne.symm h]

theorem get?_isSome_iff (m : GoMap V) (k : ℤ) : (m.get? k).isSome ↔ k ∈ m.keys := by
  rw [← not_iff_not, ← get?_eq_none_iff]
  cases m.get? k <;> simp

theorem mem_keys_iff (m : GoMap V) (k : ℤ) : k ∈ m.keys ↔ ∃ v, m.get? k = some v := by
  rw [← get?_isSome_iff, Option.isSome_iff_exists]

theorem mem_of_get? {m : GoMap V} {k : ℤ} {v : V} (h : m.get? k = some v) : (k, v) ∈ m := by
  induction m with
  | nil => simp [get?] at h
  | cons e m ih =>
    obtain ⟨a, b⟩ := e
    by_cases h' : a = k
    · simp [get?, h'] at h
      simp [h', h]
    · simp only [get?, h', if_false] at h
      exact List.mem_cons_of_mem _ (ih h)

theorem get?_of_mem {m : GoMap V} (hm : m.WF) {k : ℤ} {v : V} (h : (k, v) ∈ m) :
    m.get? k = some v := by
  induction m with
  | nil => simp at h
  | cons e m ih =>
    obtain ⟨a, b⟩ := e
    have hm' : a ∉ keys m ∧ WF m := by simpa [WF, keys] using hm
    rcases List.mem_cons.1 h with h | h
    · simp only [Prod.mk.injEq] at h
      simp [get?, h.1, h.2]
    · have hk : k ∈ keys m := List.mem_map.2 ⟨(k, v), h, rfl⟩
      have hne : a ≠ k := fun e => hm'.1 (e ▸ hk)
      simp only [get?, hne, if_false]
      exact ih hm'.2 h

theorem mem_keys_set (m : GoMap V) (k k' : ℤ) (v : V) :
    k' ∈ (m.set k v).keys ↔ k' = k ∨ k' ∈ m.keys := by
  rw [← get?_isSome_iff, ← get?_isSome_iff, get?_set]
  by_cases h : k = k'
  · simp [h]
  · simp [h, Ne.symm h]

theorem keys_set (m : GoMap V) (k : ℤ) (v : V) :
    (m.set k v).keys = if k ∈ m.keys then m.keys else m.keys ++ [k] := by
  induction m with
  | nil => simp [set, keys]
  | cons e m ih =>
    obtain ⟨a, b⟩ := e
    by_cases h : a = k
    · simp [set, keys, h]
    · have ih' := ih
      simp only [keys] at ih'
      simp only [set, h, if_false, keys, List.map_cons, List.mem_cons, Ne.symm h, false_or, ih']
      split <;> simp

theorem WF_set {m : GoMap V} (hm : m.WF) (k : ℤ) (v : V) : (m.set k v).WF := by
  unfold WF at *
  rw [keys_set]
  split
  · exact hm
  · rename_i h
    exact List.Nodup.append hm (List.nodup_singleton k) (by simpa using h)

theorem WF_nil : WF ([] : GoMap V) := List.nodup_nil

theorem length_set_pos (m : GoMap V) (k : ℤ) (v : V) : 0 < (m.set k v).length := by
  cases m with
  | nil => simp [set]
  | cons e m =>
    obtain ⟨a, b⟩ := e
    simp only [set]
    split <;> simp

theorem foldl_set_get?_of_not_mem {α : Type} (key : α → ℤ) (val : α → V) (l : List α)
    (init : GoMap V) (k : ℤ) (h : k ∉ l.map key) :
    (l.foldl (fun acc e => acc.set (key e) (val e)) init).get? k = init.get? k := by
  induction l generalizing init with
  | nil => rfl
  | cons a l ih =>
    simp only [List.map_cons, List.mem_cons, not_or] at h
    rw [List.foldl_cons, ih _ h.2, get?_set_ne _ _ (Ne.symm h.1)]

theorem foldl_set_get?_of_mem {α : Type} (key : α → ℤ) (val : α → V) (l : List α)
    (init : GoMap V) (hl : (l.map key).Nodup) (e : α) (he : e ∈ l) :
    (l.foldl (fun acc e => acc.set (key e) (val e)) init).get? (key e) = some (val e) := by
  induction l generalizing init with
  | nil => simp at he
  | cons a l ih =>
    simp only [List.map_cons, List.nodup_cons] at hl
    rw [List.foldl_cons]
    rcases List.mem_cons.1 he with rfl | he
    · rw [foldl_set_get?_of_not_mem key val l _ _ hl.1, get?_set_self]
    · exact ih _ hl.2 he

theorem foldl_set_mem_keys {α : Type} (key : α → ℤ) (val : α → V) (l : List α)
    (init : GoMap V) (k : ℤ) :
    k ∈ (l.foldl (fun acc e => acc.set (key e) (val e)) init).keys ↔
      k ∈ l.map key ∨ k ∈ init.keys := by
  induction l generalizing init with
  | nil => simp
  | cons a l ih =>
    rw [List.foldl_cons, ih, mem_keys_set]
    simp only [List.map_cons, List.mem_cons]
    tauto

theorem foldl_set_WF {α : Type} (key : α → ℤ) (val : α → V) (l : List α)
    (init : GoMap V) (h : init.WF) :
    (l.foldl (fun acc e => acc.set (key e) (val e)) init).WF := by
  induction l generalizing init with
  | nil => exact h
  | cons a l ih => exact ih _ (WF_set h _ _)

theorem foldl_set_get?_fun {α : Type} (key : α → ℤ) (g : ℤ → V) (l : List α)
    (init : GoMap V) (k : ℤ) :
    (l.foldl (fun acc e => acc.set (key e) (g (key e))) init).get? k =
      if k ∈ l.map key then some (g k) else init.get? k := by
  induction l generalizing init with
  | nil => simp
  | cons a l ih =>
    rw [List.foldl_cons, ih, get?_set]
    by_cases h1 : k ∈ l.map key
    · simp [h1]
    · by_cases h2 : key a = k
      · simp [h2]
      · have h3 : ¬ k = key a := fun e => h2 e.symm
        simp [List.mem_cons, h1, h2, h3]

theorem merge_get?_of_some {loc : GoMap V} (hloc : loc.WF) (acc : GoMap V) {k : ℤ} {v : V}
    (h : loc.get? k = some v) :
    (loc.foldl (fun acc e => acc.set e.1 e.2) acc).get? k = some v :=
  foldl_set_get?_of_mem (fun e : ℤ × V => e.1) (fun e => e.2) loc acc hloc (k, v)
    (mem_of_get? h)

theorem merge_get?_of_none {loc : GoMap V} (acc : GoMap V) {k : ℤ} (h : loc.get? k = none) :
    (loc.foldl (fun acc e => acc.set e.1 e.2) acc).get? k = acc.get? k :=
  foldl_set_get?_of_not_mem (fun e : ℤ × V => e.1) (fun e => e.2) loc acc k
    ((get?_eq_none_iff loc k).1 h)

theorem get?_getD {m : GoMap V} {k : ℤ} {v : V} (h : m.get? k = some v) (d : V) :
    m.getD k d = v := by
  simp [getD, h]

theorem getD_of_none {m : GoMap V} {k : ℤ} (h : m.get? k = none) (d : V) :
    m.getD k d = d := by
  simp [getD, h]

theorem WF2_of_get? {m : GoMap (GoMap V)} (hm : m.WF)
    (h : ∀ k v, m.get? k = some v → v.WF) : m.WF2 :=
  ⟨hm, fun e he => h e.1 e.2 (get?_of_mem hm he)⟩

theorem WF2_get? {m : GoMap (GoMap V)} (hm : m.WF2) {k : ℤ} {v : GoMap V}
    (h : m.get? k = some v) : v.WF :=
  hm.2 _ (mem_of_get? h)

theorem WF2_getD {m : GoMap (GoMap V)} (hm : m.WF2) (k : ℤ) : (m.getD k []).WF := by
  cases h : m.get? k with
  | none => rw [getD_of_none h]; exact List.nodup_nil
  | some v => rw [get?_getD h]; exact WF2_get? hm h

end GoMap

/-! ## The block partition covers the input once -/

theorem take_append_slice {α : Type} (l : List α) (a c : ℕ) :
    l.take a ++ slice l a (a + c) = l.take (a + c) := by
  have h : l.take a = (l.take (a + c)).take a := by
    rw [List.take_take]
    simp
  unfold slice
  rw [h]
  exact List.take_append_drop a _

theorem flatten_workerBlocks_upto {α : Type} (l : List α) (k : ℕ) (hk : k ≤ NumWorkers - 1) :
    ((List.range k).map (workerBlock l)).flatten = l.take (k * (l.length / NumWorkers)) := by
  induction k with
  | zero => simp
  | succ k ih =>
    have hk' : k ≠ NumWorkers - 1 := by omega
    rw [List.range_succ, List.map_append, List.flatten_append, ih (by omega)]
    simp only [List.map_cons, List.map_nil, List.flatten_cons, List.flatten_nil,
      List.append_nil, workerBlock, blockStart, blockEnd, hk', if_false]
    rw [take_append_slice, Nat.succ_mul]

/-- The sixteen blocks, taken in the order of the worker numbers, are the
input list itself: they are pairwise disjoint ranges of positions and cover
every position, whatever the length. -/
theorem flatten_workerBlocks {α : Type} (l : List α) :
    ((List.range NumWorkers).map (workerBlock l)).flatten = l := by
  have h : NumWorkers = (NumWorkers - 1) + 1 := by decide
  rw [h, List.range_succ, List.map_append, List.flatten_append,
    flatten_workerBlocks_upto l _ (le_refl _)]
  simp only [List.map_cons, List.map_nil, List.flatten_cons, List.flatten_nil,
    List.append_nil, workerBlock, blockStart, blockEnd, if_true, slice, List.take_length]
  exact List.take_append_drop _ _

theorem sched_blocks_perm {α : Type} (l : List α) {sched : List ℕ}
    (h : sched.Perm (List.range NumWorkers)) :
    ((sched.map (workerBlock l)).flatten).Perm l := by
  have := (h.map (workerBlock l)).flatten
  rwa [flatten_workerBlocks] at this

theorem mem_sched_blocks {α : Type} (l : List α) {sched : List ℕ}
    (h : sched.Perm (List.range NumWorkers)) (x : α) :
    (∃ w ∈ sched, x ∈ workerBlock l w) ↔ x ∈ l := by
  rw [← (sched_blocks_perm l h).mem_iff, List.mem_flatten]
  constructor
  · rintro ⟨w, hw, hx⟩
    exact ⟨_, List.mem_map.2 ⟨w, hw, rfl⟩, hx⟩
  · rintro ⟨b, hb, hx⟩
    obtain ⟨w, hw, rfl⟩ := List.mem_map.1 hb
    exact ⟨w, hw, hx⟩

/-! ## userMeans: lemmas -/

theorem sumScores_eq (items : GoMap ℤ) : sumScores items = (items.map Prod.snd).sum := by
  have h : ∀ (l : GoMap ℤ) (a : ℤ),
      l.foldl (fun sum e => sum + e.2) a = a + (l.map Prod.snd).sum := by
    intro l
    induction l with
    | nil => intro a; simp
    | cons e l ih => intro a; simp [ih, add_assoc]
  simpa [sumScores] using h items 0

/-- C1: for every profile map and every user of it with at least one rating,
`userMeans` stores for that user the sum of the raw scores divided by their
number, in exact arithmetic; and the result is a map whose keys are exactly
the users of the input.  (For an empty profile Go divides zero by zero; the
statement leaves that case out.) -/
theorem userMeans_spec (userRaw : GoMap (GoMap ℤ)) (hwf : userRaw.WF) :
    (∀ u items, userRaw.get? u = some items → 0 < items.length →
      (userMeans userRaw).get? u
        = some ((((items.map Prod.snd).sum : ℤ) : ℚ) / ((items.length : ℕ) : ℚ))) ∧
    (∀ u, u ∈ (userMeans userRaw).keys ↔ u ∈ userRaw.keys) ∧
    (userMeans userRaw).WF := by
  refine ⟨?_, ?_, ?_⟩
  · intro u items hu _
    have hmem := GoMap.mem_of_get? hu
    have := GoMap.foldl_set_get?_of_mem (fun e : ℤ × GoMap ℤ => e.1)
      (fun e => ((sumScores e.2 : ℚ) / ((e.2.length : ℤ) : ℚ))) userRaw [] hwf _ hmem
    simp only [userMeans]
    rw [this]
    simp [sumScores_eq]
  · intro u
    have := GoMap.foldl_set_mem_keys (fun e : ℤ × GoMap ℤ => e.1)
      (fun e => ((sumScores e.2 : ℚ) / ((e.2.length : ℤ) : ℚ))) userRaw [] u
    simpa [userMeans, GoMap.keys] using this
  · exact GoMap.foldl_set_WF _ _ _ _ GoMap.WF_nil

/-- Two users with the profiles (5, 4) and (4, 5): both means are 9/2. -/
theorem userMeans_spec_witness :
    GoMap.WF ([(1, [(10, 5), (20, 4)]), (2, [(10, 4), (20, 5)])] : GoMap (GoMap ℤ)) ∧
    (userMeans [(1, [(10, 5), (20, 4)]), (2, [(10, 4), (20, 5)])]).get? 2 = some (9 / 2) := by
  have h := userMeans_spec [(1, [(10, 5), (20, 4)]), (2, [(10, 4), (20, 5)])] (by decide)
  refine ⟨by decide, ?_⟩
  have h2 := h.1 2 [(10, 4), (20, 5)] (by decide) (by decide)
  rw [h2]
  norm_num

/-! ## buildUserNorm: lemmas -/

theorem normProfile_get? {items : GoMap ℤ} (hi : items.WF) (muU : ℚ) (i : ℤ) :
    (normProfile items muU).get? i = (items.get? i).map (fun r => (r : ℚ) - muU) := by
  unfold normProfile
  cases h : items.get? i with
  | none =>
    rw [GoMap.foldl_set_get?_of_not_mem (fun e : ℤ × ℤ => e.1) (fun e => (e.2 : ℚ) - muU)
      items [] i ((GoMap.get?_eq_none_iff items i).1 h)]
    rfl
  | some r =>
    exact GoMap.foldl_set_get?_of_mem (fun e : ℤ × ℤ => e.1) (fun e => (e.2 : ℚ) - muU)
      items [] hi (i, r) (GoMap.mem_of_get? h)

theorem normProfile_WF (items : GoMap ℤ) (muU : ℚ) : (normProfile items muU).WF :=
  GoMap.foldl_set_WF _ _ _ _ GoMap.WF_nil

theorem normProfile_mem_keys (items : GoMap ℤ) (muU : ℚ) (i : ℤ) :
    i ∈ (normProfile items muU).keys ↔ i ∈ items.keys := by
  have := GoMap.foldl_set_mem_keys (fun e : ℤ × ℤ => e.1) (fun e => (e.2 : ℚ) - muU)
    items [] i
  simpa [normProfile, GoMap.keys] using this

theorem normLocal_get? (userRaw : GoMap (GoMap ℤ)) (means : GoMap ℚ) (block : List ℤ) (u : ℤ) :
    (normLocal userRaw means block).get? u =
      if u ∈ block then some (normProfile (userRaw.getD u []) (means.getD u 0)) else none := by
  have := GoMap.foldl_set_get?_fun (fun u : ℤ => u)
    (fun u => normProfile (userRaw.getD u []) (means.getD u 0)) block [] u
  simpa [normLocal, GoMap.get?] using this

theorem normLocal_WF (userRaw : GoMap (GoMap ℤ)) (means : GoMap ℚ) (block : List ℤ) :
    (normLocal userRaw means block).WF :=
  GoMap.foldl_set_WF (fun u : ℤ => u) _ _ _ GoMap.WF_nil

theorem normMerge_get? (userRaw : GoMap (GoMap ℤ)) (means : GoMap ℚ) (block : List ℤ)
    (acc : GoMap (GoMap ℚ)) (u : ℤ) :
    (normMerge acc (normLocal userRaw means block)).get? u =
      if u ∈ block then some (normProfile (userRaw.getD u []) (means.getD u 0))
      else acc.get? u := by
  have h := normLocal_get? userRaw means block u
  unfold normMerge
  by_cases hu : u ∈ block
  · simp only [hu, if_true] at h ⊢
    exact GoMap.merge_get?_of_some (normLocal_WF _ _ _) acc h
  · simp only [hu, if_false] at h ⊢
    exact GoMap.merge_get?_of_none acc h

theorem normMerge_WF {acc : GoMap (GoMap ℚ)} (h : acc.WF) (loc : GoMap (GoMap ℚ)) :
    (normMerge acc loc).WF :=
  GoMap.foldl_set_WF _ _ _ _ h

theorem normFold_get? (userRaw : GoMap (GoMap ℤ)) (means : GoMap ℚ) (users : List ℤ)
    (sched : List ℕ) (init : GoMap (GoMap ℚ)) (u : ℤ) :
    (sched.foldl (fun userNorm w =>
      normMerge userNorm (normLocal userRaw means (workerBlock users w))) init).get? u =
      if ∃ w ∈ sched, u ∈ workerBlock users w then
        some (normProfile (userRaw.getD u []) (means.getD u 0))
      else init.get? u := by
  induction sched generalizing init with
  | nil => simp
  | cons w sched ih =>
    rw [List.foldl_cons, ih, normMerge_get?]
    by_cases h1 : ∃ w ∈ sched, u ∈ workerBlock users w
    · have h2 : ∃ w' ∈ w :: sched, u ∈ workerBlock users w' := by
        obtain ⟨w', hw', hu⟩ := h1
        exact ⟨w', List.mem_cons_of_mem _ hw', hu⟩
      simp [h1, h2]
    · by_cases h3 : u ∈ workerBlock users w
      · have h2 : ∃ w' ∈ w :: sched, u ∈ workerBlock users w' := ⟨w, List.mem_cons_self _ _, h3⟩
        simp only [h1, h2, h3, if_true, if_false]
      · have h2 : ¬ ∃ w' ∈ w :: sched, u ∈ workerBlock users w' := by
          rintro ⟨w', hw', hu⟩
          rcases List.mem_cons.1 hw' with rfl | hw'
          · exact h3 hu
          · exact h1 ⟨w', hw', hu⟩
        simp only [h1, h2, h3, if_false]

theorem normFold_WF (userRaw : GoMap (GoMap ℤ)) (means : GoMap ℚ) (users : List ℤ)
    (sched : List ℕ) (init : GoMap (GoMap ℚ)) (h : init.WF) :
    (sched.foldl (fun userNorm w =>
      normMerge userNorm (normLocal userRaw means (workerBlock users w))) init).WF := by
  induction sched generalizing init with
  | nil => exact h
  | cons w sched ih => exact ih _ (normMerge_WF h _)

/-- The lookup of a user in the result of `buildUserNorm`, for every merge
order that lets each worker merge once. -/
theorem buildUserNorm_get? {sched : List ℕ} (hs : sched.Perm (List.range NumWorkers))
    (userRaw : GoMap (GoMap ℤ)) (means : GoMap ℚ) (u : ℤ) :
    (buildUserNorm sched userRaw means).get? u =
      if u ∈ userRaw.keys then some (normProfile (userRaw.getD u []) (means.getD u 0))
      else none := by
  unfold buildUserNorm
  rw [normFold_get?]
  simp only [mem_sched_blocks userRaw.keys hs u]
  rfl

theorem buildUserNorm_WF (sched : List ℕ) (userRaw : GoMap (GoMap ℤ)) (means : GoMap ℚ) :
    (buildUserNorm sched userRaw means).WF :=
  normFold_WF _ _ _ _ _ GoMap.WF_nil

/-- C2: for every merge order of the sixteen workers, `buildUserNorm` returns
a map with exactly the users of `userRaw` as keys, whatever their number; the
profile of a user has exactly the items of the raw profile as keys, each with
the value `raw score − means[u]`, and an item absent from the raw profile is
absent from the normalized one. -/
theorem buildUserNorm_spec (sched : List ℕ) (hs : sched.Perm (List.range NumWorkers))
    (userRaw : GoMap (GoMap ℤ)) (hwf : userRaw.WF2) (means : GoMap ℚ) :
    (buildUserNorm sched userRaw means).WF2 ∧
    (∀ u, u ∈ (buildUserNorm sched userRaw means).keys ↔ u ∈ userRaw.keys) ∧
    (∀ u items, userRaw.get? u = some items →
      ∃ prof, (buildUserNorm sched userRaw means).get? u = some prof ∧
        (∀ i, i ∈ prof.keys ↔ i ∈ items.keys) ∧
        (∀ i r, items.get? i = some r → prof.get? i = some ((r : ℚ) - means.getD u 0)) ∧
        (∀ i, items.get? i = none → prof.get? i = none)) := by
  refine ⟨?_, ?_, ?_⟩
  · refine GoMap.WF2_of_get? (buildUserNorm_WF _ _ _) ?_
    intro k v hk
    rw [buildUserNorm_get? hs] at hk
    split at hk
    · cases hk
      exact normProfile_WF _ _
    · cases hk
  · intro u
    rw [← GoMap.get?_isSome_iff, buildUserNorm_get? hs]
    split <;> simp [*]
  · intro u items hu
    have hk : u ∈ userRaw.keys := (GoMap.mem_keys_iff _ _).2 ⟨items, hu⟩
    refine ⟨normProfile items (means.getD u 0), ?_, ?_, ?_, ?_⟩
    · rw [buildUserNorm_get? hs, if_pos hk, GoMap.get?_getD hu]
    · exact normProfile_mem_keys _ _
    · intro i r hi
      rw [normProfile_get? (GoMap.WF2_get? hwf hu), hi]
      rfl
    · intro i hi
      rw [normProfile_get? (GoMap.WF2_get? hwf hu), hi]
      rfl

/-- Three users, fewer than the sixteen workers, with the means 9/2, 9/2 and
3/2: the normalized score of user 3 for item 20 is 2 − 3/2. -/
theorem buildUserNorm_spec_witness :
    (List.range NumWorkers).Perm (List.range NumWorkers) ∧
    GoMap.WF2 ([(1, [(10, 5), (20, 4)]), (2, [(10, 4), (20, 5)]), (3, [(10, 1), (20, 2)])] :
      GoMap (GoMap ℤ)) ∧
    ∃ prof, (buildUserNorm (List.range NumWorkers)
        [(1, [(10, 5), (20, 4)]), (2, [(10, 4), (20, 5)]), (3, [(10, 1), (20, 2)])]
        [(1, 9 / 2), (2, 9 / 2), (3, 3 / 2)]).get? 3 = some prof ∧
      prof.get? 20 = some (1 / 2) ∧ prof.get? 30 = none := by
  refine ⟨List.Perm.refl _, by decide, ?_⟩
  obtain ⟨prof, h1, _, h3, h4⟩ := (buildUserNorm_spec (List.range NumWorkers) (List.Perm.refl _)
    [(1, [(10, 5), (20, 4)]), (2, [(10, 4), (20, 5)]), (3, [(10, 1), (20, 2)])] (by decide)
    [(1, 9 / 2), (2, 9 / 2), (3, 3 / 2)]).2.2 3 [(10, 1), (20, 2)] (by decide)
  refine ⟨prof, h1, ?_, h4 30 (by decide)⟩
  rw [h3 20 2 (by decide)]
  simp [GoMap.getD, GoMap.get?]
  norm_num

/-! ## buildInverted: lemmas -/

theorem GoMap.getD_set {V : Type} (m : GoMap V) (k k' : ℤ) (v d : V) :
    (m.set k v).getD k' d = if k = k' then v else m.getD k' d := by
  unfold GoMap.getD
  rw [GoMap.get?_set]
  split <;> rfl

theorem invItems_getD {items : GoMap ℤ} (hi : items.WF) (u : ℤ) (loc : GoMap (List ℤ)) (i : ℤ) :
    (items.foldl (fun loc e => loc.set e.1 (loc.getD e.1 [] ++ [u])) loc).getD i [] =
      loc.getD i [] ++ (if i ∈ items.keys then [u] else []) := by
  induction items generalizing loc with
  | nil => simp [GoMap.keys]
  | cons e items ih =>
    obtain ⟨k, r⟩ := e
    have hi' : k ∉ GoMap.keys items ∧ GoMap.WF items := by
      simpa [GoMap.WF, GoMap.keys] using hi
    rw [List.foldl_cons, ih hi'.2, GoMap.getD_set]
    by_cases hk : k = i
    · subst hk
      have h1 : k ∈ GoMap.keys ((k, r) :: items) := by simp [GoMap.keys]
      rw [if_pos rfl, if_neg hi'.1, if_pos h1, List.append_nil]
    · have hk' : ¬ i = k := fun e => hk e.symm
      have h1 : i ∈ GoMap.keys ((k, r) :: items) ↔ i ∈ GoMap.keys items := by
        simp [GoMap.keys, hk']
      simp only [hk, if_false, h1]

theorem invItems_WF (items : GoMap ℤ) (u : ℤ) {loc : GoMap (List ℤ)} (h : loc.WF) :
    (items.foldl (fun loc e => loc.set e.1 (loc.getD e.1 [] ++ [u])) loc).WF := by
  induction items generalizing loc with
  | nil => exact h
  | cons e items ih => exact ih (GoMap.WF_set h _ _)

theorem invUsers_getD {userRaw : GoMap (GoMap ℤ)} (hwf : userRaw.WF2) (block : List ℤ)
    (loc : GoMap (List ℤ)) (i : ℤ) :
    (block.foldl (fun loc u =>
      (userRaw.getD u []).foldl (fun loc e => loc.set e.1 (loc.getD e.1 [] ++ [u])) loc)
      loc).getD i [] = loc.getD i [] ++ block.filter (rated userRaw i) := by
  induction block generalizing loc with
  | nil => simp
  | cons u block ih =>
    rw [List.foldl_cons, ih, invItems_getD (GoMap.WF2_getD hwf u), List.filter_cons]
    by_cases h : i ∈ (userRaw.getD u []).keys <;> simp [rated, h]

theorem invLocal_getD {userRaw : GoMap (GoMap ℤ)} (hwf : userRaw.WF2) (block : List ℤ) (i : ℤ) :
    (invLocal userRaw block).getD i [] = block.filter (rated userRaw i) := by
  unfold invLocal
  rw [invUsers_getD hwf]
  simp [GoMap.getD, GoMap.get?]

theorem invLocal_WF (userRaw : GoMap (GoMap ℤ)) (block : List ℤ) :
    (invLocal userRaw block).WF := by
  unfold invLocal
  have h : ∀ (loc : GoMap (List ℤ)), loc.WF → (block.foldl (fun loc u =>
      (userRaw.getD u []).foldl (fun loc e => loc.set e.1 (loc.getD e.1 [] ++ [u])) loc)
      loc).WF := by
    induction block with
    | nil => intro loc h; exact h
    | cons u block ih => intro loc h; exact ih _ (invItems_WF _ _ h)
  exact h _ GoMap.WF_nil

theorem invMerge_getD {loc : GoMap (List ℤ)} (hloc : loc.WF) (inv : GoMap (List ℤ)) (i : ℤ) :
    (invMerge inv loc).getD i [] = inv.getD i [] ++ loc.getD i [] := by
  unfold invMerge
  induction loc generalizing inv with
  | nil => simp [GoMap.getD, GoMap.get?]
  | cons e loc ih =>
    obtain ⟨k, us⟩ := e
    have hl : k ∉ GoMap.keys loc ∧ GoMap.WF loc := by
      simpa [GoMap.WF, GoMap.keys] using hloc
    rw [List.foldl_cons, ih hl.2, GoMap.getD_set]
    by_cases hk : k = i
    · subst hk
      have hn : GoMap.get? loc k = none := (GoMap.get?_eq_none_iff _ _).2 hl.1
      simp [GoMap.getD, GoMap.get?, hn]
    · simp [GoMap.getD, GoMap.get?, hk]

theorem invMerge_WF {inv : GoMap (List ℤ)} (h : inv.WF) (loc : GoMap (List ℤ)) :
    (invMerge inv loc).WF := by
  unfold invMerge
  induction loc generalizing inv with
  | nil => exact h
  | cons e loc ih => exact ih (GoMap.WF_set h _ _)

theorem invFold_getD {userRaw : GoMap (GoMap ℤ)} (hwf : userRaw.WF2) (users : List ℤ)
    (sched : List ℕ) (init : GoMap (List ℤ)) (i : ℤ) :
    (sched.foldl (fun inv w => invMerge inv (invLocal userRaw (workerBlock users w)))
      init).getD i [] =
      init.getD i [] ++ ((sched.map (workerBlock users)).flatten).filter (rated userRaw i) := by
  induction sched generalizing init with
  | nil => simp
  | cons w sched ih =>
    rw [List.foldl_cons, ih, invMerge_getD (invLocal_WF _ _), invLocal_getD hwf]
    simp [List.append_assoc]

theorem invFold_WF (userRaw : GoMap (GoMap ℤ)) (users : List ℤ)
    (sched : List ℕ) (init : GoMap (List ℤ)) (h : init.WF) :
    (sched.foldl (fun inv w => invMerge inv (invLocal userRaw (workerBlock users w)))
      init).WF := by
  induction sched generalizing init with
  | nil => exact h
  | cons w sched ih => exact ih _ (invMerge_WF h _)

/-- The list of an item in the inverted index is a rearrangement of the list
of the users who rated it. -/
theorem buildInverted_perm {sched : List ℕ} (hs : sched.Perm (List.range NumWorkers))
    {userRaw : GoMap (GoMap ℤ)} (hwf : userRaw.WF2) (i : ℤ) :
    ((buildInverted sched userRaw).getD i []).Perm (userRaw.keys.filter (rated userRaw i)) := by
  unfold buildInverted
  rw [invFold_getD hwf]
  simp only [GoMap.getD, GoMap.get?, Option.getD_none, List.nil_append]
  exact (sched_blocks_perm userRaw.keys hs).filter _

theorem mem_filter_rated (userRaw : GoMap (GoMap ℤ)) (i u : ℤ) :
    u ∈ userRaw.keys.filter (rated userRaw i) ↔
      ∃ items, userRaw.get? u = some items ∧ i ∈ items.keys := by
  rw [List.mem_filter, GoMap.mem_keys_iff]
  constructor
  · rintro ⟨⟨items, hu⟩, hr⟩
    refine ⟨items, hu, ?_⟩
    simpa [rated, GoMap.get?_getD hu] using hr
  · rintro ⟨items, hu, hi⟩
    exact ⟨⟨items, hu⟩, by simpa [rated, GoMap.get?_getD hu] using hi⟩

/-- C3: for every profile map, every merge order of the sixteen workers and
every item `i`, a user occurs in `buildInverted(userRaw)[i]` exactly when `i`
is a key of the profile of that user, and no user occurs twice in the list;
the sixteen contiguous blocks of the user list, put end to end, are the user
list itself, so they are pairwise disjoint and cover every user, for every
number of users. -/
theorem buildInverted_spec (sched : List ℕ) (hs : sched.Perm (List.range NumWorkers))
    (userRaw : GoMap (GoMap ℤ)) (hwf : userRaw.WF2) :
    ((List.range NumWorkers).map (workerBlock userRaw.keys)).flatten = userRaw.keys ∧
    (buildInverted sched userRaw).WF ∧
    ∀ i, ((buildInverted sched userRaw).getD i []).Nodup ∧
      ∀ u, u ∈ (buildInverted sched userRaw).getD i [] ↔
        ∃ items, userRaw.get? u = some items ∧ i ∈ items.keys := by
  refine ⟨flatten_workerBlocks _, invFold_WF _ _ _ _ GoMap.WF_nil, fun i => ⟨?_, fun u => ?_⟩⟩
  · exact (buildInverted_perm hs hwf i).nodup_iff.2 (hwf.1.filter _)
  · rw [(buildInverted_perm hs hwf i).mem_iff, mem_filter_rated]

/-- Three users who all rated the items 10 and 20: each is listed once under
item 10, nobody under item 30. -/
theorem buildInverted_spec_witness :
    (List.range NumWorkers).Perm (List.range NumWorkers) ∧
    GoMap.WF2 ([(1, [(10, 5), (20, 4)]), (2, [(10, 4), (20, 5)]), (3, [(10, 1), (20, 2)])] :
      GoMap (GoMap ℤ)) ∧
    (2 ∈ (buildInverted (List.range NumWorkers)
        [(1, [(10, 5), (20, 4)]), (2, [(10, 4), (20, 5)]), (3, [(10, 1), (20, 2)])]).getD 10 []) ∧
    (2 ∉ (buildInverted (List.range NumWorkers)
        [(1, [(10, 5), (20, 4)]), (2, [(10, 4), (20, 5)]), (3, [(10, 1), (20, 2)])]).getD 30 []) := by
  have h := (buildInverted_spec (List.range NumWorkers) (List.Perm.refl _)
    [(1, [(10, 5), (20, 4)]), (2, [(10, 4), (20, 5)]), (3, [(10, 1), (20, 2)])] (by decide)).2.2
  refine ⟨List.Perm.refl _, by decide, ?_, ?_⟩
  · exact ((h 10).2 2).2 ⟨[(10, 4), (20, 5)], by decide, by decide⟩
  · rw [(h 30).2 2]
    rintro ⟨items, h1, h2⟩
    have : items = [(10, 4), (20, 5)] := by
      have h3 : GoMap.get? ([(1, [(10, 5), (20, 4)]), (2, [(10, 4), (20, 5)]),
        (3, [(10, 1), (20, 2)])] : GoMap (GoMap ℤ)) 2 = some [(10, 4), (20, 5)] := by decide
      rw [h3] at h1
      exact (Option.some.inj h1).symm
    subst this
    revert h2
    decide

/-! ## buildUserRaw: lemmas -/

theorem GoMap.set_set {V : Type} (m : GoMap V) (k : ℤ) (a b : V) :
    (m.set k a).set k b = m.set k b := by
  induction m with
  | nil => simp [GoMap.set]
  | cons e m ih =>
    obtain ⟨k', v⟩ := e
    by_cases h : k' = k
    · simp [GoMap.set, h]
    · simp [GoMap.set, h, ih]

theorem GoMap.getD_set_self {V : Type} (m : GoMap V) (k : ℤ) (v d : V) :
    (m.set k v).getD k d = v := by
  rw [GoMap.getD_set, if_pos rfl]

/-- One write `userRaw[u][i] = r`, the profile being created when absent. -/
theorem rawWrite_getD (m : GoMap (GoMap ℤ)) (t : ℤ × ℤ × ℤ) (u : ℤ) :
    (m.set t.1 ((m.getD t.1 []).set t.2.1 t.2.2)).getD u [] =
      if t.1 = u then (m.getD t.1 []).set t.2.1 t.2.2 else m.getD u [] :=
  GoMap.getD_set _ _ _ _ _

theorem RawInv_nil : RawInv [] [] := by
  refine ⟨⟨GoMap.WF_nil, by simp⟩, ?_, ?_, ?_⟩
  · simp [GoMap.keys]
  · simp [GoMap.keys, GoMap.getD, GoMap.get?]
  · simp [GoMap.getD, GoMap.get?]

theorem RawInv_write {m : GoMap (GoMap ℤ)} {L : List (ℤ × ℤ × ℤ)} (h : RawInv m L)
    (t : ℤ × ℤ × ℤ) :
    RawInv (m.set t.1 ((m.getD t.1 []).set t.2.1 t.2.2)) (L ++ [t]) := by
  obtain ⟨hwf, hk, hi, hv⟩ := h
  obtain ⟨tu, ti, tr⟩ := t
  refine ⟨?_, ?_, ?_, ?_⟩
  · refine GoMap.WF2_of_get? (GoMap.WF_set hwf.1 _ _) ?_
    intro k v hkv
    rw [GoMap.get?_set] at hkv
    split at hkv
    · cases hkv
      exact GoMap.WF_set (GoMap.WF2_getD hwf _) _ _
    · exact GoMap.WF2_get? hwf hkv
  · intro u
    rw [GoMap.mem_keys_set, hk]
    constructor
    · rintro (rfl | ⟨i, r, h⟩)
      · exact ⟨ti, tr, by simp⟩
      · exact ⟨i, r, by simp [h]⟩
    · rintro ⟨i, r, h⟩
      rcases List.mem_append.1 h with h | h
      · exact Or.inr ⟨i, r, h⟩
      · simp only [List.mem_singleton, Prod.mk.injEq] at h
        exact Or.inl h.1
  · intro u i
    rw [rawWrite_getD]
    by_cases hu : tu = u
    · subst hu
      simp only [if_true]
      rw [GoMap.mem_keys_set, hi]
      constructor
      · rintro (rfl | ⟨r, h⟩)
        · exact ⟨tr, by simp⟩
        · exact ⟨r, by simp [h]⟩
      · rintro ⟨r, h⟩
        rcases List.mem_append.1 h with h | h
        · exact Or.inr ⟨r, h⟩
        · simp only [List.mem_singleton, Prod.mk.injEq] at h
          exact Or.inl h.2.1
    · simp only [hu, if_false]
      rw [hi]
      constructor
      · rintro ⟨r, h⟩
        exact ⟨r, by simp [h]⟩
      · rintro ⟨r, h⟩
        rcases List.mem_append.1 h with h | h
        · exact ⟨r, h⟩
        · simp only [List.mem_singleton, Prod.mk.injEq] at h
          exact absurd h.1.symm hu
  · intro u i r
    rw [rawWrite_getD]
    by_cases hu : tu = u
    · subst hu
      simp only [if_true]
      rw [GoMap.get?_set]
      by_cases hti : ti = i
      · subst hti
        simp only [if_true, Option.some.injEq]
        rintro rfl
        simp
      · simp only [hti, if_false]
        intro h
        exact List.mem_append_left _ (hv _ _ _ h)
    · simp only [hu, if_false]
      intro h
      exact List.mem_append_left _ (hv _ _ _ h)

theorem RawInv_foldl (T : List (ℤ × ℤ × ℤ)) {m : GoMap (GoMap ℤ)} {L : List (ℤ × ℤ × ℤ)}
    (h : RawInv m L) :
    RawInv (T.foldl (fun loc t => loc.set t.1 ((loc.getD t.1 []).set t.2.1 t.2.2)) m)
      (L ++ T) := by
  induction T generalizing m L with
  | nil => simpa using h
  | cons t T ih =>
    have := ih (RawInv_write h t)
    simpa [List.append_assoc] using this

theorem rawLocal_inv (block : List (ℤ × ℤ × ℤ)) : RawInv (rawLocal block) block := by
  have := RawInv_foldl block RawInv_nil
  simpa [rawLocal] using this

theorem RawInv_nonempty {m : GoMap (GoMap ℤ)} {L : List (ℤ × ℤ × ℤ)} (h : RawInv m L)
    {u : ℤ} {prof : GoMap ℤ} (hu : m.get? u = some prof) : prof ≠ [] := by
  obtain ⟨_, hk, hi, _⟩ := h
  obtain ⟨i, r, hir⟩ := (hk u).1 ((GoMap.mem_keys_iff _ _).2 ⟨prof, hu⟩)
  have := (hi u i).2 ⟨r, hir⟩
  rw [GoMap.get?_getD hu] at this
  intro e
  subst e
  simp [GoMap.keys] at this

theorem mem_triples {m : GoMap (GoMap ℤ)} (hm : m.WF2) (u i r : ℤ) :
    (u, i, r) ∈ triples m ↔ (m.getD u []).get? i = some r := by
  unfold triples
  rw [List.mem_flatMap]
  constructor
  · rintro ⟨e, he, ht⟩
    obtain ⟨x, hx, hxe⟩ := List.mem_map.1 ht
    simp only [Prod.mk.injEq] at hxe
    obtain ⟨h1, h2, h3⟩ := hxe
    have hg : m.get? u = some e.2 := GoMap.get?_of_mem hm.1 (by rw [← h1]; exact he)
    rw [GoMap.get?_getD hg]
    exact GoMap.get?_of_mem (hm.2 e he) (by rw [← h2, ← h3]; exact hx)
  · intro h
    cases hg : m.get? u with
    | none =>
      rw [GoMap.getD_of_none hg] at h
      simp [GoMap.get?] at h
    | some prof =>
      rw [GoMap.get?_getD hg] at h
      exact ⟨(u, prof), GoMap.mem_of_get? hg,
        List.mem_map.2 ⟨(i, r), GoMap.mem_of_get? h, rfl⟩⟩

theorem writes_after_set (acc : GoMap (GoMap ℤ)) (u : ℤ) (items : GoMap ℤ) (p : GoMap ℤ) :
    (items.map (fun x => (u, x.1, x.2))).foldl
      (fun loc t => loc.set t.1 ((loc.getD t.1 []).set t.2.1 t.2.2)) (acc.set u p) =
      acc.set u (items.foldl (fun m x => m.set x.1 x.2) p) := by
  induction items generalizing p with
  | nil => rfl
  | cons x items ih =>
    simp only [List.map_cons, List.foldl_cons]
    rw [GoMap.getD_set_self, GoMap.set_set, ih]

theorem writes_profile (acc : GoMap (GoMap ℤ)) (u : ℤ) {items : GoMap ℤ} (h : items ≠ []) :
    (items.map (fun x => (u, x.1, x.2))).foldl
      (fun loc t => loc.set t.1 ((loc.getD t.1 []).set t.2.1 t.2.2)) acc =
      acc.set u (items.foldl (fun m x => m.set x.1 x.2) (acc.getD u [])) := by
  cases items with
  | nil => exact absurd rfl h
  | cons x items =>
    simp only [List.map_cons, List.foldl_cons]
    exact writes_after_set _ _ _ _

/-- Merging local profiles, none of them empty, is the sequence of the
writes of their entries. -/
theorem rawMerge_eq_writes (acc : GoMap (GoMap ℤ)) {loc : GoMap (GoMap ℤ)}
    (h : ∀ e ∈ loc, e.2 ≠ []) :
    rawMerge acc loc =
      (triples loc).foldl (fun loc t => loc.set t.1 ((loc.getD t.1 []).set t.2.1 t.2.2)) acc := by
  unfold rawMerge triples
  induction loc generalizing acc with
  | nil => rfl
  | cons e loc ih =>
    rw [List.flatMap_cons, List.foldl_append, List.foldl_cons,
      writes_profile acc e.1 (h e (List.mem_cons_self _ _))]
    exact ih _ (fun e' he' => h e' (List.mem_cons_of_mem _ he'))

theorem rawLocal_nonempty (block : List (ℤ × ℤ × ℤ)) : ∀ e ∈ rawLocal block, e.2 ≠ [] := by
  intro e he
  have hinv := rawLocal_inv block
  exact RawInv_nonempty hinv (GoMap.get?_of_mem hinv.1.1 he)

theorem rawFold_eq_writes (ratings : List (ℤ × ℤ × ℤ)) (sched : List ℕ)
    (init : GoMap (GoMap ℤ)) :
    sched.foldl (fun userRaw w => rawMerge userRaw (rawLocal (workerBlock ratings w))) init =
      (sched.flatMap (fun w => triples (rawLocal (workerBlock ratings w)))).foldl
        (fun loc t => loc.set t.1 ((loc.getD t.1 []).set t.2.1 t.2.2)) init := by
  induction sched generalizing init with
  | nil => rfl
  | cons w sched ih =>
    rw [List.foldl_cons, List.flatMap_cons, List.foldl_append, ih,
      rawMerge_eq_writes _ (rawLocal_nonempty _)]

/-- The writes of all merges taken together are records of the input, and
every (user, item) pair of the input is among them. -/
theorem merged_writes {sched : List ℕ} (hs : sched.Perm (List.range NumWorkers))
    (ratings : List (ℤ × ℤ × ℤ)) :
    (∀ t, t ∈ sched.flatMap (fun w => triples (rawLocal (workerBlock ratings w))) →
      t ∈ ratings) ∧
    (∀ u i r, (u, i, r) ∈ ratings →
      ∃ r', (u, i, r') ∈ sched.flatMap (fun w => triples (rawLocal (workerBlock ratings w)))) := by
  constructor
  · rintro ⟨u, i, r⟩ ht
    obtain ⟨w, hw, hm⟩ := List.mem_flatMap.1 ht
    have hinv := rawLocal_inv (workerBlock ratings w)
    rw [mem_triples hinv.1] at hm
    exact (mem_sched_blocks ratings hs _).1 ⟨w, hw, hinv.2.2.2 _ _ _ hm⟩
  · intro u i r ht
    obtain ⟨w, hw, hm⟩ := (mem_sched_blocks ratings hs _).2 ht
    have hinv := rawLocal_inv (workerBlock ratings w)
    obtain ⟨r', hr'⟩ := (GoMap.mem_keys_iff _ _).1 ((hinv.2.2.1 u i).2 ⟨r, hm⟩)
    exact ⟨r', List.mem_flatMap.2 ⟨w, hw, (mem_triples hinv.1 _ _ _).2 hr'⟩⟩

theorem buildUserRaw_inv {sched : List ℕ} (hs : sched.Perm (List.range NumWorkers))
    (ratings : List (ℤ × ℤ × ℤ)) :
    (buildUserRaw sched ratings).WF2 ∧
    (∀ u, u ∈ (buildUserRaw sched ratings).keys ↔ ∃ i r, (u, i, r) ∈ ratings) ∧
    (∀ u i, i ∈ ((buildUserRaw sched ratings).getD u []).keys ↔ ∃ r, (u, i, r) ∈ ratings) ∧
    (∀ u i r, ((buildUserRaw sched ratings).getD u []).get? i = some r →
      (u, i, r) ∈ ratings) := by
  have hinv := RawInv_foldl
    (sched.flatMap (fun w => triples (rawLocal (workerBlock ratings w)))) RawInv_nil
  rw [List.nil_append, ← rawFold_eq_writes] at hinv
  obtain ⟨h1, h2⟩ := merged_writes hs ratings
  obtain ⟨hwf, hk, hi, hv⟩ := hinv
  refine ⟨hwf, ?_, ?_, ?_⟩
  · intro u
    refine (hk u).trans ?_
    constructor
    · rintro ⟨i, r, h⟩
      exact ⟨i, r, h1 _ h⟩
    · rintro ⟨i, r, h⟩
      obtain ⟨r', h'⟩ := h2 _ _ _ h
      exact ⟨i, r', h'⟩
  · intro u i
    refine (hi u i).trans ?_
    constructor
    · rintro ⟨r, h⟩
      exact ⟨r, h1 _ h⟩
    · rintro ⟨r, h⟩
      exact h2 _ _ _ h
  · intro u i r h
    exact h1 _ (hv u i r h)

/-- C4: for every list of rating triples, of any length, and every merge
order of the sixteen workers, `buildUserRaw` returns a map of maps in which a
user is a key exactly when some record names the user, every profile is
non-empty, an item is a key of the profile of `u` exactly when some record is
`(u, i, _)`, and the value stored is the score of one such record; when no two
records share their (user, item) pair, `userRaw[u][i] = r` holds exactly when
`(u, i, r)` is a record. -/
theorem buildUserRaw_spec (sched : List ℕ) (hs : sched.Perm (List.range NumWorkers))
    (ratings : List (ℤ × ℤ × ℤ)) :
    (buildUserRaw sched ratings).WF2 ∧
    (∀ u, u ∈ (buildUserRaw sched ratings).keys ↔ ∃ i r, (u, i, r) ∈ ratings) ∧
    (∀ u prof, (buildUserRaw sched ratings).get? u = some prof →
      prof ≠ [] ∧
      (∀ i, i ∈ prof.keys ↔ ∃ r, (u, i, r) ∈ ratings) ∧
      (∀ i r, prof.get? i = some r → (u, i, r) ∈ ratings)) ∧
    ((ratings.map (fun t => (t.1, t.2.1))).Nodup →
      ∀ u i r, (∃ prof, (buildUserRaw sched ratings).get? u = some prof ∧
        prof.get? i = some r) ↔ (u, i, r) ∈ ratings) := by
  obtain ⟨hwf, hk, hi, hv⟩ := buildUserRaw_inv hs ratings
  refine ⟨hwf, hk, ?_, ?_⟩
  · intro u prof hu
    have hi' := hi u
    have hv' := hv u
    rw [GoMap.get?_getD hu] at hi' hv'
    refine ⟨?_, hi', hv'⟩
    obtain ⟨i, r, hir⟩ := (hk u).1 ((GoMap.mem_keys_iff _ _).2 ⟨prof, hu⟩)
    have := (hi' i).2 ⟨r, hir⟩
    intro e
    subst e
    simp [GoMap.keys] at this
  · intro hnd u i r
    constructor
    · rintro ⟨prof, hu, hp⟩
      have hv' := hv u i r
      rw [GoMap.get?_getD hu] at hv'
      exact hv' hp
    · intro ht
      obtain ⟨prof, hu⟩ := (GoMap.mem_keys_iff _ _).1 ((hk u).2 ⟨i, r, ht⟩)
      have hi' := hi u i
      have hv' := hv u i
      rw [GoMap.get?_getD hu] at hi' hv'
      obtain ⟨r', hr'⟩ := (GoMap.mem_keys_iff _ _).1 (hi'.2 ⟨r, ht⟩)
      have ht' := hv' r' hr'
      have := List.inj_on_of_nodup_map hnd ht ht' rfl
      simp only [Prod.mk.injEq, true_and] at this
      exact ⟨prof, hu, by rw [this]; exact hr'⟩

/-- Six records, fewer than the sixteen workers, no pair rated twice: user 3
gets a profile in which item 20 has the score 2. -/
theorem buildUserRaw_spec_witness :
    (List.range NumWorkers).Perm (List.range NumWorkers) ∧
    (([(1, 10, 5), (1, 20, 4), (2, 10, 4), (2, 20, 5), (3, 10, 1), (3, 20, 2)] :
      List (ℤ × ℤ × ℤ)).map (fun t => (t.1, t.2.1))).Nodup ∧
    ∃ prof, (buildUserRaw (List.range NumWorkers)
      [(1, 10, 5), (1, 20, 4), (2, 10, 4), (2, 20, 5), (3, 10, 1), (3, 20, 2)]).get? 3
        = some prof ∧ prof.get? 20 = some 2 :=
  ⟨List.Perm.refl _, by decide,
    ((buildUserRaw_spec (List.range NumWorkers) (List.Perm.refl _)
      [(1, 10, 5), (1, 20, 4), (2, 10, 4), (2, 20, 5), (3, 10, 1), (3, 20, 2)]).2.2.2
      (by decide) 3 20 2).2 (by decide)⟩

/-! ## pearson: lemmas -/

theorem pearsonLoop_foldl (uMap vMap : GoMap ℚ) (acc : Acc) :
    uMap.foldl (fun a e =>
      match vMap.get? e.1 with
      | some rv => (⟨a.num + e.2 * rv, a.denU + e.2 * e.2, a.denV + rv * rv, a.cnt + 1⟩ : Acc)
      | none => a) acc =
    ⟨acc.num + ((common uMap vMap).map (fun t => t.2.1 * t.2.2)).sum,
      acc.denU + ((common uMap vMap).map (fun t => t.2.1 * t.2.1)).sum,
      acc.denV + ((common uMap vMap).map (fun t => t.2.2 * t.2.2)).sum,
      acc.cnt + ((common uMap vMap).length : ℤ)⟩ := by
  induction uMap generalizing acc with
  | nil => simp [common]
  | cons e uMap ih =>
    rw [List.foldl_cons, ih]
    cases h : vMap.get? e.1 with
    | none => simp [common, h]
    | some rv =>
      simp only [common, List.filterMap_cons, h, Option.map_some', List.map_cons, List.sum_cons,
        List.length_cons, Acc.mk.injEq]
      refine ⟨by ring, by ring, by ring, ?_⟩
      push_cast
      ring

theorem pearsonLoop_eq (uMap vMap : GoMap ℚ) :
    pearsonLoop uMap vMap =
    ⟨((common uMap vMap).map (fun t => t.2.1 * t.2.2)).sum,
      ((common uMap vMap).map (fun t => t.2.1 * t.2.1)).sum,
      ((common uMap vMap).map (fun t => t.2.2 * t.2.2)).sum,
      ((common uMap vMap).length : ℤ)⟩ := by
  unfold pearsonLoop
  rw [pearsonLoop_foldl]
  simp

theorem mem_common {a : GoMap ℚ} (ha : a.WF) (b : GoMap ℚ) (i : ℤ) (x y : ℚ) :
    (i, x, y) ∈ common a b ↔ a.get? i = some x ∧ b.get? i = some y := by
  unfold common
  rw [List.mem_filterMap]
  constructor
  · rintro ⟨e, he, hf⟩
    cases hb : b.get? e.1 with
    | none => simp [hb] at hf
    | some rv =>
      simp only [hb, Option.map_some', Option.some.injEq, Prod.mk.injEq] at hf
      obtain ⟨h1, h2, h3⟩ := hf
      subst h1 h2 h3
      exact ⟨GoMap.get?_of_mem ha he, hb⟩
  · rintro ⟨h1, h2⟩
    exact ⟨(i, x), GoMap.mem_of_get? h1, by simp [h2]⟩

theorem nodup_common {a : GoMap ℚ} (ha : a.WF) (b : GoMap ℚ) : (common a b).Nodup := by
  unfold common
  refine List.Nodup.filterMap ?_ (List.Nodup.of_map _ ha)
  intro e e' t ht ht'
  cases hb : b.get? e.1 with
  | none => simp [hb] at ht
  | some rv =>
    cases hb' : b.get? e'.1 with
    | none => simp [hb'] at ht'
    | some rv' =>
      simp only [hb, hb', Option.map_some', Option.mem_def, Option.some.injEq] at ht ht'
      rw [← ht'] at ht
      simp only [Prod.mk.injEq] at ht
      exact Prod.ext ht.1 ht.2.1

/-- Ranging over the other map finds the same common items, with the two
values exchanged. -/
theorem common_swap {a b : GoMap ℚ} (ha : a.WF) (hb : b.WF) :
    (common b a).Perm ((common a b).map (fun t => (t.1, t.2.2, t.2.1))) := by
  have hinj : Function.Injective (fun t : ℤ × ℚ × ℚ => (t.1, t.2.2, t.2.1)) := by
    rintro ⟨i, x, y⟩ ⟨i', x', y'⟩ h
    simp only [Prod.mk.injEq] at h
    obtain ⟨h1, h2, h3⟩ := h
    subst h1 h2 h3
    rfl
  rw [List.perm_ext_iff_of_nodup (nodup_common hb a) ((nodup_common ha b).map hinj)]
  rintro ⟨i, y, x⟩
  rw [mem_common hb, List.mem_map]
  constructor
  · rintro ⟨h1, h2⟩
    exact ⟨(i, x, y), (mem_common ha b i x y).2 ⟨h2, h1⟩, rfl⟩
  · rintro ⟨⟨i', x', y'⟩, hm, he⟩
    simp only [Prod.mk.injEq] at he
    obtain ⟨h1, h2, h3⟩ := he
    subst h1 h2 h3
    have := (mem_common ha b _ _ _).1 hm
    exact ⟨this.2, this.1⟩

theorem common_keys (a b : GoMap ℚ) :
    (common a b).map (fun t => t.1) = a.keys.filter (fun i => decide (i ∈ b.keys)) := by
  unfold common GoMap.keys
  induction a with
  | nil => rfl
  | cons e a ih =>
    cases hb : b.get? e.1 with
    | none =>
      have : e.1 ∉ GoMap.keys b := (GoMap.get?_eq_none_iff _ _).1 hb
      simp only [GoMap.keys] at this
      simp only [List.filterMap_cons, hb, Option.map_none', List.map_cons, List.filter_cons]
      simp only [this, decide_False, Bool.false_eq_true, if_false]
      exact ih
    | some rv =>
      have : e.1 ∈ GoMap.keys b := (GoMap.mem_keys_iff _ _).2 ⟨rv, hb⟩
      simp only [GoMap.keys] at this
      simp only [List.filterMap_cons, hb, Option.map_some', List.map_cons, List.filter_cons]
      simp only [this, decide_True, if_true, List.cons.injEq, true_and]
      exact ih

theorem length_common (a b : GoMap ℚ) : (common a b).length = overlap a b := by
  unfold overlap
  rw [← common_keys, List.length_map]

theorem overlap_comm {a b : GoMap ℚ} (ha : a.WF) (hb : b.WF) : overlap a b = overlap b a := by
  rw [← length_common, ← length_common, (common_swap ha hb).length_eq, List.length_map]

/-- The loop over the other map returns the same accumulators with `denU` and
`denV` exchanged. -/
theorem pearsonLoop_swap {a b : GoMap ℚ} (ha : a.WF) (hb : b.WF) :
    pearsonLoop b a =
      ⟨(pearsonLoop a b).num, (pearsonLoop a b).denV, (pearsonLoop a b).denU,
        (pearsonLoop a b).cnt⟩ := by
  have hp := common_swap ha hb
  rw [pearsonLoop_eq, pearsonLoop_eq]
  simp only [Acc.mk.injEq]
  refine ⟨?_, ?_, ?_, ?_⟩
  · rw [(hp.map _).sum_eq, List.map_map]
    congr 1
    apply List.map_congr_left
    intro t _
    simp [mul_comm]
  · rw [(hp.map _).sum_eq, List.map_map]
    rfl
  · rw [(hp.map _).sum_eq, List.map_map]
    rfl
  · rw [hp.length_eq, List.length_map]

theorem pearsonResult_swap (a : Acc) :
    pearsonResult ⟨a.num, a.denV, a.denU, a.cnt⟩ = pearsonResult a := by
  unfold pearsonResult
  simp only [mul_comm (sqrt a.denV), or_comm (a := a.denV = 0)]

/-- Without rounding (the functions on `ℚ`), `pearson(a, b)` and
`pearson(b, a)` return the same similarity and the same overlap count, whether
the sizes differ (one call swaps its arguments) or are equal (neither
does). -/
theorem pearson_comm (a b : GoMap ℚ) (ha : a.WF) (hb : b.WF) :
    pearson a b = pearson b a := by
  unfold pearson
  rcases lt_trichotomy a.length b.length with h | h | h
  · have h1 : ¬ a.length > b.length := by omega
    rw [if_neg h1, if_pos h]
  · have h1 : ¬ a.length > b.length := by omega
    have h2 : ¬ b.length > a.length := by omega
    rw [if_neg h1, if_neg h2, pearsonLoop_swap ha hb, pearsonResult_swap]
  · have h1 : ¬ b.length > a.length := by omega
    rw [if_pos h, if_neg h1]

theorem pearsonResult_snd (a : Acc) : (pearsonResult a).2 = a.cnt := by
  unfold pearsonResult
  split <;> rfl

theorem pearsonResult_fst_of_lt {a : Acc} (h : a.cnt < MinOverlap) : (pearsonResult a).1 = 0 := by
  unfold pearsonResult
  rw [if_pos (Or.inl h)]

theorem pearsonLoop_cnt (a b : GoMap ℚ) : (pearsonLoop a b).cnt = (overlap a b : ℤ) := by
  rw [pearsonLoop_eq, length_common]

/-- The count returned by `pearson` is the number of common items. -/
theorem pearson_snd {a b : GoMap ℚ} (ha : a.WF) (hb : b.WF) :
    (pearson a b).2 = (overlap a b : ℤ) := by
  unfold pearson
  split
  · rw [pearsonResult_snd, pearsonLoop_cnt, overlap_comm hb ha]
  · rw [pearsonResult_snd, pearsonLoop_cnt]

theorem pearson_fst_of_lt {a b : GoMap ℚ} (ha : a.WF) (hb : b.WF)
    (h : (overlap a b : ℤ) < MinOverlap) : (pearson a b).1 = 0 := by
  unfold pearson
  split
  · apply pearsonResult_fst_of_lt
    rw [pearsonLoop_cnt, overlap_comm hb ha]
    exact h
  · apply pearsonResult_fst_of_lt
    rw [pearsonLoop_cnt]
    exact h

theorem toyRaw_eq :
    toyRaw = [(1, [(1, 5), (2, 4)]), (2, [(1, 4), (2, 5)]), (3, [(1, 1), (2, 2)])] := by
  decide

theorem toyMeans_eq : userMeans toyRaw = [(1, 9 / 2), (2, 9 / 2), (3, 3 / 2)] := by
  rw [toyRaw_eq]
  simp [userMeans, sumScores, GoMap.set]

theorem toyNorm_eq :
    toyNorm = [(1, [(1, 1 / 2), (2, -1 / 2)]), (2, [(1, -1 / 2), (2, 1 / 2)]),
      (3, [(1, -1 / 2), (2, 1 / 2)])] := by
  unfold toyNorm
  rw [toyMeans_eq, toyRaw_eq]
  simp [buildUserNorm, normMerge, normLocal, normProfile, workerBlock, slice, blockStart,
    blockEnd, NumWorkers, GoMap.keys, GoMap.set, GoMap.getD, GoMap.get?, List.range,
    List.range.loop]
  norm_num

theorem toyInv_eq : toyInv = [(1, [1, 2, 3]), (2, [1, 2, 3])] := by
  decide

/-- C6: whenever two normalized profiles have fewer than `MinOverlap = 5`
items in common, `pearson` returns the similarity 0 and the number of common
items as the count, whatever the values; in the example of the users (5, 4),
(4, 5) and (1, 2) the normalized profiles are (1/2, −1/2), (−1/2, 1/2) and
(−1/2, 1/2), every pair has similarity 0 with count 2, and `topKNeighbors`
gives each user an empty list. -/
theorem pearson_below_MinOverlap :
    (∀ a b : GoMap ℚ, a.WF → b.WF → (overlap a b : ℤ) < MinOverlap →
      pearson a b = (0, (overlap a b : ℤ))) ∧
    toyNorm = [(1, [(1, 1 / 2), (2, -1 / 2)]), (2, [(1, -1 / 2), (2, 1 / 2)]),
      (3, [(1, -1 / 2), (2, 1 / 2)])] ∧
    (∀ u ∈ [1, 2, 3], ∀ v ∈ [1, 2, 3],
      pearson (toyNorm.getD u []) (toyNorm.getD v []) = (0, 2)) ∧
    (∀ u ∈ [1, 2, 3], (topKNeighbors toyNorm toyInv).get? u = some []) := by
  refine ⟨?_, toyNorm_eq, ?_, ?_⟩
  · intro a b ha hb h
    exact Prod.ext (pearson_fst_of_lt ha hb h) (pearson_snd ha hb)
  · rw [toyNorm_eq]
    decide
  · rw [toyNorm_eq, toyInv_eq]
    decide

/-- Two profiles with two common items, perfectly anti-correlated: the
similarity is 0 and the count 2. -/
theorem pearson_below_MinOverlap_witness :
    GoMap.WF ([(1, 1 / 2), (2, -1 / 2)] : GoMap ℚ) ∧
    GoMap.WF ([(1, -1 / 2), (2, 1 / 2)] : GoMap ℚ) ∧
    ((overlap [(1, 1 / 2), (2, -1 / 2)] [(1, -1 / 2), (2, 1 / 2)] : ℕ) : ℤ) < MinOverlap ∧
    pearson [(1, 1 / 2), (2, -1 / 2)] [(1, -1 / 2), (2, 1 / 2)] =
      (0, ((overlap [(1, 1 / 2), (2, -1 / 2)] [(1, -1 / 2), (2, 1 / 2)] : ℕ) : ℤ)) :=
  ⟨by decide, by decide, by decide,
    pearson_below_MinOverlap.1 _ _ (by decide) (by decide) (by decide)⟩

/-! ## sqrt and the range of pearson -/

theorem newton_step_pos {x z : ℚ} (hx : 0 < x) (hz : 0 < z) : 0 < (1 / 2) * (z + x / z) := by
  positivity

theorem newton_step_sq {x z : ℚ} (hz : 0 < z) : x ≤ ((1 / 2) * (z + x / z)) ^ 2 := by
  have hz' : z ≠ 0 := ne_of_gt hz
  have h : ((1 / 2) * (z + x / z)) ^ 2 - x = ((1 / 2) * (z - x / z)) ^ 2 := by
    field_simp
    ring
  nlinarith [sq_nonneg ((1 / 2) * (z - x / z))]

theorem newton_iterate_pos {x : ℚ} (hx : 0 < x) (n : ℕ) :
    0 < Nat.iterate (fun z => (1 / 2) * (z + x / z)) n x := by
  induction n with
  | zero => exact hx
  | succ n ih =>
    rw [Function.iterate_succ_apply']
    exact newton_step_pos hx ih

theorem sqrt_pos {x : ℚ} (hx : 0 < x) : 0 < sqrt x := by
  unfold sqrt
  rw [if_neg (not_le.2 hx)]
  exact newton_iterate_pos hx 20

/-- The helper never undershoots: its square is at least its argument. -/
theorem le_sqrt_sq (x : ℚ) : x ≤ sqrt x ^ 2 := by
  unfold sqrt
  split
  · rename_i h
    simpa using h
  · rename_i h
    rw [show (20 : ℕ) = 19 + 1 from rfl, Function.iterate_succ_apply']
    exact newton_step_sq (newton_iterate_pos (not_le.1 h) 19)

theorem cauchy_step {n u v x y : ℚ} (hn : n ^ 2 ≤ u * v) (hu : 0 ≤ u) (hv : 0 ≤ v) :
    (x * y + n) ^ 2 ≤ (x * x + u) * (y * y + v) := by
  have h1 : (2 * x * y * n) ^ 2 ≤ (x ^ 2 * v + y ^ 2 * u) ^ 2 := by
    nlinarith [mul_nonneg (sq_nonneg (x * y)) (sub_nonneg.2 hn), sq_nonneg (x ^ 2 * v - y ^ 2 * u)]
  have h2 : 0 ≤ x ^ 2 * v + y ^ 2 * u := by positivity
  have h3 := (abs_le_of_sq_le_sq' h1 h2).2
  nlinarith

/-- The inequality of Cauchy and Schwarz for the three sums of `pearson`. -/
theorem cauchy_sums (L : List (ℤ × ℚ × ℚ)) :
    ((L.map (fun t => t.2.1 * t.2.2)).sum) ^ 2 ≤
      (L.map (fun t => t.2.1 * t.2.1)).sum * (L.map (fun t => t.2.2 * t.2.2)).sum ∧
    0 ≤ (L.map (fun t => t.2.1 * t.2.1)).sum ∧ 0 ≤ (L.map (fun t => t.2.2 * t.2.2)).sum := by
  induction L with
  | nil => simp
  | cons t L ih =>
    obtain ⟨h1, h2, h3⟩ := ih
    simp only [List.map_cons, List.sum_cons]
    exact ⟨cauchy_step h1 h2 h3, add_nonneg (mul_self_nonneg _) h2,
      add_nonneg (mul_self_nonneg _) h3⟩

theorem pearsonResult_bounds {a : Acc} (h : a.num ^ 2 ≤ a.denU * a.denV) (hu : 0 ≤ a.denU)
    (hv : 0 ≤ a.denV) : -1 ≤ (pearsonResult a).1 ∧ (pearsonResult a).1 ≤ 1 := by
  unfold pearsonResult
  split
  · simp
  · rename_i hc
    push_neg at hc
    have hu' : 0 < a.denU := lt_of_le_of_ne hu (Ne.symm hc.2.1)
    have hv' : 0 < a.denV := lt_of_le_of_ne hv (Ne.symm hc.2.2)
    have hsu := sqrt_pos hu'
    have hsv := sqrt_pos hv'
    have hd : 0 < sqrt a.denU * sqrt a.denV := mul_pos hsu hsv
    have hsq : a.num ^ 2 ≤ (sqrt a.denU * sqrt a.denV) ^ 2 := by
      have := mul_le_mul (le_sqrt_sq a.denU) (le_sqrt_sq a.denV) hv (sq_nonneg _)
      calc a.num ^ 2 ≤ a.denU * a.denV := h
        _ ≤ sqrt a.denU ^ 2 * sqrt a.denV ^ 2 := this
        _ = (sqrt a.denU * sqrt a.denV) ^ 2 := by ring
    have habs := abs_le_of_sq_le_sq' hsq (le_of_lt hd)
    simp only
    rw [le_div_iff₀ hd, div_le_iff₀ hd]
    constructor <;> linarith [habs.1, habs.2]

theorem pearsonLoop_bounds (a b : GoMap ℚ) :
    (pearsonLoop a b).num ^ 2 ≤ (pearsonLoop a b).denU * (pearsonLoop a b).denV ∧
    0 ≤ (pearsonLoop a b).denU ∧ 0 ≤ (pearsonLoop a b).denV := by
  rw [pearsonLoop_eq]
  exact cauchy_sums _

/-- Without rounding (the functions on `ℚ`), the similarity returned by
`pearson` lies in the closed interval [−1, 1] for all profiles: the twenty
exact Newton steps of `sqrt` return a value whose square is at least the
argument. -/
theorem pearson_range (a b : GoMap ℚ) : -1 ≤ (pearson a b).1 ∧ (pearson a b).1 ≤ 1 := by
  unfold pearson
  split
  · obtain ⟨h1, h2, h3⟩ := pearsonLoop_bounds b a
    exact pearsonResult_bounds h1 h2 h3
  · obtain ⟨h1, h2, h3⟩ := pearsonLoop_bounds a b
    exact pearsonResult_bounds h1 h2 h3

/-! ## sort.Slice: lemmas -/

theorem insertLeft_perm {α : Type} (less : α → α → Bool) (x : α) (l : List α) :
    (insertLeft less x l).Perm (x :: l) := by
  induction l with
  | nil => exact List.Perm.refl _
  | cons y ys ih =>
    unfold insertLeft
    split
    · exact (List.Perm.cons y ih).trans (List.Perm.swap x y ys)
    · exact List.Perm.refl _

theorem sortSlice_foldl_perm {α : Type} (less : α → α → Bool) (l acc : List α) :
    (l.foldl (fun acc x => insertLeft less x acc) acc).Perm (acc ++ l) := by
  induction l generalizing acc with
  | nil => simp
  | cons x l ih =>
    rw [List.foldl_cons]
    refine (ih _).trans ?_
    refine ((insertLeft_perm less x acc).append_right l).trans ?_
    have hmid : (acc ++ x :: l).Perm (x :: (acc ++ l)) := List.perm_middle
    simpa using hmid.symm

/-- The result of `sort.Slice` is a rearrangement of its argument. -/
theorem sortSlice_perm {α : Type} (less : α → α → Bool) (l : List α) :
    (sortSlice less l).Perm l := by
  unfold sortSlice
  refine (List.reverse_perm _).trans ?_
  simpa using sortSlice_foldl_perm less l []

theorem insertLeft_sorted {α : Type} {less : α → α → Bool}
    (hasymm : ∀ a b, less a b = true → less b a = false)
    (htrans : ∀ a b c, less b a = false → less c b = false → less c a = false)
    (x : α) {l : List α} (hl : l.Pairwise (fun a b => less a b = false)) :
    (insertLeft less x l).Pairwise (fun a b => less a b = false) := by
  induction l with
  | nil => simp [insertLeft]
  | cons y ys ih =>
    rw [List.pairwise_cons] at hl
    unfold insertLeft
    split
    · rename_i hxy
      refine List.pairwise_cons.2 ⟨?_, ih hl.2⟩
      intro z hz
      rcases List.mem_cons.1 ((insertLeft_perm less x ys).mem_iff.1 hz) with rfl | hz
      · exact hasymm _ _ hxy
      · exact hl.1 z hz
    · rename_i hxy
      have hxy' : less x y = false := by simpa using hxy
      refine List.pairwise_cons.2 ⟨?_, List.pairwise_cons.2 hl⟩
      intro z hz
      rcases List.mem_cons.1 hz with rfl | hz
      · exact hxy'
      · exact htrans z y x (hl.1 z hz) hxy'

/-- No element of the result of `sort.Slice` is `less` than an earlier one. -/
theorem sortSlice_sorted {α : Type} {less : α → α → Bool}
    (hasymm : ∀ a b, less a b = true → less b a = false)
    (htrans : ∀ a b c, less b a = false → less c b = false → less c a = false)
    (l : List α) : (sortSlice less l).Pairwise (fun a b => less b a = false) := by
  have h : ∀ (l acc : List α), acc.Pairwise (fun a b => less a b = false) →
      (l.foldl (fun acc x => insertLeft less x acc) acc).Pairwise
        (fun a b => less a b = false) := by
    intro l
    induction l with
    | nil => intro acc h; exact h
    | cons x l ih => intro acc h; exact ih _ (insertLeft_sorted hasymm htrans x h)
  unfold sortSlice
  rw [List.pairwise_reverse]
  exact h l [] List.Pairwise.nil

theorem simLess_false_iff (a b : Sim) : simLess b a = false ↔ simGE a b := by
  unfold simLess simGE
  by_cases h : b.S = a.S
  · simp only [h, if_true, decide_eq_false_iff_not, not_lt, gt_iff_lt, lt_irrefl, false_or,
      true_and]
  · simp only [h, if_false, decide_eq_false_iff_not, not_lt, gt_iff_lt]
    constructor
    · intro hle
      exact Or.inl (lt_of_le_of_ne hle h)
    · rintro (hlt | ⟨heq, _⟩)
      · exact le_of_lt hlt
      · exact absurd heq.symm h

theorem simLess_asymm (a b : Sim) (h : simLess a b = true) : simLess b a = false := by
  rw [simLess_false_iff]
  unfold simLess at h
  unfold simGE
  by_cases hs : a.S = b.S
  · simp only [hs, if_true, decide_eq_true_eq, gt_iff_lt] at h
    exact Or.inr ⟨hs, le_of_lt h⟩
  · simp only [hs, if_false, decide_eq_true_eq, gt_iff_lt] at h
    exact Or.inl h

theorem simGE_trans {a b c : Sim} (h1 : simGE a b) (h2 : simGE b c) : simGE a c := by
  unfold simGE at *
  rcases h1 with h1 | ⟨h1, h1'⟩
  · rcases h2 with h2 | ⟨h2, _⟩
    · exact Or.inl (lt_trans h2 h1)
    · exact Or.inl (h2 ▸ h1)
  · rcases h2 with h2 | ⟨h2, h2'⟩
    · exact Or.inl (h1 ▸ h2)
    · exact Or.inr ⟨h1.trans h2, le_trans h2' h1'⟩

theorem sortSlice_simLess_sorted (l : List Sim) : (sortSlice simLess l).Pairwise simGE := by
  have h := @sortSlice_sorted Sim simLess simLess_asymm
    (fun a b c h1 h2 => (simLess_false_iff a c).2
      (simGE_trans ((simLess_false_iff a b).1 h1) ((simLess_false_iff b c).1 h2))) l
  exact h.imp (fun {a b} hab => (simLess_false_iff a b).1 hab)

/-! ## topKNeighbors: lemmas -/

theorem candInner_mem_keys (u : ℤ) (vs : List ℤ) (cs : GoMap Unit) (v : ℤ) :
    v ∈ (vs.foldl (fun cs v => if v ≠ u then cs.set v () else cs) cs).keys ↔
      v ∈ cs.keys ∨ (v ≠ u ∧ v ∈ vs) := by
  induction vs generalizing cs with
  | nil => simp
  | cons w vs ih =>
    rw [List.foldl_cons, ih]
    by_cases hw : w ≠ u
    · rw [if_pos hw, GoMap.mem_keys_set]
      constructor
      · rintro ((rfl | h) | ⟨h1, h2⟩)
        · exact Or.inr ⟨hw, List.mem_cons_self _ _⟩
        · exact Or.inl h
        · exact Or.inr ⟨h1, List.mem_cons_of_mem _ h2⟩
      · rintro (h | ⟨h1, h2⟩)
        · exact Or.inl (Or.inr h)
        · rcases List.mem_cons.1 h2 with rfl | h2
          · exact Or.inl (Or.inl rfl)
          · exact Or.inr ⟨h1, h2⟩
    · rw [if_neg hw]
      push_neg at hw
      constructor
      · rintro (h | ⟨h1, h2⟩)
        · exact Or.inl h
        · exact Or.inr ⟨h1, List.mem_cons_of_mem _ h2⟩
      · rintro (h | ⟨h1, h2⟩)
        · exact Or.inl h
        · rcases List.mem_cons.1 h2 with rfl | h2
          · exact absurd hw h1
          · exact Or.inr ⟨h1, h2⟩

theorem candInner_WF (u : ℤ) (vs : List ℤ) {cs : GoMap Unit} (h : cs.WF) :
    (vs.foldl (fun cs v => if v ≠ u then cs.set v () else cs) cs).WF := by
  induction vs generalizing cs with
  | nil => exact h
  | cons w vs ih =>
    rw [List.foldl_cons]
    apply ih
    split
    · exact GoMap.WF_set h _ _
    · exact h

theorem candOuter_mem_keys (inv : GoMap (List ℤ)) (u : ℤ) (prof : GoMap ℚ) (cs : GoMap Unit)
    (v : ℤ) :
    v ∈ (prof.foldl (fun cs e =>
      (inv.getD e.1 []).foldl (fun cs v => if v ≠ u then cs.set v () else cs) cs) cs).keys ↔
      v ∈ cs.keys ∨ (v ≠ u ∧ ∃ i ∈ prof.keys, v ∈ inv.getD i []) := by
  induction prof generalizing cs with
  | nil => simp [GoMap.keys]
  | cons e prof ih =>
    rw [List.foldl_cons, ih, candInner_mem_keys]
    simp only [GoMap.keys, List.map_cons, List.mem_cons, exists_eq_or_imp]
    tauto

theorem candOuter_WF (inv : GoMap (List ℤ)) (u : ℤ) (prof : GoMap ℚ) {cs : GoMap Unit}
    (h : cs.WF) :
    (prof.foldl (fun cs e =>
      (inv.getD e.1 []).foldl (fun cs v => if v ≠ u then cs.set v () else cs) cs) cs).WF := by
  induction prof generalizing cs with
  | nil => exact h
  | cons e prof ih => exact ih (candInner_WF u _ h)

/-- The candidates of `u`: the users other than `u` that `inv` lists under
an item of the profile of `u`. -/
theorem mem_candSet (userNorm : GoMap (GoMap ℚ)) (inv : GoMap (List ℤ)) (u v : ℤ) :
    v ∈ (candSet userNorm inv u).keys ↔
      v ≠ u ∧ ∃ i ∈ (userNorm.getD u []).keys, v ∈ inv.getD i [] := by
  unfold candSet
  rw [candOuter_mem_keys]
  simp [GoMap.keys]

theorem candSet_WF (userNorm : GoMap (GoMap ℚ)) (inv : GoMap (List ℤ)) (u : ℤ) :
    (candSet userNorm inv u).WF :=
  candOuter_WF inv u _ GoMap.WF_nil

theorem simsOf_foldl (userNorm : GoMap (GoMap ℚ)) (u : ℤ) (cands : GoMap Unit)
    (acc : List Sim) :
    cands.foldl (fun sims c =>
      let p := pearson (userNorm.getD u []) (userNorm.getD c.1 [])
      if p.1 ≠ 0 then sims ++ [(⟨c.1, p.1, p.2⟩ : Sim)] else sims) acc =
      acc ++ cands.keys.filterMap (simEntry userNorm u) := by
  induction cands generalizing acc with
  | nil => simp [GoMap.keys]
  | cons c cands ih =>
    rw [List.foldl_cons, ih]
    simp only [GoMap.keys, List.map_cons, List.filterMap_cons, simEntry]
    split <;> simp

theorem simsOf_eq (userNorm : GoMap (GoMap ℚ)) (u : ℤ) (cands : GoMap Unit) :
    simsOf userNorm u cands = cands.keys.filterMap (simEntry userNorm u) := by
  unfold simsOf
  rw [simsOf_foldl, List.nil_append]

theorem simEntry_some {userNorm : GoMap (GoMap ℚ)} {u v : ℤ} {s : Sim}
    (h : simEntry userNorm u v = some s) :
    s.V = v ∧ (s.S, s.Cnt) = pearson (userNorm.getD u []) (userNorm.getD v []) ∧ s.S ≠ 0 := by
  unfold simEntry at h
  split at h
  · rename_i hne
    cases h
    exact ⟨rfl, rfl, hne⟩
  · cases h

theorem simsOf_map_V (userNorm : GoMap (GoMap ℚ)) (u : ℤ) (cands : GoMap Unit) :
    (simsOf userNorm u cands).map Sim.V =
      cands.keys.filter (fun v => (simEntry userNorm u v).isSome) := by
  rw [simsOf_eq]
  induction cands.keys with
  | nil => rfl
  | cons v vs ih =>
    cases h : simEntry userNorm u v with
    | none => simp [List.filterMap_cons, h, List.filter_cons, ih]
    | some s => simp [List.filterMap_cons, h, List.filter_cons, ih, (simEntry_some h).1]

theorem topKNeighbors_getD (userNorm : GoMap (GoMap ℚ)) (inv : GoMap (List ℤ)) (u : ℤ) :
    (topKNeighbors userNorm inv).getD u [] =
      if u ∈ userNorm.keys then neighborsOf userNorm inv u else [] := by
  have := GoMap.foldl_set_get?_fun (fun u : ℤ => u) (fun u => neighborsOf userNorm inv u)
    userNorm.keys [] u
  simp only [List.map_id'] at this
  unfold topKNeighbors GoMap.getD
  rw [this]
  split <;> simp [GoMap.get?]

theorem mem_neighborsOf {userNorm : GoMap (GoMap ℚ)} {inv : GoMap (List ℤ)} {u : ℤ} {s : Sim}
    (h : s ∈ neighborsOf userNorm inv u) :
    s ∈ simsOf userNorm u (candSet userNorm inv u) :=
  (sortSlice_perm simLess _).mem_iff.1 (List.mem_of_mem_take h)

theorem neighborsOf_nodup (userNorm : GoMap (GoMap ℚ)) (inv : GoMap (List ℤ)) (u : ℤ) :
    ((neighborsOf userNorm inv u).map Sim.V).Nodup := by
  have h1 : ((simsOf userNorm u (candSet userNorm inv u)).map Sim.V).Nodup := by
    rw [simsOf_map_V]
    exact (candSet_WF userNorm inv u).filter _
  have h2 := ((sortSlice_perm simLess (simsOf userNorm u (candSet userNorm inv u))).map
    Sim.V).nodup_iff.2 h1
  exact h2.sublist ((List.take_sublist _ _).map _)

theorem pearsonResult_cnt_ge {a : Acc} (h : (pearsonResult a).1 ≠ 0) : MinOverlap ≤ a.cnt := by
  by_contra hc
  exact h (pearsonResult_fst_of_lt (not_le.1 hc))

theorem pearson_cnt_ge {a b : GoMap ℚ} (h : (pearson a b).1 ≠ 0) :
    MinOverlap ≤ (pearson a b).2 := by
  unfold pearson at h ⊢
  split at h <;> rename_i hl
  · rw [if_pos hl, pearsonResult_snd]
    exact pearsonResult_cnt_ge h
  · rw [if_neg hl, pearsonResult_snd]
    exact pearsonResult_cnt_ge h

/-- C8: for every map of normalized profiles, every inverted index and every
user `u`, each entry `(V, S, Cnt)` of `topKNeighbors(userNorm, inv)[u]` has
`V ≠ u`, `V` listed by `inv` under an item of `u`,
`(S, Cnt) = pearson(userNorm[u], userNorm[V])`, `S ≠ 0`, `Cnt` the number of
items common to both profiles and at least `MinOverlap = 5`; and no user
occurs twice in the list. -/
theorem topKNeighbors_entries (userNorm : GoMap (GoMap ℚ)) (hwf : userNorm.WF2)
    (inv : GoMap (List ℤ)) (u : ℤ) :
    (∀ s ∈ (topKNeighbors userNorm inv).getD u [],
      s.V ≠ u ∧ (∃ i ∈ (userNorm.getD u []).keys, s.V ∈ inv.getD i []) ∧
      (s.S, s.Cnt) = pearson (userNorm.getD u []) (userNorm.getD s.V []) ∧ s.S ≠ 0 ∧
      s.Cnt = (overlap (userNorm.getD u []) (userNorm.getD s.V []) : ℤ) ∧
      MinOverlap ≤ s.Cnt) ∧
    (((topKNeighbors userNorm inv).getD u []).map Sim.V).Nodup := by
  rw [topKNeighbors_getD]
  split
  · refine ⟨?_, neighborsOf_nodup userNorm inv u⟩
    intro s hs
    have hm := mem_neighborsOf hs
    rw [simsOf_eq, List.mem_filterMap] at hm
    obtain ⟨v, hv, he⟩ := hm
    obtain ⟨h1, h2, h3⟩ := simEntry_some he
    subst h1
    obtain ⟨h4, h5⟩ := (mem_candSet userNorm inv u s.V).1 hv
    have h6 : s.Cnt = (pearson (userNorm.getD u []) (userNorm.getD s.V [])).2 := by
      rw [← h2]
    have h7 : s.S = (pearson (userNorm.getD u []) (userNorm.getD s.V [])).1 := by
      rw [← h2]
    refine ⟨h4, h5, h2, h3, ?_, ?_⟩
    · rw [h6]
      exact pearson_snd (GoMap.WF2_getD hwf u) (GoMap.WF2_getD hwf s.V)
    · rw [h6]
      exact pearson_cnt_ge (h7 ▸ h3)
  · exact ⟨by simp, by simp⟩

/-- C10, as amended: for every input and every user the neighbour list is
descending by (similarity, then overlap count) in the non-strict sense: of two
consecutive entries `a`, `b` either `a.S > b.S`, or `a.S = b.S` and
`a.Cnt ≥ b.Cnt`; and the same holds of every entry and every later one. -/
theorem topKNeighbors_sorted (userNorm : GoMap (GoMap ℚ)) (inv : GoMap (List ℤ)) (u : ℤ) :
    List.Chain' (fun a b => b.S < a.S ∨ (a.S = b.S ∧ b.Cnt ≤ a.Cnt))
      ((topKNeighbors userNorm inv).getD u []) ∧
    List.Pairwise (fun a b => b.S < a.S ∨ (a.S = b.S ∧ b.Cnt ≤ a.Cnt))
      ((topKNeighbors userNorm inv).getD u []) := by
  have h : List.Pairwise simGE ((topKNeighbors userNorm inv).getD u []) := by
    rw [topKNeighbors_getD]
    split
    · exact (sortSlice_simLess_sorted _).sublist (List.take_sublist _ _)
    · exact List.Pairwise.nil
  exact ⟨List.Pairwise.chain' h, h⟩

/-! ## The example with a tie: evaluation -/

theorem sqrt_one : sqrt 1 = 1 := by
  unfold sqrt
  rw [if_neg (by norm_num)]
  exact Function.iterate_fixed (by norm_num) 20

theorem tieRaw_eq :
    tieRaw = [(1, [(1, 4), (2, 3), (3, 3), (4, 3), (5, 3), (6, 2)]),
      (2, [(1, 4), (2, 3), (3, 3), (4, 3), (5, 3), (7, 2)]),
      (3, [(1, 4), (2, 3), (3, 3), (4, 3), (5, 3), (8, 2)])] := by
  decide

theorem tieMeans_eq : userMeans tieRaw = [(1, 3), (2, 3), (3, 3)] := by
  rw [tieRaw_eq]
  simp [userMeans, sumScores, GoMap.set]
  norm_num

theorem tieNorm_eq :
    tieNorm = [(1, [(1, 1), (2, 0), (3, 0), (4, 0), (5, 0), (6, -1)]),
      (2, [(1, 1), (2, 0), (3, 0), (4, 0), (5, 0), (7, -1)]),
      (3, [(1, 1), (2, 0), (3, 0), (4, 0), (5, 0), (8, -1)])] := by
  unfold tieNorm
  rw [tieMeans_eq, tieRaw_eq]
  simp [buildUserNorm, normMerge, normLocal, normProfile, workerBlock, slice, blockStart,
    blockEnd, NumWorkers, GoMap.keys, GoMap.set, GoMap.getD, GoMap.get?, List.range,
    List.range.loop]
  norm_num

theorem tieInv_eq :
    tieInv = [(1, [1, 2, 3]), (2, [1, 2, 3]), (3, [1, 2, 3]), (4, [1, 2, 3]), (5, [1, 2, 3]),
      (6, [1]), (7, [2]), (8, [3])] := by
  decide

theorem tie_cand : (candSet tieNorm tieInv 1).keys = [2, 3] := by
  rw [tieNorm_eq, tieInv_eq]
  decide

theorem tie_entry2 : simEntry tieNorm 1 2 = some ⟨2, 1, 5⟩ := by
  rw [tieNorm_eq]
  simp [simEntry, GoMap.getD, GoMap.get?, pearson, pearsonLoop, pearsonResult, MinOverlap,
    sqrt_one]

theorem tie_entry3 : simEntry tieNorm 1 3 = some ⟨3, 1, 5⟩ := by
  rw [tieNorm_eq]
  simp [simEntry, GoMap.getD, GoMap.get?, pearson, pearsonLoop, pearsonResult, MinOverlap,
    sqrt_one]

/-- The neighbour list of user 1 in the example: the users 2 and 3, both with
similarity 1 and overlap count 5. -/
theorem tie_list : (topKNeighbors tieNorm tieInv).getD 1 [] = [⟨2, 1, 5⟩, ⟨3, 1, 5⟩] := by
  rw [topKNeighbors_getD, if_pos (by rw [tieNorm_eq]; decide)]
  unfold neighborsOf
  rw [simsOf_eq, tie_cand]
  simp [List.filterMap_cons, tie_entry2, tie_entry3, sortSlice, insertLeft, simLess, KNeighbors]

theorem tieNorm_WF2 : tieNorm.WF2 := by
  rw [tieNorm_eq]
  decide

/-- The list of user 1 in the example with a tie: two entries, which the
statement describes. -/
theorem topKNeighbors_entries_witness :
    tieNorm.WF2 ∧
    ((∀ s ∈ (topKNeighbors tieNorm tieInv).getD 1 [],
      s.V ≠ 1 ∧ (∃ i ∈ (tieNorm.getD 1 []).keys, s.V ∈ tieInv.getD i []) ∧
      (s.S, s.Cnt) = pearson (tieNorm.getD 1 []) (tieNorm.getD s.V []) ∧ s.S ≠ 0 ∧
      s.Cnt = (overlap (tieNorm.getD 1 []) (tieNorm.getD s.V []) : ℤ) ∧
      MinOverlap ≤ s.Cnt) ∧
    (((topKNeighbors tieNorm tieInv).getD 1 []).map Sim.V).Nodup) :=
  ⟨tieNorm_WF2, topKNeighbors_entries tieNorm tieNorm_WF2 tieInv 1⟩

/-- C10 fails as stated: in the example the list of user 1 holds the users 2
and 3 with the same similarity 1 and the same count 5, so it is not strictly
descending by (similarity, then overlap count). -/
theorem topKNeighbors_not_strict :
    ¬ List.Chain' (fun a b : Sim => b.S < a.S ∨ (a.S = b.S ∧ b.Cnt < a.Cnt))
      ((topKNeighbors tieNorm tieInv).getD 1 []) := by
  rw [tie_list]
  simp

/-! ## topKNeighbors on the output of the builders -/

theorem normOf_getD_keys {sched : List ℕ} (hs : sched.Perm (List.range NumWorkers))
    (userRaw : GoMap (GoMap ℤ)) (v i : ℤ) :
    i ∈ ((normOf sched userRaw).getD v []).keys ↔
      ∃ items, userRaw.get? v = some items ∧ i ∈ items.keys := by
  unfold normOf GoMap.getD
  rw [buildUserNorm_get? hs]
  by_cases hv : v ∈ userRaw.keys
  · obtain ⟨items, hi⟩ := (GoMap.mem_keys_iff _ _).1 hv
    rw [if_pos hv, Option.getD_some, normProfile_mem_keys]
    simp [GoMap.getD, hi]
  · rw [if_neg hv]
    have := (GoMap.get?_eq_none_iff _ _).2 hv
    simp [this, GoMap.keys]

theorem normOf_WF2 {sched : List ℕ} (hs : sched.Perm (List.range NumWorkers))
    (userRaw : GoMap (GoMap ℤ)) : (normOf sched userRaw).WF2 := by
  refine GoMap.WF2_of_get? (buildUserNorm_WF _ _ _) ?_
  intro k v hk
  unfold normOf at hk
  rw [buildUserNorm_get? hs] at hk
  split at hk
  · cases hk
    exact normProfile_WF _ _
  · cases hk

theorem exists_common_of_overlap_pos {a b : GoMap ℚ} (h : 0 < overlap a b) :
    ∃ i, i ∈ a.keys ∧ i ∈ b.keys := by
  unfold overlap at h
  obtain ⟨i, hi⟩ := List.exists_mem_of_length_pos h
  rw [List.mem_filter] at hi
  exact ⟨i, hi.1, by simpa using hi.2⟩

/-- Candidate generation through the inverted index loses no user of
non-zero similarity. -/
theorem candidate_of_similar {s1 s2 : List ℕ} (h1 : s1.Perm (List.range NumWorkers))
    (h2 : s2.Perm (List.range NumWorkers)) {userRaw : GoMap (GoMap ℤ)} (hwf : userRaw.WF2)
    (u v : ℤ)
    (hp : (pearson ((normOf s1 userRaw).getD u []) ((normOf s1 userRaw).getD v [])).1 ≠ 0) :
    ∃ i ∈ ((normOf s1 userRaw).getD u []).keys, v ∈ (buildInverted s2 userRaw).getD i [] := by
  have hn := normOf_WF2 h1 userRaw
  have hc := pearson_cnt_ge hp
  rw [pearson_snd (GoMap.WF2_getD hn u) (GoMap.WF2_getD hn v)] at hc
  have hpos : 0 < overlap ((normOf s1 userRaw).getD u []) ((normOf s1 userRaw).getD v []) := by
    unfold MinOverlap at hc
    omega
  obtain ⟨i, hiu, hiv⟩ := exists_common_of_overlap_pos hpos
  refine ⟨i, hiu, ?_⟩
  rw [(buildInverted_perm h2 hwf i).mem_iff, mem_filter_rated]
  exact (normOf_getD_keys h1 userRaw v i).1 hiv

theorem simEntry_isSome (userNorm : GoMap (GoMap ℚ)) (u v : ℤ) :
    (simEntry userNorm u v).isSome = true ↔
      (pearson (userNorm.getD u []) (userNorm.getD v [])).1 ≠ 0 := by
  unfold simEntry
  split <;> simp [*]

/-- The users of the unsorted slice `sims` are, up to order, the users of the
population other than `u` whose similarity to `u` is not zero. -/
theorem sims_perm_population {s1 s2 : List ℕ} (h1 : s1.Perm (List.range NumWorkers))
    (h2 : s2.Perm (List.range NumWorkers)) {userRaw : GoMap (GoMap ℤ)} (hwf : userRaw.WF2)
    (u : ℤ) :
    ((simsOf (normOf s1 userRaw) u
      (candSet (normOf s1 userRaw) (buildInverted s2 userRaw) u)).map Sim.V).Perm
      (userRaw.keys.filter (similarTo (normOf s1 userRaw) u)) := by
  rw [simsOf_map_V]
  rw [List.perm_ext_iff_of_nodup ((candSet_WF _ _ _).filter _) (hwf.1.filter _)]
  intro v
  rw [List.mem_filter, List.mem_filter, mem_candSet, simEntry_isSome]
  simp only [similarTo, decide_eq_true_eq]
  constructor
  · rintro ⟨⟨hne, i, _, hv⟩, hp⟩
    rw [(buildInverted_perm h2 hwf i).mem_iff, mem_filter_rated] at hv
    obtain ⟨items, hi, _⟩ := hv
    exact ⟨(GoMap.mem_keys_iff _ _).2 ⟨items, hi⟩, hne, hp⟩
  · rintro ⟨_, hne, hp⟩
    exact ⟨⟨hne, candidate_of_similar h1 h2 hwf u v hp⟩, hp⟩

/-- C9: on the normalized profiles and the inverted index built from a
profile map, for all merge orders, the list of a user `u` has length
`min(K, m)`, `K = 20`, `m` the number of users `v ≠ u` of the whole population
with `pearson(userNorm[u], userNorm[v]) ≠ 0`; and each such user that is not in
the list has a similarity at most that of every entry of the list. -/
theorem topKNeighbors_topK (s1 s2 : List ℕ) (h1 : s1.Perm (List.range NumWorkers))
    (h2 : s2.Perm (List.range NumWorkers)) (userRaw : GoMap (GoMap ℤ)) (hwf : userRaw.WF2)
    (u : ℤ) (hu : u ∈ userRaw.keys) :
    ((topKNeighbors (normOf s1 userRaw) (buildInverted s2 userRaw)).getD u []).length =
      min KNeighbors (userRaw.keys.filter (similarTo (normOf s1 userRaw) u)).length ∧
    ∀ v ∈ userRaw.keys, v ≠ u →
      (pearson ((normOf s1 userRaw).getD u []) ((normOf s1 userRaw).getD v [])).1 ≠ 0 →
      v ∉ ((topKNeighbors (normOf s1 userRaw) (buildInverted s2 userRaw)).getD u []).map Sim.V →
      ∀ s ∈ (topKNeighbors (normOf s1 userRaw) (buildInverted s2 userRaw)).getD u [],
        (pearson ((normOf s1 userRaw).getD u []) ((normOf s1 userRaw).getD v [])).1 ≤ s.S := by
  have hk : u ∈ (normOf s1 userRaw).keys := by
    rw [← GoMap.get?_isSome_iff]
    unfold normOf
    rw [buildUserNorm_get? h1, if_pos hu]
    rfl
  rw [topKNeighbors_getD, if_pos hk]
  constructor
  · unfold neighborsOf
    rw [List.length_take, (sortSlice_perm simLess _).length_eq,
      ← (sims_perm_population h1 h2 hwf u).length_eq, List.length_map]
  · intro v _ hne hp hnot s hs
    have hcand : v ∈ (candSet (normOf s1 userRaw) (buildInverted s2 userRaw) u).keys :=
      (mem_candSet _ _ _ _).2 ⟨hne, candidate_of_similar h1 h2 hwf u v hp⟩
    have hentry : simEntry (normOf s1 userRaw) u v = some
        ⟨v, (pearson ((normOf s1 userRaw).getD u []) ((normOf s1 userRaw).getD v [])).1,
          (pearson ((normOf s1 userRaw).getD u []) ((normOf s1 userRaw).getD v [])).2⟩ := by
      unfold simEntry
      rw [if_pos hp]
    have hmem : (⟨v, (pearson ((normOf s1 userRaw).getD u []) ((normOf s1 userRaw).getD v [])).1,
        (pearson ((normOf s1 userRaw).getD u []) ((normOf s1 userRaw).getD v [])).2⟩ : Sim) ∈
        sortSlice simLess (simsOf (normOf s1 userRaw) u
          (candSet (normOf s1 userRaw) (buildInverted s2 userRaw) u)) := by
      rw [(sortSlice_perm simLess _).mem_iff, simsOf_eq, List.mem_filterMap]
      exact ⟨v, hcand, hentry⟩
    unfold neighborsOf at hs hnot
    rw [← List.take_append_drop KNeighbors (sortSlice simLess _)] at hmem
    rcases List.mem_append.1 hmem with hin | hin
    · exact absurd (List.mem_map.2 ⟨_, hin, rfl⟩) hnot
    · have hsorted := sortSlice_simLess_sorted (simsOf (normOf s1 userRaw) u
        (candSet (normOf s1 userRaw) (buildInverted s2 userRaw) u))
      rw [← List.take_append_drop KNeighbors (sortSlice simLess _), List.pairwise_append]
        at hsorted
      rcases hsorted.2.2 s hs _ hin with h | ⟨h, _⟩
      · exact le_of_lt h
      · exact le_of_eq h.symm

theorem tieRaw_WF2 : tieRaw.WF2 := by
  rw [tieRaw_eq]
  decide

/-- The example with a tie: three users, the merge orders of the worker
numbers, the list of user 1. -/
theorem topKNeighbors_topK_witness :
    (List.range NumWorkers).Perm (List.range NumWorkers) ∧ tieRaw.WF2 ∧ (1 : ℤ) ∈ tieRaw.keys ∧
    (((topKNeighbors (normOf (List.range NumWorkers) tieRaw)
        (buildInverted (List.range NumWorkers) tieRaw)).getD 1 []).length =
      min KNeighbors (tieRaw.keys.filter
        (similarTo (normOf (List.range NumWorkers) tieRaw) 1)).length ∧
    ∀ v ∈ tieRaw.keys, v ≠ 1 →
      (pearson ((normOf (List.range NumWorkers) tieRaw).getD 1 [])
        ((normOf (List.range NumWorkers) tieRaw).getD v [])).1 ≠ 0 →
      v ∉ ((topKNeighbors (normOf (List.range NumWorkers) tieRaw)
        (buildInverted (List.range NumWorkers) tieRaw)).getD 1 []).map Sim.V →
      ∀ s ∈ (topKNeighbors (normOf (List.range NumWorkers) tieRaw)
          (buildInverted (List.range NumWorkers) tieRaw)).getD 1 [],
        (pearson ((normOf (List.range NumWorkers) tieRaw).getD 1 [])
          ((normOf (List.range NumWorkers) tieRaw).getD v [])).1 ≤ s.S) :=
  ⟨List.Perm.refl _, tieRaw_WF2, by rw [tieRaw_eq]; decide,
    topKNeighbors_topK (List.range NumWorkers) (List.range NumWorkers) (List.Perm.refl _)
      (List.Perm.refl _) tieRaw tieRaw_WF2 1 (by rw [tieRaw_eq]; decide)⟩

theorem predictForUsers_get? (userRaw : GoMap (GoMap ℤ)) (means : GoMap ℚ)
    (neigh : GoMap (List Sim)) (global : List Pair) (u : ℤ) :
    (predictForUsers userRaw means neigh global).get? u =
      if u ∈ userRaw.keys then some (predictOne userRaw means neigh global u) else none := by
  have := GoMap.foldl_set_get?_fun (fun u : ℤ => u)
    (fun u => predictOne userRaw means neigh global u) userRaw.keys [] u
  simp only [List.map_id'] at this
  unfold predictForUsers
  rw [this]
  rfl

theorem predictForUsers_getD (userRaw : GoMap (GoMap ℤ)) (means : GoMap ℚ)
    (neigh : GoMap (List Sim)) (global : List Pair) (u : ℤ) :
    (predictForUsers userRaw means neigh global).getD u [] =
      if u ∈ userRaw.keys then predictOne userRaw means neigh global u else [] := by
  unfold GoMap.getD
  rw [predictForUsers_get?]
  split <;> rfl


/-! ## predictForUsers: lemmas -/

theorem abs_eq (x : ℚ) : abs x = |x| := by
  unfold abs
  split
  · rename_i h
    exact (abs_of_neg h).symm
  · rename_i h
    exact (abs_of_nonneg (not_lt.1 h)).symm

theorem clip_eq (x : ℚ) : clip x = max 1 (min 5 x) := by
  unfold clip
  split
  · rename_i h
    rw [min_eq_left (le_of_lt h), max_eq_right (by norm_num)]
  · rename_i h
    rw [min_eq_right (not_lt.1 h)]
    split
    · rename_i h'
      rw [max_eq_left (le_of_lt h')]
    · rename_i h'
      rw [max_eq_right (not_lt.1 h')]

theorem clip_range (x : ℚ) : 1 ≤ clip x ∧ clip x ≤ 5 := by
  rw [clip_eq]
  exact ⟨le_max_left _ _, max_le (by norm_num) (min_le_left _ _)⟩

theorem predAcc_foldl (userRaw : GoMap (GoMap ℤ)) (means : GoMap ℚ) (neighU : List Sim) (i : ℤ)
    (a : ℚ × ℚ) :
    neighU.foldl (fun a nb =>
      match (userRaw.getD nb.V []).get? i with
      | some rv => (a.1 + nb.S * ((rv : ℚ) - means.getD nb.V 0), a.2 + abs nb.S)
      | none => a) a =
    (a.1 + ((raters userRaw neighU i).map
        (fun x => x.1.S * ((x.2 : ℚ) - means.getD x.1.V 0))).sum,
      a.2 + ((raters userRaw neighU i).map (fun x => |x.1.S|)).sum) := by
  induction neighU generalizing a with
  | nil => simp [raters]
  | cons nb neighU ih =>
    rw [List.foldl_cons, ih]
    cases h : (userRaw.getD nb.V []).get? i with
    | none => simp [raters, h]
    | some rv =>
      simp only [raters, List.filterMap_cons, h, Option.map_some', List.map_cons, List.sum_cons,
        abs_eq, Prod.mk.injEq]
      exact ⟨by ring, by ring⟩

/-- The accumulators of a candidate item are the two sums over the
neighbours whose profile contains the item. -/
theorem predAcc_eq (userRaw : GoMap (GoMap ℤ)) (means : GoMap ℚ) (neighU : List Sim) (i : ℤ) :
    predAcc userRaw means neighU i =
    (((raters userRaw neighU i).map
        (fun x => x.1.S * ((x.2 : ℚ) - means.getD x.1.V 0))).sum,
      ((raters userRaw neighU i).map (fun x => |x.1.S|)).sum) := by
  unfold predAcc
  refine (predAcc_foldl userRaw means neighU i (0, 0)).trans ?_
  simp

theorem predsOf_foldl (userRaw : GoMap (GoMap ℤ)) (means : GoMap ℚ) (neighU : List Sim)
    (muU : ℚ) (cand : GoMap Unit) (acc : List Pair) :
    cand.foldl (fun preds c =>
      if (predAcc userRaw means neighU c.1).2 > 0 then
        preds ++ [(⟨c.1, clip (muU + (predAcc userRaw means neighU c.1).1 /
          (predAcc userRaw means neighU c.1).2)⟩ : Pair)]
      else preds) acc =
      acc ++ cand.keys.filterMap (predEntry userRaw means neighU muU) := by
  induction cand generalizing acc with
  | nil => simp [GoMap.keys]
  | cons c cand ih =>
    rw [List.foldl_cons, ih]
    simp only [GoMap.keys, List.map_cons, List.filterMap_cons, predEntry]
    split <;> simp

theorem predsOf_eq (userRaw : GoMap (GoMap ℤ)) (means : GoMap ℚ) (neighU : List Sim)
    (muU : ℚ) (cand : GoMap Unit) :
    predsOf userRaw means neighU muU cand =
      cand.keys.filterMap (predEntry userRaw means neighU muU) := by
  unfold predsOf
  rw [predsOf_foldl, List.nil_append]

theorem predEntry_some {userRaw : GoMap (GoMap ℤ)} {means : GoMap ℚ} {neighU : List Sim}
    {muU : ℚ} {i : ℤ} {p : Pair} (h : predEntry userRaw means neighU muU i = some p) :
    p.ID = i ∧ 0 < (predAcc userRaw means neighU i).2 ∧
      p.Val = clip (muU + (predAcc userRaw means neighU i).1 /
        (predAcc userRaw means neighU i).2) := by
  unfold predEntry at h
  split at h
  · rename_i hd
    cases h
    exact ⟨rfl, hd, rfl⟩
  · cases h

theorem predsOf_map_ID (userRaw : GoMap (GoMap ℤ)) (means : GoMap ℚ) (neighU : List Sim)
    (muU : ℚ) (cand : GoMap Unit) :
    (predsOf userRaw means neighU muU cand).map Pair.ID =
      cand.keys.filter (fun i => (predEntry userRaw means neighU muU i).isSome) := by
  rw [predsOf_eq]
  induction cand.keys with
  | nil => rfl
  | cons v vs ih =>
    cases h : predEntry userRaw means neighU muU v with
    | none => simp [List.filterMap_cons, h, List.filter_cons, ih]
    | some s => simp [List.filterMap_cons, h, List.filter_cons, ih, (predEntry_some h).1]

theorem predInner_mem_keys (seen : GoMap ℤ) (prof : GoMap ℤ) (cand : GoMap Unit) (i : ℤ) :
    i ∈ (prof.foldl (fun cand e =>
      if (seen.get? e.1).isNone then cand.set e.1 () else cand) cand).keys ↔
      i ∈ cand.keys ∨ (seen.get? i = none ∧ i ∈ prof.keys) := by
  induction prof generalizing cand with
  | nil => simp [GoMap.keys]
  | cons e prof ih =>
    rw [List.foldl_cons, ih]
    have hk : i ∈ GoMap.keys (e :: prof) ↔ i = e.1 ∨ i ∈ GoMap.keys prof := by
      simp [GoMap.keys]
    rw [hk]
    by_cases hs : (seen.get? e.1).isNone
    · rw [if_pos hs, GoMap.mem_keys_set]
      have hs' : seen.get? e.1 = none := by simpa using hs
      constructor
      · rintro ((rfl | h) | ⟨h1, h2⟩)
        · exact Or.inr ⟨hs', Or.inl rfl⟩
        · exact Or.inl h
        · exact Or.inr ⟨h1, Or.inr h2⟩
      · rintro (h | ⟨h1, rfl | h2⟩)
        · exact Or.inl (Or.inr h)
        · exact Or.inl (Or.inl rfl)
        · exact Or.inr ⟨h1, h2⟩
    · rw [if_neg hs]
      have hs' : seen.get? e.1 ≠ none := by simpa using hs
      constructor
      · rintro (h | ⟨h1, h2⟩)
        · exact Or.inl h
        · exact Or.inr ⟨h1, Or.inr h2⟩
      · rintro (h | ⟨h1, rfl | h2⟩)
        · exact Or.inl h
        · exact absurd h1 hs'
        · exact Or.inr ⟨h1, h2⟩

theorem predInner_WF (seen : GoMap ℤ) (prof : GoMap ℤ) {cand : GoMap Unit} (h : cand.WF) :
    (prof.foldl (fun cand e =>
      if (seen.get? e.1).isNone then cand.set e.1 () else cand) cand).WF := by
  induction prof generalizing cand with
  | nil => exact h
  | cons e prof ih =>
    rw [List.foldl_cons]
    apply ih
    split
    · exact GoMap.WF_set h _ _
    · exact h

theorem predOuter_mem_keys (userRaw : GoMap (GoMap ℤ)) (seen : GoMap ℤ) (neighU : List Sim)
    (cand : GoMap Unit) (i : ℤ) :
    i ∈ (neighU.foldl (fun cand nb =>
      (userRaw.getD nb.V []).foldl (fun cand e =>
        if (seen.get? e.1).isNone then cand.set e.1 () else cand) cand) cand).keys ↔
      i ∈ cand.keys ∨
        (seen.get? i = none ∧ ∃ nb ∈ neighU, i ∈ (userRaw.getD nb.V []).keys) := by
  induction neighU generalizing cand with
  | nil => simp
  | cons nb neighU ih =>
    rw [List.foldl_cons, ih, predInner_mem_keys]
    simp only [List.mem_cons, exists_eq_or_imp]
    tauto

/-- The candidate items of a warm user: the items of the profile of some
neighbour that are not in the profile of the user. -/
theorem mem_predCands (userRaw : GoMap (GoMap ℤ)) (neighU : List Sim) (seen : GoMap ℤ) (i : ℤ) :
    i ∈ (predCands userRaw neighU seen).keys ↔
      seen.get? i = none ∧ ∃ nb ∈ neighU, i ∈ (userRaw.getD nb.V []).keys := by
  unfold predCands
  rw [predOuter_mem_keys]
  simp [GoMap.keys]

theorem predCands_WF (userRaw : GoMap (GoMap ℤ)) (neighU : List Sim) (seen : GoMap ℤ) :
    (predCands userRaw neighU seen).WF := by
  unfold predCands
  have h : ∀ (cand : GoMap Unit), cand.WF → (neighU.foldl (fun cand nb =>
      (userRaw.getD nb.V []).foldl (fun cand e =>
        if (seen.get? e.1).isNone then cand.set e.1 () else cand) cand) cand).WF := by
    induction neighU with
    | nil => intro cand h; exact h
    | cons nb neighU ih => intro cand h; exact ih _ (predInner_WF seen _ h)
  exact h _ GoMap.WF_nil

theorem mem_warmPreds {userRaw : GoMap (GoMap ℤ)} {means : GoMap ℚ} {neigh : GoMap (List Sim)}
    {u : ℤ} {p : Pair} (h : p ∈ warmPreds userRaw means neigh u) :
    p.ID ∈ (predCands userRaw (neigh.getD u []) (userRaw.getD u [])).keys ∧
      predEntry userRaw means (neigh.getD u []) (means.getD u 0) p.ID = some p := by
  unfold warmPreds at h
  have h1 := (sortSlice_perm pairLess _).mem_iff.1 (List.mem_of_mem_take h)
  rw [predsOf_eq, List.mem_filterMap] at h1
  obtain ⟨i, hi, he⟩ := h1
  have := (predEntry_some he).1
  subst this
  exact ⟨hi, he⟩

theorem warmPreds_nodup (userRaw : GoMap (GoMap ℤ)) (means : GoMap ℚ)
    (neigh : GoMap (List Sim)) (u : ℤ) :
    ((warmPreds userRaw means neigh u).map Pair.ID).Nodup := by
  unfold warmPreds
  have h1 : ((predsOf userRaw means (neigh.getD u []) (means.getD u 0)
      (predCands userRaw (neigh.getD u []) (userRaw.getD u []))).map Pair.ID).Nodup := by
    rw [predsOf_map_ID]
    exact (predCands_WF _ _ _).filter _
  have h2 := ((sortSlice_perm pairLess (predsOf userRaw means (neigh.getD u [])
    (means.getD u 0) (predCands userRaw (neigh.getD u []) (userRaw.getD u [])))).map
    Pair.ID).nodup_iff.2 h1
  exact h2.sublist ((List.take_sublist _ _).map _)

theorem predictOne_warm {userRaw : GoMap (GoMap ℤ)} (means : GoMap ℚ) (neigh : GoMap (List Sim))
    (global : List Pair) {u : ℤ} (h : ColdThresh ≤ (userRaw.getD u []).length) :
    predictOne userRaw means neigh global u = warmPreds userRaw means neigh u := by
  unfold predictOne
  rw [if_neg (by omega)]

theorem predictOne_cold {userRaw : GoMap (GoMap ℤ)} (means : GoMap ℚ) (neigh : GoMap (List Sim))
    (global : List Pair) {u : ℤ} (h : (userRaw.getD u []).length < ColdThresh) :
    predictOne userRaw means neigh global u = global := by
  unfold predictOne
  rw [if_pos h]


theorem predAcc_den_pos {userRaw : GoMap (GoMap ℤ)} (means : GoMap ℚ) {neighU : List Sim}
    (hS : ∀ nb ∈ neighU, nb.S ≠ 0) {i : ℤ}
    (hi : ∃ nb ∈ neighU, i ∈ (userRaw.getD nb.V []).keys) :
    0 < (predAcc userRaw means neighU i).2 := by
  rw [predAcc_eq]
  obtain ⟨nb, hnb, hk⟩ := hi
  obtain ⟨rv, hrv⟩ := (GoMap.mem_keys_iff _ _).1 hk
  have hmem : (nb, rv) ∈ raters userRaw neighU i := by
    unfold raters
    rw [List.mem_filterMap]
    exact ⟨nb, hnb, by simp [hrv]⟩
  apply List.sum_pos
  · intro x hx
    obtain ⟨y, hy, rfl⟩ := List.mem_map.1 hx
    unfold raters at hy
    rw [List.mem_filterMap] at hy
    obtain ⟨nb', hnb', he⟩ := hy
    cases hg : (userRaw.getD nb'.V []).get? i with
    | none => simp [hg] at he
    | some rv' =>
      simp only [hg, Option.map_some', Option.some.injEq] at he
      subst he
      exact abs_pos.2 (hS nb' hnb')
  · intro hnil
    have : (nb, rv) ∈ raters userRaw neighU i := hmem
    have h2 := List.mem_map_of_mem (fun x : Sim × ℤ => |x.1.S|) this
    rw [hnil] at h2
    simp at h2

/-- C11: for all inputs and every user of `userRaw` with strictly fewer than
`ColdThresh = 10` rated items, `predictForUsers(...)[u]` is the list `global`
itself, the same pairs in the same order, with nothing removed; a user with
ten or more rated items gets the result of the warm path instead. -/
theorem predictForUsers_cold (userRaw : GoMap (GoMap ℤ)) (means : GoMap ℚ)
    (neigh : GoMap (List Sim)) (global : List Pair) (u : ℤ) (hu : u ∈ userRaw.keys) :
    ((userRaw.getD u []).length < ColdThresh →
      (predictForUsers userRaw means neigh global).get? u = some global) ∧
    (ColdThresh ≤ (userRaw.getD u []).length →
      (predictForUsers userRaw means neigh global).get? u =
        some (warmPreds userRaw means neigh u)) := by
  rw [predictForUsers_get?, if_pos hu]
  constructor
  · intro h
    rw [predictOne_cold means neigh global h]
  · intro h
    rw [predictOne_warm means neigh global h]

/-- A user with two rated items, both of them in the list `global`: the
result is `global`. -/
theorem predictForUsers_cold_witness :
    (1 : ℤ) ∈ GoMap.keys ([(1, [(1, 5), (2, 5)])] : GoMap (GoMap ℤ)) ∧
    (GoMap.getD ([(1, [(1, 5), (2, 5)])] : GoMap (GoMap ℤ)) 1 []).length < ColdThresh ∧
    (predictForUsers [(1, [(1, 5), (2, 5)])] [(1, 5)] [] [⟨1, 5⟩, ⟨2, 5⟩, ⟨3, 4⟩]).get? 1 =
      some [⟨1, 5⟩, ⟨2, 5⟩, ⟨3, 4⟩] :=
  ⟨by decide, by decide,
    (predictForUsers_cold [(1, [(1, 5), (2, 5)])] [(1, 5)] [] [⟨1, 5⟩, ⟨2, 5⟩, ⟨3, 4⟩] 1
      (by decide)).1 (by decide)⟩

/-- C12: for every user with at least `ColdThresh = 10` rated items, every
pair `(i, val)` of `predictForUsers(...)[u]` has `val` equal to
`means[u] + N/D` clipped to [1, 5], where `N` is the sum of
`nb.S * (userRaw[nb.V][i] − means[nb.V])` and `D` the sum of `|nb.S|` over the
neighbours `nb` of `neigh[u]` whose profile contains `i`, and `D > 0`. -/
theorem predictForUsers_value (userRaw : GoMap (GoMap ℤ)) (means : GoMap ℚ)
    (neigh : GoMap (List Sim)) (global : List Pair) (u : ℤ)
    (hw : ColdThresh ≤ (userRaw.getD u []).length) :
    ∀ p ∈ (predictForUsers userRaw means neigh global).getD u [],
      0 < ((raters userRaw (neigh.getD u []) p.ID).map (fun x => |x.1.S|)).sum ∧
      p.Val = max 1 (min 5 (means.getD u 0 +
        ((raters userRaw (neigh.getD u []) p.ID).map
          (fun x => x.1.S * ((x.2 : ℚ) - means.getD x.1.V 0))).sum /
        ((raters userRaw (neigh.getD u []) p.ID).map (fun x => |x.1.S|)).sum)) := by
  intro p hp
  rw [predictForUsers_getD] at hp
  split at hp
  · rw [predictOne_warm means neigh global hw] at hp
    obtain ⟨_, he⟩ := mem_warmPreds hp
    obtain ⟨_, h2, h3⟩ := predEntry_some he
    rw [predAcc_eq] at h2 h3
    exact ⟨h2, by rw [h3, clip_eq]⟩
  · simp at hp

/-- C13: for every user with at least `ColdThresh = 10` rated items, every
item of `predictForUsers(...)[u]` is an item the user has not rated and some
neighbour of `neigh[u]` has rated, and no item occurs twice; when every
similarity of `neigh[u]` is non-zero, no candidate item has a zero
denominator, and if there are at most `TopN = 500` candidate items the items
of the list are exactly those that some neighbour rated and the user did
not. -/
theorem predictForUsers_items (userRaw : GoMap (GoMap ℤ)) (means : GoMap ℚ)
    (neigh : GoMap (List Sim)) (global : List Pair) (u : ℤ) (hu : u ∈ userRaw.keys)
    (hw : ColdThresh ≤ (userRaw.getD u []).length) :
    (∀ p ∈ (predictForUsers userRaw means neigh global).getD u [],
      p.ID ∉ (userRaw.getD u []).keys ∧
      ∃ nb ∈ neigh.getD u [], p.ID ∈ (userRaw.getD nb.V []).keys) ∧
    (((predictForUsers userRaw means neigh global).getD u []).map Pair.ID).Nodup ∧
    ((∀ nb ∈ neigh.getD u [], nb.S ≠ 0) →
      (∀ i ∈ (predCands userRaw (neigh.getD u []) (userRaw.getD u [])).keys,
        0 < (predAcc userRaw means (neigh.getD u []) i).2) ∧
      ((predCands userRaw (neigh.getD u []) (userRaw.getD u [])).length ≤ TopN →
        ∀ i, i ∈ ((predictForUsers userRaw means neigh global).getD u []).map Pair.ID ↔
          (i ∉ (userRaw.getD u []).keys ∧
            ∃ nb ∈ neigh.getD u [], i ∈ (userRaw.getD nb.V []).keys))) := by
  rw [predictForUsers_getD, if_pos hu, predictOne_warm means neigh global hw]
  have hmem : ∀ p ∈ warmPreds userRaw means neigh u,
      p.ID ∉ (userRaw.getD u []).keys ∧
      ∃ nb ∈ neigh.getD u [], p.ID ∈ (userRaw.getD nb.V []).keys := by
    intro p hp
    obtain ⟨hc, _⟩ := mem_warmPreds hp
    rw [mem_predCands, GoMap.get?_eq_none_iff] at hc
    exact hc
  refine ⟨hmem, warmPreds_nodup _ _ _ _, ?_⟩
  intro hS
  have hden : ∀ i ∈ (predCands userRaw (neigh.getD u []) (userRaw.getD u [])).keys,
      0 < (predAcc userRaw means (neigh.getD u []) i).2 := by
    intro i hi
    rw [mem_predCands] at hi
    exact predAcc_den_pos means hS hi.2
  refine ⟨hden, ?_⟩
  intro hlen i
  constructor
  · intro hi
    obtain ⟨p, hp, rfl⟩ := List.mem_map.1 hi
    exact hmem p hp
  · rintro ⟨h1, h2⟩
    have hc : i ∈ (predCands userRaw (neigh.getD u []) (userRaw.getD u [])).keys := by
      rw [mem_predCands, GoMap.get?_eq_none_iff]
      exact ⟨h1, h2⟩
    have he : predEntry userRaw means (neigh.getD u []) (means.getD u 0) i =
        some ⟨i, clip (means.getD u 0 + (predAcc userRaw means (neigh.getD u []) i).1 /
          (predAcc userRaw means (neigh.getD u []) i).2)⟩ := by
      unfold predEntry
      rw [if_pos (hden i hc)]
    have hin : (⟨i, clip (means.getD u 0 + (predAcc userRaw means (neigh.getD u []) i).1 /
          (predAcc userRaw means (neigh.getD u []) i).2)⟩ : Pair) ∈
        predsOf userRaw means (neigh.getD u []) (means.getD u 0)
          (predCands userRaw (neigh.getD u []) (userRaw.getD u [])) := by
      rw [predsOf_eq, List.mem_filterMap]
      exact ⟨i, hc, he⟩
    have hle : (sortSlice pairLess (predsOf userRaw means (neigh.getD u []) (means.getD u 0)
        (predCands userRaw (neigh.getD u []) (userRaw.getD u [])))).length ≤ TopN := by
      rw [(sortSlice_perm pairLess _).length_eq, ← List.length_map _ Pair.ID, predsOf_map_ID]
      refine le_trans (List.length_filter_le _ _) ?_
      simpa [GoMap.keys] using hlen
    unfold warmPreds
    rw [List.take_of_length_le hle]
    exact List.mem_map.2 ⟨_, (sortSlice_perm pairLess _).mem_iff.2 hin, rfl⟩

/-! ## globalTopMovies: lemmas -/

theorem tallyInner_spec {items : GoMap ℤ} (hi : items.WF) (cs : GoMap ℤ × GoMap ℤ) (i : ℤ) :
    (items.foldl (fun cs x =>
      (cs.1.set x.1 (cs.1.getD x.1 0 + 1), cs.2.set x.1 (cs.2.getD x.1 0 + x.2))) cs).1.getD i 0
      = cs.1.getD i 0 + ((items.get? i).toList.length : ℤ) ∧
    (items.foldl (fun cs x =>
      (cs.1.set x.1 (cs.1.getD x.1 0 + 1), cs.2.set x.1 (cs.2.getD x.1 0 + x.2))) cs).2.getD i 0
      = cs.2.getD i 0 + (items.get? i).toList.sum := by
  induction items generalizing cs with
  | nil => simp [GoMap.get?]
  | cons e items ih =>
    obtain ⟨k, r⟩ := e
    have hi' : k ∉ GoMap.keys items ∧ GoMap.WF items := by
      simpa [GoMap.WF, GoMap.keys] using hi
    rw [List.foldl_cons]
    obtain ⟨h1, h2⟩ := ih hi'.2 (cs.1.set k (cs.1.getD k 0 + 1), cs.2.set k (cs.2.getD k 0 + r))
    rw [h1, h2]
    simp only [GoMap.getD_set]
    by_cases hk : k = i
    · subst hk
      have hn : GoMap.get? items k = none := (GoMap.get?_eq_none_iff _ _).2 hi'.1
      simp [GoMap.get?, hn]
    · simp [GoMap.get?, hk]

theorem tallyInner_keys (items : GoMap ℤ) (cs : GoMap ℤ × GoMap ℤ) (i : ℤ) :
    i ∈ (items.foldl (fun cs x =>
      (cs.1.set x.1 (cs.1.getD x.1 0 + 1), cs.2.set x.1 (cs.2.getD x.1 0 + x.2))) cs).1.keys ↔
      i ∈ cs.1.keys ∨ i ∈ items.keys := by
  induction items generalizing cs with
  | nil => simp [GoMap.keys]
  | cons e items ih =>
    rw [List.foldl_cons, ih]
    simp only [GoMap.mem_keys_set]
    have hk : i ∈ GoMap.keys (e :: items) ↔ i = e.1 ∨ i ∈ GoMap.keys items := by
      simp [GoMap.keys]
    rw [hk]
    tauto

theorem tallyInner_WF (items : GoMap ℤ) {cs : GoMap ℤ × GoMap ℤ} (h : cs.1.WF) :
    (items.foldl (fun cs x =>
      (cs.1.set x.1 (cs.1.getD x.1 0 + 1), cs.2.set x.1 (cs.2.getD x.1 0 + x.2))) cs).1.WF := by
  induction items generalizing cs with
  | nil => exact h
  | cons e items ih => exact ih (GoMap.WF_set h _ _)

theorem itemScores_cons (e : ℤ × GoMap ℤ) (m : GoMap (GoMap ℤ)) (i : ℤ) :
    itemScores (e :: m) i = (e.2.get? i).toList ++ itemScores m i := by
  unfold itemScores
  cases h : e.2.get? i <;> simp [List.filterMap_cons, h]

theorem tallyOuter_spec {userRaw : GoMap (GoMap ℤ)} (hwf : ∀ e ∈ userRaw, e.2.WF)
    (cs : GoMap ℤ × GoMap ℤ) (i : ℤ) :
    (userRaw.foldl (fun cs e =>
      e.2.foldl (fun cs x =>
        (cs.1.set x.1 (cs.1.getD x.1 0 + 1), cs.2.set x.1 (cs.2.getD x.1 0 + x.2))) cs)
      cs).1.getD i 0 = cs.1.getD i 0 + ((itemScores userRaw i).length : ℤ) ∧
    (userRaw.foldl (fun cs e =>
      e.2.foldl (fun cs x =>
        (cs.1.set x.1 (cs.1.getD x.1 0 + 1), cs.2.set x.1 (cs.2.getD x.1 0 + x.2))) cs)
      cs).2.getD i 0 = cs.2.getD i 0 + (itemScores userRaw i).sum := by
  induction userRaw generalizing cs with
  | nil => simp [itemScores]
  | cons e userRaw ih =>
    rw [List.foldl_cons]
    obtain ⟨h1, h2⟩ := ih (fun e' he' => hwf e' (List.mem_cons_of_mem _ he')) (e.2.foldl (fun cs x =>
        (cs.1.set x.1 (cs.1.getD x.1 0 + 1), cs.2.set x.1 (cs.2.getD x.1 0 + x.2))) cs)
    obtain ⟨h3, h4⟩ := tallyInner_spec (hwf e (List.mem_cons_self _ _)) cs i
    rw [h1, h2, h3, h4, itemScores_cons]
    simp only [List.length_append, List.sum_append, Nat.cast_add]
    exact ⟨by ring, by ring⟩

theorem tallyOuter_keys (userRaw : GoMap (GoMap ℤ)) (cs : GoMap ℤ × GoMap ℤ) (i : ℤ) :
    i ∈ (userRaw.foldl (fun cs e =>
      e.2.foldl (fun cs x =>
        (cs.1.set x.1 (cs.1.getD x.1 0 + 1), cs.2.set x.1 (cs.2.getD x.1 0 + x.2))) cs)
      cs).1.keys ↔ i ∈ cs.1.keys ∨ ∃ e ∈ userRaw, i ∈ e.2.keys := by
  induction userRaw generalizing cs with
  | nil => simp
  | cons e userRaw ih =>
    rw [List.foldl_cons, ih, tallyInner_keys]
    simp only [List.mem_cons, exists_eq_or_imp]
    tauto

theorem tallyOuter_WF (userRaw : GoMap (GoMap ℤ)) {cs : GoMap ℤ × GoMap ℤ} (h : cs.1.WF) :
    (userRaw.foldl (fun cs e =>
      e.2.foldl (fun cs x =>
        (cs.1.set x.1 (cs.1.getD x.1 0 + 1), cs.2.set x.1 (cs.2.getD x.1 0 + x.2))) cs)
      cs).1.WF := by
  induction userRaw generalizing cs with
  | nil => exact h
  | cons e userRaw ih => exact ih (tallyInner_WF e.2 h)

/-- The maps `counts` and `sums`: for every item the number of users who
rated it and the sum of the scores they gave. -/
theorem tally_spec {userRaw : GoMap (GoMap ℤ)} (hwf : userRaw.WF2) (i : ℤ) :
    (tally userRaw).1.getD i 0 = ((itemScores userRaw i).length : ℤ) ∧
    (tally userRaw).2.getD i 0 = (itemScores userRaw i).sum := by
  obtain ⟨h1, h2⟩ := tallyOuter_spec hwf.2 ([], []) i
  unfold tally
  rw [h1, h2]
  simp [GoMap.getD, GoMap.get?]

theorem mem_ratedItems (userRaw : GoMap (GoMap ℤ)) (i : ℤ) :
    i ∈ ratedItems userRaw ↔ ∃ e ∈ userRaw, i ∈ e.2.keys := by
  unfold ratedItems
  rw [List.mem_dedup, List.mem_flatMap]

theorem tally_keys (userRaw : GoMap (GoMap ℤ)) (i : ℤ) :
    i ∈ (tally userRaw).1.keys ↔ i ∈ ratedItems userRaw := by
  unfold tally
  rw [tallyOuter_keys, mem_ratedItems]
  simp [GoMap.keys]

theorem tally_WF (userRaw : GoMap (GoMap ℤ)) : (tally userRaw).1.WF :=
  tallyOuter_WF userRaw GoMap.WF_nil

theorem tally_keys_perm (userRaw : GoMap (GoMap ℤ)) :
    (tally userRaw).1.keys.Perm (ratedItems userRaw) := by
  have hnd : (ratedItems userRaw).Nodup := List.nodup_dedup _
  rw [List.perm_ext_iff_of_nodup (tally_WF userRaw) hnd]
  exact tally_keys userRaw

theorem popList_foldl (counts sums : GoMap ℤ) (l : GoMap ℤ) (acc : List Pair) :
    l.foldl (fun pop e =>
      pop ++ [(⟨e.1, ((sums.getD e.1 0 : ℤ) : ℚ) / ((counts.getD e.1 0 : ℤ) : ℚ)⟩ : Pair)]) acc =
      acc ++ l.keys.map
        (fun i => (⟨i, ((sums.getD i 0 : ℤ) : ℚ) / ((counts.getD i 0 : ℤ) : ℚ)⟩ : Pair)) := by
  induction l generalizing acc with
  | nil => simp [GoMap.keys]
  | cons e l ih =>
    rw [List.foldl_cons, ih]
    simp [GoMap.keys]

theorem popList_eq (counts sums : GoMap ℤ) :
    popList counts sums = counts.keys.map
      (fun i => (⟨i, ((sums.getD i 0 : ℤ) : ℚ) / ((counts.getD i 0 : ℤ) : ℚ)⟩ : Pair)) := by
  unfold popList
  rw [popList_foldl, List.nil_append]

/-- The list `pop` before sorting: one pair for each key of `counts`, holding
the mean score of the item. -/
theorem popList_tally {userRaw : GoMap (GoMap ℤ)} (hwf : userRaw.WF2) :
    popList (tally userRaw).1 (tally userRaw).2 =
      (tally userRaw).1.keys.map (fun i => (⟨i, itemMean userRaw i⟩ : Pair)) := by
  rw [popList_eq]
  apply List.map_congr_left
  intro i _
  obtain ⟨h1, h2⟩ := tally_spec hwf i
  rw [h1, h2]
  simp [itemMean]

theorem pairLess_false_iff (a b : Pair) : pairLess b a = false ↔ b.Val ≤ a.Val := by
  unfold pairLess
  simp

theorem sortSlice_pairLess_sorted (l : List Pair) :
    (sortSlice pairLess l).Pairwise (fun a b => b.Val ≤ a.Val) := by
  have h := @sortSlice_sorted Pair pairLess
    (fun a b hab => by
      rw [pairLess_false_iff]
      have : b.Val < a.Val := by simpa [pairLess] using hab
      exact le_of_lt this)
    (fun a b c h1 h2 => by
      rw [pairLess_false_iff] at *
      exact le_trans h2 h1) l
  exact h.imp (fun {a b} hab => (pairLess_false_iff a b).1 hab)

/-- An element of a sorted list that the truncation drops stands after every
element kept. -/
theorem take_sorted_ge {α : Type} {R : α → α → Prop} {l : List α} (hl : l.Pairwise R) (n : ℕ)
    {x : α} (hx : x ∈ l) (hnot : x ∉ l.take n) : ∀ p ∈ l.take n, R p x := by
  intro p hp
  rw [← List.take_append_drop n l] at hx hl
  rcases List.mem_append.1 hx with h | h
  · exact absurd h hnot
  · exact (List.pairwise_append.1 hl).2.2 p hp x h


theorem mem_globalTopMovies {userRaw : GoMap (GoMap ℤ)} (hwf : userRaw.WF2) {p : Pair}
    (hp : p ∈ globalTopMovies userRaw) :
    p.ID ∈ ratedItems userRaw ∧ p.Val = itemMean userRaw p.ID := by
  unfold globalTopMovies at hp
  have h1 := (sortSlice_perm pairLess _).mem_iff.1 (List.mem_of_mem_take hp)
  rw [popList_tally hwf, List.mem_map] at h1
  obtain ⟨i, hi, rfl⟩ := h1
  exact ⟨(tally_keys userRaw i).1 hi, rfl⟩

theorem globalTopMovies_sorted (userRaw : GoMap (GoMap ℤ)) :
    (globalTopMovies userRaw).Pairwise (fun a b => b.Val ≤ a.Val) :=
  (sortSlice_pairLess_sorted _).sublist (List.take_sublist _ _)

theorem globalTopMovies_length_le (userRaw : GoMap (GoMap ℤ)) :
    (globalTopMovies userRaw).length ≤ TopN := by
  unfold globalTopMovies
  rw [List.length_take]
  exact min_le_left _ _

theorem popRaw_global :
    globalTopMovies popRaw = [⟨1, 24 / 5⟩, ⟨2, 24 / 5⟩, ⟨3, 3⟩] := by
  simp [popRaw, globalTopMovies, tally, popList, sortSlice, insertLeft, pairLess, GoMap.set,
    GoMap.getD, GoMap.get?, TopN]
  norm_num [insertLeft, pairLess]

/-- C16: for every profile map, `globalTopMovies` lists no item twice, has
length `min(TopN, number of distinct rated items)`, gives each listed item the
sum of its scores over the users who rated it divided by their number, is in
non-increasing order of that value, and every rated item left out has a mean
at most that of every listed item; in the example with the means 3, 24/5 and
24/5 the two items of mean 24/5 = 4.8 stand before the item of mean 3. -/
theorem globalTopMovies_spec :
    (∀ userRaw : GoMap (GoMap ℤ), userRaw.WF2 →
      ((globalTopMovies userRaw).map Pair.ID).Nodup ∧
      (globalTopMovies userRaw).length = min TopN (ratedItems userRaw).length ∧
      (∀ p ∈ globalTopMovies userRaw,
        p.ID ∈ ratedItems userRaw ∧ p.Val = itemMean userRaw p.ID) ∧
      (globalTopMovies userRaw).Pairwise (fun a b => b.Val ≤ a.Val) ∧
      (∀ i ∈ ratedItems userRaw, i ∉ (globalTopMovies userRaw).map Pair.ID →
        ∀ p ∈ globalTopMovies userRaw, itemMean userRaw i ≤ p.Val)) ∧
    globalTopMovies popRaw = [⟨1, 24 / 5⟩, ⟨2, 24 / 5⟩, ⟨3, 3⟩] := by
  refine ⟨?_, popRaw_global⟩
  intro userRaw hwf
  have hP := popList_tally hwf
  refine ⟨?_, ?_, fun p hp => mem_globalTopMovies hwf hp, globalTopMovies_sorted userRaw, ?_⟩
  · unfold globalTopMovies
    have h1 : ((popList (tally userRaw).1 (tally userRaw).2).map Pair.ID).Nodup := by
      rw [hP, List.map_map]
      have : (Pair.ID ∘ fun i => (⟨i, itemMean userRaw i⟩ : Pair)) = id := rfl
      rw [this, List.map_id]
      exact tally_WF userRaw
    have h2 := ((sortSlice_perm pairLess (popList (tally userRaw).1 (tally userRaw).2)).map
      Pair.ID).nodup_iff.2 h1
    exact h2.sublist ((List.take_sublist _ _).map _)
  · unfold globalTopMovies
    rw [List.length_take, (sortSlice_perm pairLess _).length_eq, hP, List.length_map,
      (tally_keys_perm userRaw).length_eq]
  · intro i hi hnot p hp
    have hx : (⟨i, itemMean userRaw i⟩ : Pair) ∈
        sortSlice pairLess (popList (tally userRaw).1 (tally userRaw).2) := by
      rw [(sortSlice_perm pairLess _).mem_iff, hP, List.mem_map]
      exact ⟨i, (tally_keys userRaw i).2 hi, rfl⟩
    have hx' : (⟨i, itemMean userRaw i⟩ : Pair) ∉
        (sortSlice pairLess (popList (tally userRaw).1 (tally userRaw).2)).take TopN := by
      intro h
      exact hnot (List.mem_map.2 ⟨_, h, rfl⟩)
    exact take_sorted_ge (sortSlice_pairLess_sorted _) TopN hx hx' p hp

theorem popRaw_WF2 : popRaw.WF2 := by
  decide

/-- The example of the five users: its list has the three rated items. -/
theorem globalTopMovies_spec_witness :
    popRaw.WF2 ∧
    (((globalTopMovies popRaw).map Pair.ID).Nodup ∧
      (globalTopMovies popRaw).length = min TopN (ratedItems popRaw).length ∧
      (∀ p ∈ globalTopMovies popRaw,
        p.ID ∈ ratedItems popRaw ∧ p.Val = itemMean popRaw p.ID) ∧
      (globalTopMovies popRaw).Pairwise (fun a b => b.Val ≤ a.Val) ∧
      (∀ i ∈ ratedItems popRaw, i ∉ (globalTopMovies popRaw).map Pair.ID →
        ∀ p ∈ globalTopMovies popRaw, itemMean popRaw i ≤ p.Val)) :=
  ⟨popRaw_WF2, globalTopMovies_spec.1 popRaw popRaw_WF2⟩


/-! ## The prediction lists: order, length and range -/

theorem warmPreds_sorted (userRaw : GoMap (GoMap ℤ)) (means : GoMap ℚ)
    (neigh : GoMap (List Sim)) (u : ℤ) :
    (warmPreds userRaw means neigh u).Pairwise (fun a b => b.Val ≤ a.Val) :=
  (sortSlice_pairLess_sorted _).sublist (List.take_sublist _ _)

theorem warmPreds_length_le (userRaw : GoMap (GoMap ℤ)) (means : GoMap ℚ)
    (neigh : GoMap (List Sim)) (u : ℤ) : (warmPreds userRaw means neigh u).length ≤ TopN := by
  unfold warmPreds
  rw [List.length_take]
  exact min_le_left _ _

theorem evenRaw_global : globalTopMovies evenRaw = [⟨1, 5⟩, ⟨2, 5⟩] := by
  simp [evenRaw, globalTopMovies, tally, popList, sortSlice, insertLeft, pairLess, GoMap.set,
    GoMap.getD, GoMap.get?, TopN]

theorem evenRawSwapped_global : globalTopMovies evenRawSwapped = [⟨2, 5⟩, ⟨1, 5⟩] := by
  simp [evenRawSwapped, globalTopMovies, tally, popList, sortSlice, insertLeft, pairLess,
    GoMap.set, GoMap.getD, GoMap.get?, TopN]

/-- C15 fails as stated: the only user of the example is cold and receives the
popularity list, whose two items have the same mean 5, so the list is not
strictly descending. -/
theorem predictForUsers_not_strict :
    ¬ List.Chain' (fun a b : Pair => b.Val < a.Val)
      ((predictForUsers evenRaw (userMeans evenRaw) [] (globalTopMovies evenRaw)).getD 1 []) := by
  rw [predictForUsers_getD, if_pos (by decide),
    predictOne_cold _ _ _ (by decide), evenRaw_global]
  simp

/-- C15, as amended: for every input and every user, with
`global = globalTopMovies(userRaw)`, the list `predictForUsers(...)[u]` has
length at most `TopN = 500` and is in non-increasing order of the predicted
score: each entry has a score greater than or equal to that of the entry after
it, and of every later entry. -/
theorem predictForUsers_sorted (userRaw : GoMap (GoMap ℤ)) (means : GoMap ℚ)
    (neigh : GoMap (List Sim)) (u : ℤ) :
    ((predictForUsers userRaw means neigh (globalTopMovies userRaw)).getD u []).length ≤ TopN ∧
    List.Chain' (fun a b : Pair => b.Val ≤ a.Val)
      ((predictForUsers userRaw means neigh (globalTopMovies userRaw)).getD u []) ∧
    List.Pairwise (fun a b : Pair => b.Val ≤ a.Val)
      ((predictForUsers userRaw means neigh (globalTopMovies userRaw)).getD u []) := by
  have h : ((predictForUsers userRaw means neigh (globalTopMovies userRaw)).getD u []).length
        ≤ TopN ∧
      List.Pairwise (fun a b : Pair => b.Val ≤ a.Val)
        ((predictForUsers userRaw means neigh (globalTopMovies userRaw)).getD u []) := by
    rw [predictForUsers_getD]
    split
    · unfold predictOne
      split
      · exact ⟨globalTopMovies_length_le _, globalTopMovies_sorted _⟩
      · exact ⟨warmPreds_length_le _ _ _ _, warmPreds_sorted _ _ _ _⟩
    · exact ⟨by simp, List.Pairwise.nil⟩
  exact ⟨h.1, List.Pairwise.chain' h.2, h.2⟩

theorem mem_itemScores {userRaw : GoMap (GoMap ℤ)} (hwf : userRaw.WF) (i r : ℤ) :
    r ∈ itemScores userRaw i ↔ ∃ u, (userRaw.getD u []).get? i = some r := by
  unfold itemScores
  rw [List.mem_filterMap]
  constructor
  · rintro ⟨e, he, hr⟩
    refine ⟨e.1, ?_⟩
    rw [GoMap.get?_getD (GoMap.get?_of_mem hwf he)]
    exact hr
  · rintro ⟨u, hr⟩
    cases hg : userRaw.get? u with
    | none =>
      rw [GoMap.getD_of_none hg] at hr
      simp [GoMap.get?] at hr
    | some prof =>
      rw [GoMap.get?_getD hg] at hr
      exact ⟨(u, prof), GoMap.mem_of_get? hg, hr⟩

theorem itemScores_ne_nil {userRaw : GoMap (GoMap ℤ)} {i : ℤ} (hi : i ∈ ratedItems userRaw) :
    itemScores userRaw i ≠ [] := by
  rw [mem_ratedItems] at hi
  obtain ⟨e, he, hk⟩ := hi
  obtain ⟨r, hr⟩ := (GoMap.mem_keys_iff _ _).1 hk
  intro hnil
  have : r ∈ itemScores userRaw i := by
    unfold itemScores
    rw [List.mem_filterMap]
    exact ⟨e, he, hr⟩
  rw [hnil] at this
  simp at this

theorem sum_bounds (l : List ℤ) (h : ∀ x ∈ l, 1 ≤ x ∧ x ≤ 5) :
    (l.length : ℤ) ≤ l.sum ∧ l.sum ≤ 5 * (l.length : ℤ) := by
  induction l with
  | nil => simp
  | cons x l ih =>
    obtain ⟨h1, h2⟩ := ih (fun y hy => h y (List.mem_cons_of_mem _ hy))
    obtain ⟨h3, h4⟩ := h x (List.mem_cons_self _ _)
    simp only [List.length_cons, List.sum_cons, Nat.cast_add, Nat.cast_one]
    constructor <;> linarith

/-- The mean of scores that all lie in 1..5 lies in [1, 5]. -/
theorem itemMean_range {userRaw : GoMap (GoMap ℤ)} (hwf : userRaw.WF)
    (hr : ∀ u i r, (userRaw.getD u []).get? i = some r → 1 ≤ r ∧ r ≤ 5) {i : ℤ}
    (hi : i ∈ ratedItems userRaw) : 1 ≤ itemMean userRaw i ∧ itemMean userRaw i ≤ 5 := by
  have hne := itemScores_ne_nil hi
  have hb := sum_bounds (itemScores userRaw i) (fun r hr' => by
    obtain ⟨u, hu⟩ := (mem_itemScores hwf i r).1 hr'
    exact hr u i r hu)
  have hpos : (0 : ℚ) < ((itemScores userRaw i).length : ℕ) := by
    have := List.length_pos.2 hne
    exact_mod_cast this
  unfold itemMean
  rw [le_div_iff₀ hpos, div_le_iff₀ hpos]
  constructor
  · have := hb.1
    have h2 : (((itemScores userRaw i).length : ℤ) : ℚ) ≤ ((itemScores userRaw i).sum : ℤ) := by
      exact_mod_cast this
    simpa using h2
  · have := hb.2
    have h2 : (((itemScores userRaw i).sum : ℤ) : ℚ) ≤
        5 * (((itemScores userRaw i).length : ℤ) : ℚ) := by
      exact_mod_cast this
    simpa using h2

/-- C14: for every list of rating triples whose scores all lie in 1..5 and
all merge orders, every pair of every list the pipeline of `main` produces,
for a warm user as for a cold one, has a score in [1, 5]. -/
theorem recommend_range (s1 s2 s3 : List ℕ) (h1 : s1.Perm (List.range NumWorkers))
    (ratings : List (ℤ × ℤ × ℤ)) (hr : ∀ t ∈ ratings, 1 ≤ t.2.2 ∧ t.2.2 ≤ 5) :
    ∀ u, ∀ p ∈ (recommend s1 s2 s3 ratings).getD u [], 1 ≤ p.Val ∧ p.Val ≤ 5 := by
  intro u p hp
  obtain ⟨hwf, _, _, hv⟩ := buildUserRaw_inv h1 ratings
  unfold recommend at hp
  rw [predictForUsers_getD] at hp
  split at hp
  · unfold predictOne at hp
    split at hp
    · obtain ⟨hi, hval⟩ := mem_globalTopMovies hwf hp
      rw [hval]
      exact itemMean_range hwf.1 (fun u i r h => hr _ (hv u i r h)) hi
    · obtain ⟨_, he⟩ := mem_warmPreds hp
      rw [(predEntry_some he).2.2]
      exact clip_range _
  · simp at hp

/-! ## The example of a warm user -/

theorem warmRaw_cands :
    (predCands warmRaw (warmNeigh.getD 1 []) (warmRaw.getD 1 [])).keys = [11, 12] := by
  decide

theorem warm_entry11 :
    predEntry warmRaw warmMeans (warmNeigh.getD 1 []) (warmMeans.getD 1 0) 11 = some ⟨11, 4⟩ := by
  simp [predEntry, predAcc, warmRaw, warmMeans, warmNeigh, GoMap.getD, GoMap.get?, abs, clip]
  norm_num

theorem warm_entry12 :
    predEntry warmRaw warmMeans (warmNeigh.getD 1 []) (warmMeans.getD 1 0) 12 = some ⟨12, 2⟩ := by
  simp [predEntry, predAcc, warmRaw, warmMeans, warmNeigh, GoMap.getD, GoMap.get?, abs, clip]
  norm_num

/-- The list of user 1 in the example: the items 11 and 12, predicted at
3 + 1 and 3 − 1. -/
theorem warm_list :
    (predictForUsers warmRaw warmMeans warmNeigh []).getD 1 [] = [⟨11, 4⟩, ⟨12, 2⟩] := by
  rw [predictForUsers_getD, if_pos (by decide), predictOne_warm _ _ _ (by decide)]
  unfold warmPreds
  rw [predsOf_eq, warmRaw_cands]
  simp [List.filterMap_cons, warm_entry11, warm_entry12, sortSlice, insertLeft, pairLess, TopN]
  norm_num


/-- The warm user of the example: the list has the two pairs (11, 4) and
(12, 2), each with a positive denominator and the value of the formula. -/
theorem predictForUsers_value_witness :
    ColdThresh ≤ (warmRaw.getD 1 []).length ∧
    (predictForUsers warmRaw warmMeans warmNeigh []).getD 1 [] = [⟨11, 4⟩, ⟨12, 2⟩] ∧
    ∀ p ∈ (predictForUsers warmRaw warmMeans warmNeigh []).getD 1 [],
      0 < ((raters warmRaw (warmNeigh.getD 1 []) p.ID).map (fun x => |x.1.S|)).sum ∧
      p.Val = max 1 (min 5 (warmMeans.getD 1 0 +
        ((raters warmRaw (warmNeigh.getD 1 []) p.ID).map
          (fun x => x.1.S * ((x.2 : ℚ) - warmMeans.getD x.1.V 0))).sum /
        ((raters warmRaw (warmNeigh.getD 1 []) p.ID).map (fun x => |x.1.S|)).sum)) :=
  ⟨by decide, warm_list, predictForUsers_value warmRaw warmMeans warmNeigh [] 1 (by decide)⟩

/-- The warm user of the example: the only neighbour has a non-zero
similarity and there are two candidate items, 11 and 12, which are the items
of the list. -/
theorem predictForUsers_items_witness :
    (1 : ℤ) ∈ warmRaw.keys ∧ ColdThresh ≤ (warmRaw.getD 1 []).length ∧
    (∀ nb ∈ warmNeigh.getD 1 [], nb.S ≠ 0) ∧
    (predCands warmRaw (warmNeigh.getD 1 []) (warmRaw.getD 1 [])).length ≤ TopN ∧
    ∀ i, i ∈ ((predictForUsers warmRaw warmMeans warmNeigh []).getD 1 []).map Pair.ID ↔
      (i ∉ (warmRaw.getD 1 []).keys ∧
        ∃ nb ∈ warmNeigh.getD 1 [], i ∈ (warmRaw.getD nb.V []).keys) := by
  have hS : ∀ nb ∈ warmNeigh.getD 1 [], nb.S ≠ 0 := by
    intro nb hnb
    have : nb = ⟨2, 1 / 2, 10⟩ := by
      simpa [warmNeigh, GoMap.getD, GoMap.get?] using hnb
    rw [this]
    norm_num
  have hlen : (predCands warmRaw (warmNeigh.getD 1 []) (warmRaw.getD 1 [])).length ≤ TopN := by
    decide
  exact ⟨by decide, by decide, hS, hlen,
    ((predictForUsers_items warmRaw warmMeans warmNeigh [] 1 (by decide) (by decide)).2.2
      hS).2 hlen⟩

/-- The example of three users: all scores lie in 1..5, and so do the scores
of the lists the pipeline returns. -/
theorem recommend_range_witness :
    (List.range NumWorkers).Perm (List.range NumWorkers) ∧
    (∀ t ∈ toyRatings, 1 ≤ t.2.2 ∧ t.2.2 ≤ 5) ∧
    ∀ u, ∀ p ∈ (recommend (List.range NumWorkers) (List.range NumWorkers)
      (List.range NumWorkers) toyRatings).getD u [], 1 ≤ p.Val ∧ p.Val ≤ 5 :=
  ⟨List.Perm.refl _, by decide,
    recommend_range (List.range NumWorkers) (List.range NumWorkers) (List.range NumWorkers)
      (List.Perm.refl _) toyRatings (by decide)⟩

/-! ## globalTopMovies and the order of traversal -/

theorem GoMap.get?_perm {V : Type} {l1 l2 : GoMap V} (hp : l1.Perm l2) (h1 : l1.WF) (k : ℤ) :
    l1.get? k = l2.get? k := by
  have h2 : l2.WF := (hp.map Prod.fst).nodup_iff.1 h1
  cases h : l1.get? k with
  | none =>
    have hk : k ∉ l1.keys := (GoMap.get?_eq_none_iff _ _).1 h
    have hk2 : k ∉ l2.keys := fun hm => hk ((hp.map Prod.fst).mem_iff.2 hm)
    exact ((GoMap.get?_eq_none_iff _ _).2 hk2).symm
  | some v =>
    exact (GoMap.get?_of_mem h2 (hp.mem_iff.1 (GoMap.mem_of_get? h))).symm

theorem itemScores_keys {m : GoMap (GoMap ℤ)} (hm : m.WF) (i : ℤ) :
    itemScores m i = m.keys.filterMap (fun u => (m.getD u []).get? i) := by
  unfold itemScores GoMap.keys
  rw [List.filterMap_map]
  apply List.filterMap_congr
  intro e he
  simp only [Function.comp]
  rw [GoMap.get?_getD (GoMap.get?_of_mem hm he)]

theorem itemScores_perm {m1 m2 : GoMap (GoMap ℤ)} (h1 : m1.WF2) (h2 : m2.WF2)
    (hs : SameMap m1 m2) (i : ℤ) : (itemScores m1 i).Perm (itemScores m2 i) := by
  rw [itemScores_keys h1.1, itemScores_keys h2.1]
  have hf : ∀ u, (m1.getD u []).get? i = (m2.getD u []).get? i :=
    fun u => GoMap.get?_perm (hs.2 u) (GoMap.WF2_getD h1 u) i
  simp only [hf]
  exact hs.1.filterMap _

theorem itemMean_same {m1 m2 : GoMap (GoMap ℤ)} (h1 : m1.WF2) (h2 : m2.WF2)
    (hs : SameMap m1 m2) (i : ℤ) : itemMean m1 i = itemMean m2 i := by
  have hp := itemScores_perm h1 h2 hs i
  unfold itemMean
  rw [hp.sum_eq, hp.length_eq]

theorem mem_ratedItems_iff (m : GoMap (GoMap ℤ)) (i : ℤ) :
    i ∈ ratedItems m ↔ itemScores m i ≠ [] := by
  constructor
  · exact itemScores_ne_nil
  · intro h
    obtain ⟨r, hr⟩ := List.exists_mem_of_ne_nil _ h
    unfold itemScores at hr
    rw [List.mem_filterMap] at hr
    obtain ⟨e, he, hg⟩ := hr
    rw [mem_ratedItems]
    exact ⟨e, he, (GoMap.mem_keys_iff _ _).2 ⟨r, hg⟩⟩

theorem ratedItems_perm {m1 m2 : GoMap (GoMap ℤ)} (h1 : m1.WF2) (h2 : m2.WF2)
    (hs : SameMap m1 m2) : (ratedItems m1).Perm (ratedItems m2) := by
  have hn1 : (ratedItems m1).Nodup := List.nodup_dedup _
  have hn2 : (ratedItems m2).Nodup := List.nodup_dedup _
  rw [List.perm_ext_iff_of_nodup hn1 hn2]
  intro i
  rw [mem_ratedItems_iff, mem_ratedItems_iff]
  have hp := itemScores_perm h1 h2 hs i
  constructor
  · intro h hnil
    rw [hnil] at hp
    exact h hp.eq_nil
  · intro h hnil
    rw [hnil] at hp
    exact h hp.symm.eq_nil

/-- The lists `pop` of two traversals of the same map hold the same pairs. -/
theorem popList_perm {m1 m2 : GoMap (GoMap ℤ)} (h1 : m1.WF2) (h2 : m2.WF2)
    (hs : SameMap m1 m2) :
    (popList (tally m1).1 (tally m1).2).Perm (popList (tally m2).1 (tally m2).2) := by
  rw [popList_tally h1, popList_tally h2]
  have hk : (tally m1).1.keys.Perm (tally m2).1.keys :=
    ((tally_keys_perm m1).trans (ratedItems_perm h1 h2 hs)).trans (tally_keys_perm m2).symm
  have hf : (fun i => (⟨i, itemMean m1 i⟩ : Pair)) = fun i => (⟨i, itemMean m2 i⟩ : Pair) := by
    funext i
    rw [itemMean_same h1 h2 hs i]
  rw [hf]
  exact hk.map _

theorem sorted_perm {m1 m2 : GoMap (GoMap ℤ)} (h1 : m1.WF2) (h2 : m2.WF2)
    (hs : SameMap m1 m2) :
    (sortSlice pairLess (popList (tally m1).1 (tally m1).2)).Perm
      (sortSlice pairLess (popList (tally m2).1 (tally m2).2)) :=
  ((sortSlice_perm pairLess _).trans (popList_perm h1 h2 hs)).trans
    (sortSlice_perm pairLess _).symm

theorem popList_nodup {m : GoMap (GoMap ℤ)} (hm : m.WF2) :
    (popList (tally m).1 (tally m).2).Nodup := by
  rw [popList_tally hm]
  refine List.Nodup.map ?_ (tally_WF m)
  intro i j h
  exact congrArg Pair.ID h

theorem evenRaw_WF2 : evenRaw.WF2 := by
  decide

theorem evenRawSwapped_WF2 : evenRawSwapped.WF2 := by
  decide

theorem evenRaw_same : SameMap evenRaw evenRawSwapped := by
  refine ⟨List.Perm.refl _, ?_⟩
  intro u
  by_cases hu : u = 1
  · subst hu
    exact List.Perm.swap _ _ _
  · have h1 : evenRaw.getD u [] = [] := by
      simp [evenRaw, GoMap.getD, GoMap.get?, Ne.symm hu]
    have h2 : evenRawSwapped.getD u [] = [] := by
      simp [evenRawSwapped, GoMap.getD, GoMap.get?, Ne.symm hu]
    rw [h1, h2]

/-- C17 fails as stated: the profile of the only user of the example holds
the items 1 and 2, both with the score 5; traversed in the one order the
result lists item 1 first, traversed in the other order item 2. -/
theorem globalTopMovies_order_dependent :
    evenRaw.WF2 ∧ evenRawSwapped.WF2 ∧ SameMap evenRaw evenRawSwapped ∧
    globalTopMovies evenRaw ≠ globalTopMovies evenRawSwapped := by
  refine ⟨evenRaw_WF2, evenRawSwapped_WF2, evenRaw_same, ?_⟩
  rw [evenRaw_global, evenRawSwapped_global]
  decide

/-- C17, as amended: for two traversals of the same profile map the two
results of `globalTopMovies` have the same length and the same sequence of
mean scores, each listed item with its own mean; they are the same sequence
when no two rated items have the same mean.  The order of the items of equal
mean depends on the order of traversal. -/
theorem globalTopMovies_stable_values (m1 m2 : GoMap (GoMap ℤ)) (h1 : m1.WF2) (h2 : m2.WF2)
    (hs : SameMap m1 m2) :
    (globalTopMovies m1).map Pair.Val = (globalTopMovies m2).map Pair.Val ∧
    (∀ p ∈ globalTopMovies m2, p.Val = itemMean m1 p.ID) ∧
    ((∀ i ∈ ratedItems m1, ∀ j ∈ ratedItems m1, itemMean m1 i = itemMean m1 j → i = j) →
      globalTopMovies m1 = globalTopMovies m2) := by
  have hperm := sorted_perm h1 h2 hs
  have hs1 := sortSlice_pairLess_sorted (popList (tally m1).1 (tally m1).2)
  have hs2 := sortSlice_pairLess_sorted (popList (tally m2).1 (tally m2).2)
  refine ⟨?_, ?_, ?_⟩
  · unfold globalTopMovies
    rw [List.map_take, List.map_take]
    congr 1
    have hv1 : ((sortSlice pairLess (popList (tally m1).1 (tally m1).2)).map Pair.Val).Sorted
        (fun a b => b ≤ a) := List.pairwise_map.2 hs1
    have hv2 : ((sortSlice pairLess (popList (tally m2).1 (tally m2).2)).map Pair.Val).Sorted
        (fun a b => b ≤ a) := List.pairwise_map.2 hs2
    have hanti : IsAntisymm ℚ (fun a b => b ≤ a) := ⟨fun a b hab hba => le_antisymm hba hab⟩
    exact List.eq_of_perm_of_sorted (hperm.map Pair.Val) hv1 hv2
  · intro p hp
    rw [(mem_globalTopMovies h2 hp).2, itemMean_same h1 h2 hs]
  · intro hinj
    have hmem : ∀ p ∈ sortSlice pairLess (popList (tally m1).1 (tally m1).2),
        p.ID ∈ ratedItems m1 ∧ p.Val = itemMean m1 p.ID := by
      intro p hp
      rw [(sortSlice_perm pairLess _).mem_iff, popList_tally h1, List.mem_map] at hp
      obtain ⟨i, hi, rfl⟩ := hp
      exact ⟨(tally_keys m1 i).1 hi, rfl⟩
    have hval : ∀ a ∈ sortSlice pairLess (popList (tally m1).1 (tally m1).2),
        ∀ b ∈ sortSlice pairLess (popList (tally m1).1 (tally m1).2),
        a.Val = b.Val → a = b := by
      intro a ha b hb hab
      obtain ⟨ha1, ha2⟩ := hmem a ha
      obtain ⟨hb1, hb2⟩ := hmem b hb
      have hid : a.ID = b.ID := hinj _ ha1 _ hb1 (by rw [← ha2, ← hb2, hab])
      cases a
      cases b
      simp only at hid hab
      subst hid hab
      rfl
    have hn1 : (sortSlice pairLess (popList (tally m1).1 (tally m1).2)).Nodup :=
      (sortSlice_perm pairLess _).nodup_iff.2 (popList_nodup h1)
    have hn2 : (sortSlice pairLess (popList (tally m2).1 (tally m2).2)).Nodup :=
      (sortSlice_perm pairLess _).nodup_iff.2 (popList_nodup h2)
    have hst1 : (sortSlice pairLess (popList (tally m1).1 (tally m1).2)).Sorted
        (fun a b => b.Val < a.Val) := by
      refine List.Pairwise.imp_of_mem ?_ (hs1.and hn1)
      intro a b ha hb hab
      exact lt_of_le_of_ne hab.1 (fun e => hab.2 (hval a ha b hb e.symm))
    have hst2 : (sortSlice pairLess (popList (tally m2).1 (tally m2).2)).Sorted
        (fun a b => b.Val < a.Val) := by
      refine List.Pairwise.imp_of_mem ?_ (hs2.and hn2)
      intro a b ha hb hab
      exact lt_of_le_of_ne hab.1 (fun e => hab.2
        (hval a (hperm.mem_iff.2 ha) b (hperm.mem_iff.2 hb) e.symm))
    have hanti : IsAntisymm Pair (fun a b => b.Val < a.Val) :=
      ⟨fun a b hab hba => absurd hab (not_lt_of_lt hba)⟩
    unfold globalTopMovies
    rw [List.eq_of_perm_of_sorted hperm hst1 hst2]

/-- The two traversals of the example: the two results hold the means 5, 5. -/
theorem globalTopMovies_stable_values_witness :
    evenRaw.WF2 ∧ evenRawSwapped.WF2 ∧ SameMap evenRaw evenRawSwapped ∧
    (globalTopMovies evenRaw).map Pair.Val = (globalTopMovies evenRawSwapped).map Pair.Val :=
  ⟨evenRaw_WF2, evenRawSwapped_WF2, evenRaw_same,
    (globalTopMovies_stable_values evenRaw evenRawSwapped evenRaw_WF2 evenRawSwapped_WF2
      evenRaw_same).1⟩

/-! ## The per-line rule of readRatings: theorems -/

theorem clampInt_error_value (v : ℤ) (h : (clampInt v).2 = false) :
    ¬ (1 ≤ (clampInt v).1 ∧ (clampInt v).1 ≤ 5) := by
  unfold clampInt at h ⊢
  split_ifs at h ⊢
  · norm_num
  · norm_num

/-- A field `strconv.Atoi` rejects never yields a score in 1..5: the value
returned with the error is 0 or a bound of the range of `int`. -/
theorem atoi_error_value (s : List Char) (h : (atoi s).2 = false) :
    ¬ (1 ≤ (atoi s).1 ∧ (atoi s).1 ≤ 5) := by
  unfold atoi at h ⊢
  split_ifs at h ⊢
  · norm_num
  · cases hd : parseDigits 0 (atoiBody s) with
    | none => norm_num [atoiValue]
    | some n =>
      rw [hd] at h
      exact clampInt_error_value _ h

theorem parseLine_of_parts {line p0 p1 p2 p3 : List Char}
    (h : splitColons [] line = [p0, p1, p2, p3]) :
    parseLine line =
      if 1 ≤ (atoi p2).1 ∧ (atoi p2).1 ≤ 5 then some ((atoi p0).1, (atoi p1).1, (atoi p2).1)
      else none := by
  unfold parseLine
  rw [h]

theorem parseLine_of_length_ne {line : List Char} (h : (splitColons [] line).length ≠ 4) :
    parseLine line = none := by
  unfold parseLine
  rcases hs : splitColons [] line with _ | ⟨a, _ | ⟨b, _ | ⟨c, _ | ⟨d, _ | ⟨e, t⟩⟩⟩⟩⟩
  · rfl
  · rfl
  · rfl
  · rfl
  · rw [hs] at h
    simp at h
  · rfl

/-- C19 fails as stated: the line `abc::1193::5::978300760` has four fields
and a user field that `strconv.Atoi` rejects; the error is discarded and the
record (0, 1193, 5) is emitted. -/
theorem parseLine_keeps_bad_user :
    splitColons [] "abc::1193::5::978300760".toList =
      ["abc".toList, "1193".toList, "5".toList, "978300760".toList] ∧
    (atoi "abc".toList).2 = false ∧
    parseLine "abc::1193::5::978300760".toList = some (0, 1193, 5) := by
  decide

/-- C19, as amended: for every input line, the per-line rule of `readRatings`
emits no record when the line does not have exactly four fields, or when the
score field is non-numeric or outside 1..5; a line with four fields and a
score in 1..5 is emitted whatever its user and item fields, a field that
`strconv.Atoi` rejects being read as the value returned with the error; every
record emitted carries a score in 1..5. -/
theorem parseLine_spec (line : List Char) :
    ((splitColons [] line).length ≠ 4 → parseLine line = none) ∧
    (∀ p0 p1 p2 p3, splitColons [] line = [p0, p1, p2, p3] →
      ((atoi p2).2 = false → parseLine line = none) ∧
      (¬ (1 ≤ (atoi p2).1 ∧ (atoi p2).1 ≤ 5) → parseLine line = none) ∧
      (1 ≤ (atoi p2).1 ∧ (atoi p2).1 ≤ 5 →
        parseLine line = some ((atoi p0).1, (atoi p1).1, (atoi p2).1))) ∧
    (∀ t, parseLine line = some t → 1 ≤ t.2.2 ∧ t.2.2 ≤ 5) := by
  refine ⟨parseLine_of_length_ne, ?_, ?_⟩
  · intro p0 p1 p2 p3 h
    rw [parseLine_of_parts h]
    refine ⟨fun he => if_neg (atoi_error_value p2 he), fun hr => if_neg hr, fun hr => if_pos hr⟩
  · intro t ht
    by_cases hl : (splitColons [] line).length = 4
    · rcases hs : splitColons [] line with _ | ⟨a, _ | ⟨b, _ | ⟨c, _ | ⟨d, _ | ⟨e, r⟩⟩⟩⟩⟩
      · rw [hs] at hl; simp at hl
      · rw [hs] at hl; simp at hl
      · rw [hs] at hl; simp at hl
      · rw [hs] at hl; simp at hl
      · rw [parseLine_of_parts hs] at ht
        split at ht
        · rename_i hr
          cases ht
          exact hr
        · cases ht
      · rw [hs] at hl; simp at hl
    · rw [parseLine_of_length_ne hl] at ht
      cases ht

/-- A line whose score field is not a number: it has four fields and is
dropped. -/
theorem parseLine_spec_witness :
    splitColons [] "1::1193::x::978300760".toList =
      ["1".toList, "1193".toList, "x".toList, "978300760".toList] ∧
    (atoi "x".toList).2 = false ∧
    parseLine "1::1193::x::978300760".toList = none :=
  ⟨by decide, by decide,
    ((parseLine_spec "1::1193::x::978300760".toList).2.1 "1".toList "1193".toList "x".toList
      "978300760".toList (by decide)).1 (by decide)⟩


/-! ## The accuracy of sqrt -/

theorem newton_sq_step {x z B B' : ℚ} (hx : 0 < x) (hz : 0 < z) (h1 : x ≤ z ^ 2)
    (h2 : z ^ 2 ≤ B * x) (hB : 0 < B) (hB' : (B + 2 + 1 / B) / 4 ≤ B') :
    ((1 / 2) * (z + x / z)) ^ 2 ≤ B' * x := by
  have hz2 : 0 < z ^ 2 := by positivity
  have hB1 : 1 ≤ B := by
    by_contra hlt
    push_neg at hlt
    nlinarith
  have key : z ^ 2 * z ^ 2 * B + x ^ 2 * B ≤ (B ^ 2 + 1) * x * z ^ 2 := by
    nlinarith [mul_nonneg (sub_nonneg.2 h2) (sub_nonneg.2
      (le_trans h1 (le_mul_of_one_le_left (le_of_lt hz2) hB1)))]
  have hstep : ((1 / 2) * (z + x / z)) ^ 2 ≤ (B + 2 + 1 / B) / 4 * x := by
    have e1 : ((1 / 2) * (z + x / z)) ^ 2 = (z ^ 2 * z ^ 2 + 2 * x * z ^ 2 + x ^ 2) / (4 * z ^ 2) := by
      field_simp
      ring
    have e2 : (B + 2 + 1 / B) / 4 * x = ((B ^ 2 + 2 * B + 1) * x) / (4 * B) := by
      field_simp
      ring
    rw [e1, e2, div_le_div_iff₀ (by positivity) (by positivity)]
    nlinarith
  exact le_trans hstep (mul_le_mul_of_nonneg_right hB' (le_of_lt hx))

/-- One Newton step keeps the iterate positive and above the root and takes a
bound `B` on `z² / x` to the bound `(B + 2 + 1/B) / 4`. -/
theorem newton_iterate_bound {x B B' : ℚ} (hx : 0 < x) (k : ℕ) (hB : 0 < B)
    (h : (Nat.iterate (fun z => (1 / 2) * (z + x / z)) (k + 1) x) ^ 2 ≤ B * x)
    (hB' : (B + 2 + 1 / B) / 4 ≤ B') :
    (Nat.iterate (fun z => (1 / 2) * (z + x / z)) (k + 2) x) ^ 2 ≤ B' * x := by
  have hpos := newton_iterate_pos hx (k + 1)
  have hge : x ≤ (Nat.iterate (fun z => (1 / 2) * (z + x / z)) (k + 1) x) ^ 2 := by
    rw [Function.iterate_succ_apply']
    exact newton_step_sq (newton_iterate_pos hx k)
  rw [show k + 2 = (k + 1) + 1 from rfl, Function.iterate_succ_apply']
  exact newton_sq_step hx hpos hge h hB hB'

theorem newton_first {x : ℚ} (h1 : 1 / 10 ^ 8 ≤ x) (h2 : x ≤ 10 ^ 8) :
    (Nat.iterate (fun z => (1 / 2) * (z + x / z)) 1 x) ^ 2 ≤ 25000001 * x := by
  have hx : 0 < x := lt_of_lt_of_le (by norm_num) h1
  have hz : (Nat.iterate (fun z => (1 / 2) * (z + x / z)) 1 x) = (1 / 2) * (x + 1) := by
    simp only [Function.iterate_succ, Function.iterate_zero, Function.comp, id]
    rw [div_self (ne_of_gt hx)]
  rw [hz]
  nlinarith [mul_nonneg (sub_nonneg.2 h1) (sub_nonneg.2 h2)]

/-- After the twenty steps the square of the result exceeds the argument by a
factor of at most `1 + 10^-80`, on the range from `10^-8` to `10^8`. -/
theorem sqrt_sq_le {x : ℚ} (h1 : 1 / 10 ^ 8 ≤ x) (h2 : x ≤ 10 ^ 8) :
    sqrt x ^ 2 ≤ (1 + 1 / 10 ^ 80) * x := by
  have hx : 0 < x := lt_of_lt_of_le (by norm_num) h1
  have b1 := newton_first h1 h2
  have b2 := newton_iterate_bound hx 0 (by norm_num) b1
    (by norm_num : ((25000001 : ℚ) + 2 + 1 / 25000001) / 4 ≤ 6250001)
  have b3 := newton_iterate_bound hx 1 (by norm_num) b2
    (by norm_num : ((6250001 : ℚ) + 2 + 1 / 6250001) / 4 ≤ 1562501)
  have b4 := newton_iterate_bound hx 2 (by norm_num) b3
    (by norm_num : ((1562501 : ℚ) + 2 + 1 / 1562501) / 4 ≤ 390626)
  have b5 := newton_iterate_bound hx 3 (by norm_num) b4
    (by norm_num : ((390626 : ℚ) + 2 + 1 / 390626) / 4 ≤ 97658)
  have b6 := newton_iterate_bound hx 4 (by norm_num) b5
    (by norm_num : ((97658 : ℚ) + 2 + 1 / 97658) / 4 ≤ 24416)
  have b7 := newton_iterate_bound hx 5 (by norm_num) b6
    (by norm_num : ((24416 : ℚ) + 2 + 1 / 24416) / 4 ≤ 6105)
  have b8 := newton_iterate_bound hx 6 (by norm_num) b7
    (by norm_num : ((6105 : ℚ) + 2 + 1 / 6105) / 4 ≤ 1527)
  have b9 := newton_iterate_bound hx 7 (by norm_num) b8
    (by norm_num : ((1527 : ℚ) + 2 + 1 / 1527) / 4 ≤ 383)
  have b10 := newton_iterate_bound hx 8 (by norm_num) b9
    (by norm_num : ((383 : ℚ) + 2 + 1 / 383) / 4 ≤ 97)
  have b11 := newton_iterate_bound hx 9 (by norm_num) b10
    (by norm_num : ((97 : ℚ) + 2 + 1 / 97) / 4 ≤ 25)
  have b12 := newton_iterate_bound hx 10 (by norm_num) b11
    (by norm_num : ((25 : ℚ) + 2 + 1 / 25) / 4 ≤ 7)
  have b13 := newton_iterate_bound hx 11 (by norm_num) b12
    (by norm_num : ((7 : ℚ) + 2 + 1 / 7) / 4 ≤ 23 / 10)
  have b14 := newton_iterate_bound hx 12 (by norm_num) b13
    (by norm_num : ((23 / 10 : ℚ) + 2 + 1 / (23 / 10)) / 4 ≤ 119 / 100)
  have b15 := newton_iterate_bound hx 13 (by norm_num) b14
    (by norm_num : ((119 / 100 : ℚ) + 2 + 1 / (119 / 100)) / 4 ≤ 1008 / 1000)
  have b16 := newton_iterate_bound hx 14 (by norm_num) b15
    (by norm_num : ((1008 / 1000 : ℚ) + 2 + 1 / (1008 / 1000)) / 4 ≤ 100002 / 100000)
  have b17 := newton_iterate_bound hx 15 (by norm_num) b16
    (by norm_num : ((100002 / 100000 : ℚ) + 2 + 1 / (100002 / 100000)) / 4 ≤ 1 + 11 / 10 ^ 11)
  have b18 := newton_iterate_bound hx 16 (by norm_num) b17
    (by norm_num : ((1 + 11 / 10 ^ 11 : ℚ) + 2 + 1 / (1 + 11 / 10 ^ 11)) / 4 ≤ 1 + 1 / 10 ^ 20)
  have b19 := newton_iterate_bound hx 17 (by norm_num) b18
    (by norm_num : ((1 + 1 / 10 ^ 20 : ℚ) + 2 + 1 / (1 + 1 / 10 ^ 20)) / 4 ≤ 1 + 1 / 10 ^ 40)
  have b20 := newton_iterate_bound hx 18 (by norm_num) b19
    (by norm_num : ((1 + 1 / 10 ^ 40 : ℚ) + 2 + 1 / (1 + 1 / 10 ^ 40)) / 4 ≤ 1 + 1 / 10 ^ 80)
  unfold sqrt
  rw [if_neg (not_le.2 hx)]
  exact b20


/-- Without rounding (the function on `ℚ`), `sqrt` returns 0 for every
`x ≤ 0`, never undershoots (for `x > 0` the result `z` has `z * z ≥ x`), and
for `10^-8 ≤ x ≤ 10^8` satisfies `√x ≤ sqrt(x) ≤ √x * (1 + 10^-12)`. -/
theorem sqrt_accuracy :
    (∀ x : ℚ, x ≤ 0 → sqrt x = 0) ∧
    (∀ x : ℚ, 0 < x → x ≤ sqrt x * sqrt x) ∧
    (∀ x : ℚ, 1 / 10 ^ 8 ≤ x → x ≤ 10 ^ 8 →
      Real.sqrt (x : ℝ) ≤ ((sqrt x : ℚ) : ℝ) ∧
      ((sqrt x : ℚ) : ℝ) ≤ Real.sqrt (x : ℝ) * (1 + 1 / 10 ^ 12)) := by
  refine ⟨?_, ?_, ?_⟩
  · intro x hx
    unfold sqrt
    rw [if_pos hx]
  · intro x _
    have := le_sqrt_sq x
    rwa [sq] at this
  · intro x h1 h2
    have hx : 0 < x := lt_of_lt_of_le (by norm_num) h1
    have hz : 0 < sqrt x := sqrt_pos hx
    have hlo : x ≤ sqrt x ^ 2 := le_sqrt_sq x
    have hhi : sqrt x ^ 2 ≤ (1 + 1 / 10 ^ 12) ^ 2 * x := by
      refine le_trans (sqrt_sq_le h1 h2) ?_
      exact mul_le_mul_of_nonneg_right (by norm_num) (le_of_lt hx)
    have hxR : (0 : ℝ) ≤ (x : ℝ) := by exact_mod_cast le_of_lt hx
    have hzR : (0 : ℝ) ≤ ((sqrt x : ℚ) : ℝ) := by exact_mod_cast le_of_lt hz
    have hloR : (x : ℝ) ≤ ((sqrt x : ℚ) : ℝ) ^ 2 := by exact_mod_cast hlo
    have hhiR : ((sqrt x : ℚ) : ℝ) ^ 2 ≤ (1 + 1 / 10 ^ 12) ^ 2 * (x : ℝ) := by
      have h : ((sqrt x ^ 2 : ℚ) : ℝ) ≤ (((1 + 1 / 10 ^ 12) ^ 2 * x : ℚ) : ℝ) :=
        Rat.cast_le.2 hhi
      push_cast at h
      exact h
    constructor
    · rw [Real.sqrt_le_iff]
      exact ⟨hzR, hloR⟩
    · have hb : (0 : ℝ) ≤ Real.sqrt (x : ℝ) * (1 + 1 / 10 ^ 12) :=
        mul_nonneg (Real.sqrt_nonneg _) (by norm_num)
      have hsq : ((sqrt x : ℚ) : ℝ) ^ 2 ≤ (Real.sqrt (x : ℝ) * (1 + 1 / 10 ^ 12)) ^ 2 := by
        rw [mul_pow, Real.sq_sqrt hxR]
        linarith
      exact (abs_le_of_sq_le_sq' hsq hb).2

/-! ## float64: the rounding error -/

theorem bitsAux_zero (fuel : ℕ) : bitsAux fuel 0 = 0 := by
  cases fuel <;> simp [bitsAux]

theorem bitsAux_spec : ∀ (fuel n : ℕ), n ≤ fuel →
    n < 2 ^ bitsAux fuel n ∧ (n ≠ 0 → 2 ^ (bitsAux fuel n - 1) ≤ n)
  | 0, n, h => by
    have h0 : n = 0 := by omega
    subst h0
    simp [bitsAux]
  | fuel + 1, n, h => by
    by_cases hn : n = 0
    · subst hn
      simp [bitsAux]
    · have ih := bitsAux_spec fuel (n / 2) (by omega)
      simp only [bitsAux, if_neg hn]
      refine ⟨?_, fun _ => ?_⟩
      · have h1 := ih.1
        rw [pow_succ]
        omega
      · simp only [Nat.add_sub_cancel]
        by_cases h2 : n / 2 = 0
        · rw [h2, bitsAux_zero]
          simp
          omega
        · have h3 := ih.2 h2
          have h1 := ih.1
          have hb : bitsAux fuel (n / 2) ≠ 0 := by
            intro hc
            rw [hc] at h1
            simp at h1
            exact h2 h1
          obtain ⟨c, hc⟩ := Nat.exists_eq_succ_of_ne_zero hb
          rw [hc] at h3 ⊢
          simp only [Nat.succ_sub_one] at h3
          rw [pow_succ]
          omega

theorem bits_lt (n : ℕ) : n < 2 ^ bits n := (bitsAux_spec n n le_rfl).1

theorem bits_le (n : ℕ) (hn : n ≠ 0) : 2 ^ (bits n - 1) ≤ n := (bitsAux_spec n n le_rfl).2 hn

theorem bits_pos (n : ℕ) (hn : n ≠ 0) : 1 ≤ bits n := by
  by_contra hc
  have h0 : bits n = 0 := by omega
  have h1 := bits_lt n
  rw [h0] at h1
  simp at h1
  exact hn h1

/-- Rounding to nearest is off by at most half of the divisor. -/
theorem roundNat_err (a s : ℕ) (hs : 1 ≤ s) :
    2 * (F64.roundNat (a / 2 ^ s) (a % 2 ^ s) (2 ^ (s - 1)) * 2 ^ s) ≤ 2 * a + 2 ^ s ∧
    2 * a ≤ 2 * (F64.roundNat (a / 2 ^ s) (a % 2 ^ s) (2 ^ (s - 1)) * 2 ^ s) + 2 ^ s ∧
    a / 2 ^ s ≤ F64.roundNat (a / 2 ^ s) (a % 2 ^ s) (2 ^ (s - 1)) ∧
    F64.roundNat (a / 2 ^ s) (a % 2 ^ s) (2 ^ (s - 1)) ≤ a / 2 ^ s + 1 := by
  obtain ⟨t, rfl⟩ : ∃ t, s = t + 1 := ⟨s - 1, by omega⟩
  simp only [Nat.add_sub_cancel]
  have hd : 2 ^ (t + 1) = 2 * 2 ^ t := by rw [pow_succ]; ring
  have hdm := Nat.div_add_mod a (2 ^ (t + 1))
  have hlt := Nat.mod_lt a (show 0 < 2 ^ (t + 1) by positivity)
  generalize hQ : a / 2 ^ (t + 1) = Q at *
  generalize hr : a % 2 ^ (t + 1) = r at *
  generalize hh : 2 ^ t = h at *
  rw [hd] at hdm hlt ⊢
  unfold F64.roundNat
  split_ifs with hc
  · have : h ≤ r := by rcases hc with hc | hc <;> omega
    refine ⟨?_, ?_, ?_, ?_⟩ <;> nlinarith
  · have : r ≤ h := by
      by_contra hc2
      exact hc (Or.inl (by omega))
    refine ⟨?_, ?_, ?_, ?_⟩ <;> nlinarith


theorem two_zpow_pos (k : ℤ) : (0 : ℚ) < 2 ^ k := zpow_pos (by norm_num) k

theorem two_zpow_le {j k : ℤ} (h : j ≤ k) : (2 : ℚ) ^ j ≤ 2 ^ k :=
  zpow_le_zpow_right₀ (by norm_num) h

theorem two_zpow_add (j k : ℤ) : (2 : ℚ) ^ (j + k) = 2 ^ j * 2 ^ k :=
  zpow_add₀ (by norm_num) j k

theorem two_zpow_nat (k : ℕ) : (2 : ℚ) ^ (k : ℤ) = ((2 ^ k : ℕ) : ℚ) := by
  rw [zpow_natCast]; push_cast; rfl

theorem cast_natAbs_rat (n : ℤ) : ((n.natAbs : ℕ) : ℚ) = |(n : ℚ)| := by
  rw [Nat.cast_natAbs, Int.cast_abs]

theorem cast_sign_mul (n : ℤ) : ((n.sign : ℤ) : ℚ) * ((n.natAbs : ℕ) : ℚ) = (n : ℚ) := by
  rw [cast_natAbs_rat, ← Int.cast_abs, ← Int.cast_mul, Int.sign_mul_abs]

theorem abs_cast_sign (n : ℤ) (hn : n ≠ 0) : |((n.sign : ℤ) : ℚ)| = 1 := by
  rcases lt_or_gt_of_ne hn with h | h
  · rw [Int.sign_eq_neg_one_of_neg h]; norm_num
  · rw [Int.sign_eq_one_of_pos h]; norm_num

/-- The representative chosen by `pack` has the value it was given. -/
theorem pack_spec (m e : ℤ) (hm : m.natAbs ≤ 2 ^ 53) (he : -1074 ≤ e)
    (hov : |(m : ℚ)| * 2 ^ e < 2 ^ (1024 : ℤ))
    (hnorm : 2 ^ 52 ≤ m.natAbs ∨ e ≤ 971) :
    (F64.pack m e).finite = true ∧ (F64.pack m e).val = (m : ℚ) * 2 ^ e := by
  unfold F64.pack
  by_cases h0 : m = 0
  · subst h0
    simp [F64.finite, F64.val]
  rw [if_neg h0]
  have hpos := two_zpow_pos e
  by_cases h53 : m.natAbs = 2 ^ 53
  · rw [if_pos h53]
    have habs : |(m : ℚ)| = 2 ^ (53 : ℤ) := by
      rw [← cast_natAbs_rat, h53]; norm_num
    have hno : ¬ (971 < e + 1) := by
      intro hc
      have h1 : (2 : ℚ) ^ (971 : ℤ) ≤ 2 ^ e := two_zpow_le (by omega)
      rw [habs] at hov
      have h2 : (2 : ℚ) ^ (1024 : ℤ) = 2 ^ (53 : ℤ) * 2 ^ (971 : ℤ) := by
        rw [← two_zpow_add]; norm_num
      rw [h2] at hov
      have h3 : (0 : ℚ) < 2 ^ (53 : ℤ) := two_zpow_pos 53
      exact absurd hov (not_lt.2 (mul_le_mul_of_nonneg_left h1 h3.le))
    rw [if_neg hno]
    refine ⟨by simp [F64.finite]; omega, ?_⟩
    have hs := cast_sign_mul m
    rw [h53] at hs
    simp only [F64.val]
    rw [← hs, two_zpow_add e 1]
    push_cast
    norm_num
    ring
  · rw [if_neg h53]
    have hno : ¬ (971 < e) := by
      intro hc
      rcases hnorm with h | h
      · have h1 : (2 : ℚ) ^ (972 : ℤ) ≤ 2 ^ e := two_zpow_le (by omega)
        have h4 : (2 : ℚ) ^ (52 : ℤ) ≤ |(m : ℚ)| := by
          rw [← cast_natAbs_rat]
          have : ((2 ^ 52 : ℕ) : ℚ) ≤ ((m.natAbs : ℕ) : ℚ) := Nat.cast_le.2 h
          refine le_trans (le_of_eq ?_) this
          norm_num
        have h2 : (2 : ℚ) ^ (1024 : ℤ) = 2 ^ (52 : ℤ) * 2 ^ (972 : ℤ) := by
          rw [← two_zpow_add]; norm_num
        rw [h2] at hov
        have h3 : (0 : ℚ) < 2 ^ (52 : ℤ) := two_zpow_pos 52
        have h5 : (0 : ℚ) < 2 ^ (972 : ℤ) := two_zpow_pos 972
        have : (2 : ℚ) ^ (52 : ℤ) * 2 ^ (972 : ℤ) ≤ |(m : ℚ)| * 2 ^ e :=
          mul_le_mul h4 h1 h5.le (abs_nonneg _)
        linarith
      · omega
    rw [if_neg hno]
    exact ⟨by simp [F64.finite]; omega, by simp [F64.val]⟩

theorem shift_cancel (t : ℕ) (e : ℤ) : (2 : ℚ) ^ t * 2 ^ (e + -(t : ℤ)) = 2 ^ e := by
  rw [two_zpow_add, zpow_neg, zpow_natCast]
  have : (2 : ℚ) ^ t ≠ 0 := by positivity
  field_simp

theorem shift_split (t : ℕ) (e : ℤ) : (2 : ℚ) ^ (e + (t : ℤ)) = 2 ^ t * 2 ^ e := by
  rw [two_zpow_add, zpow_natCast, mul_comm]

/-- The error of `round`: half a unit in the last place, which is at most
`2 ^ (-53)` of the value unless the result is subnormal, and `2 ^ (-1075)`
then. -/
theorem round_core (n e : ℤ) (hx : |(n : ℚ)| * 2 ^ e ≤ 2 ^ (1023 : ℤ)) :
    (F64.round n e).finite = true ∧
    (|(F64.round n e).val - n * 2 ^ e| ≤ |(n : ℚ)| * 2 ^ e * 2 ^ (-53 : ℤ) ∨
     (0 < -1074 - e ∧ (bits n.natAbs : ℤ) - 53 < -1074 - e ∧
       |(F64.round n e).val - n * 2 ^ e| ≤ 2 ^ (-1075 : ℤ))) := by
  by_cases hn : n = 0
  · subst hn
    simp [F64.round, F64.finite, F64.val]
  have ha0 : n.natAbs ≠ 0 := Int.natAbs_ne_zero.2 hn
  have hb1 := bits_pos _ ha0
  have hlt := bits_lt n.natAbs
  have hle := bits_le _ ha0
  have hpe := two_zpow_pos e
  have habs := cast_natAbs_rat n
  have hsgn := cast_sign_mul n
  have hsgn1 := abs_cast_sign n hn
  have h1024 : (2 : ℚ) ^ (1023 : ℤ) < 2 ^ (1024 : ℤ) :=
    zpow_lt_zpow_right₀ (by norm_num) (by norm_num)
  rw [F64.round, if_neg hn]
  dsimp only
  generalize hb : bits n.natAbs = b at *
  generalize ha : n.natAbs = a at *
  rw [← habs] at hx ⊢
  have hapos : (0 : ℚ) < (a : ℚ) := by
    have : 0 < a := Nat.pos_of_ne_zero ha0
    exact_mod_cast this
  by_cases hs : max ((b : ℤ) - 53) (-1074 - e) ≤ 0
  · rw [if_pos hs]
    obtain ⟨t, ht⟩ : ∃ t : ℕ, (t : ℤ) = -max ((b : ℤ) - 53) (-1074 - e) :=
      ⟨(-max ((b : ℤ) - 53) (-1074 - e)).toNat, Int.toNat_of_nonneg (by omega)⟩
    have ht2 : (-max ((b : ℤ) - 53) (-1074 - e)).toNat = t := by
      rw [← ht]; simp
    rw [ht2]
    have hs1 : (b : ℤ) - 53 ≤ -(t : ℤ) := by rw [ht]; simp
    have hs2 : -1074 - e ≤ -(t : ℤ) := by rw [ht]; simp
    have hmax : max ((b : ℤ) - 53) (-1074 - e) = -(t : ℤ) := by omega
    rw [hmax]
    have hval : ((n * ((2 ^ t : ℕ) : ℤ) : ℤ) : ℚ) * 2 ^ (e + -(t : ℤ)) = n * 2 ^ e := by
      push_cast
      rw [mul_assoc, shift_cancel]
    have hnat : (n * ((2 ^ t : ℕ) : ℤ)).natAbs = a * 2 ^ t := by
      rw [Int.natAbs_mul, ha, Int.natAbs_ofNat]
    have habsm : |((n * ((2 ^ t : ℕ) : ℤ) : ℤ) : ℚ)| = (a : ℚ) * 2 ^ t := by
      rw [← cast_natAbs_rat, hnat]
      push_cast
      ring
    have hp := pack_spec (n * ((2 ^ t : ℕ) : ℤ)) (e + -(t : ℤ))
      (by
        rw [hnat]
        have : a * 2 ^ t < 2 ^ b * 2 ^ t := Nat.mul_lt_mul_of_pos_right hlt (by positivity)
        rw [← pow_add] at this
        have h53 : 2 ^ (b + t) ≤ 2 ^ 53 := Nat.pow_le_pow_right (by norm_num) (by omega)
        omega)
      (by omega)
      (by
        rw [habsm, mul_assoc, shift_cancel]
        exact lt_of_le_of_lt hx h1024)
      (by
        by_cases hc : -1074 - e ≤ (b : ℤ) - 53
        · left
          have hbt : b - 1 + t = 52 := by omega
          rw [hnat]
          have : 2 ^ (b - 1) * 2 ^ t ≤ a * 2 ^ t := Nat.mul_le_mul_right _ hle
          rw [← pow_add, hbt] at this
          exact this
        · right
          omega)
    refine ⟨hp.1, Or.inl ?_⟩
    rw [hp.2, hval, sub_self, abs_zero]
    positivity
  · rw [if_neg hs]
    obtain ⟨S, hS⟩ : ∃ S : ℕ, (S : ℤ) = max ((b : ℤ) - 53) (-1074 - e) :=
      ⟨(max ((b : ℤ) - 53) (-1074 - e)).toNat, Int.toNat_of_nonneg (by omega)⟩
    have hS2 : (max ((b : ℤ) - 53) (-1074 - e)).toNat = S := by
      rw [← hS]; simp
    rw [hS2, ← hS]
    have hS1 : 1 ≤ S := by omega
    obtain ⟨hr1, hr2, hr3, hr4⟩ := roundNat_err a S hS1
    generalize hq : F64.roundNat (a / 2 ^ S) (a % 2 ^ S) (2 ^ (S - 1)) = q at *
    have hnat : (n.sign * ((q : ℕ) : ℤ)).natAbs = q := by
      rw [Int.natAbs_mul, Int.natAbs_sign_of_nonzero hn, Int.natAbs_ofNat, one_mul]
    have habsm : |((n.sign * ((q : ℕ) : ℤ) : ℤ) : ℚ)| = (q : ℚ) := by
      rw [← cast_natAbs_rat, hnat]
    have hr1q : 2 * ((q : ℚ) * 2 ^ S) ≤ 2 * a + 2 ^ S := by exact_mod_cast hr1
    have hr2q : 2 * (a : ℚ) ≤ 2 * ((q : ℚ) * 2 ^ S) + 2 ^ S := by exact_mod_cast hr2
    have hpS : (0 : ℚ) < 2 ^ S := by positivity
    have herr : |((n.sign * ((q : ℕ) : ℤ) : ℤ) : ℚ) * 2 ^ (e + (S : ℤ)) - n * 2 ^ e|
        ≤ 2 ^ S / 2 * 2 ^ e := by
      rw [shift_split, ← hsgn]
      push_cast
      have : (n.sign : ℚ) * (q : ℚ) * (2 ^ S * 2 ^ e) - (n.sign : ℚ) * (a : ℚ) * 2 ^ e
          = (n.sign : ℚ) * (((q : ℚ) * 2 ^ S - a) * 2 ^ e) := by ring
      rw [this, abs_mul, hsgn1, one_mul, abs_mul, abs_of_pos hpe]
      refine mul_le_mul_of_nonneg_right ?_ hpe.le
      rw [abs_le]
      constructor <;> linarith
    by_cases hc : -1074 - e ≤ (b : ℤ) - 53
    · have hSb : b = S + 53 := by omega
      subst hSb
      have hle2 : 2 ^ 52 * 2 ^ S ≤ a := by
        have : S + 53 - 1 = 52 + S := by omega
        rw [this, pow_add] at hle
        exact hle
      have hq52 : 2 ^ 52 ≤ q := le_trans ((Nat.le_div_iff_mul_le (by positivity)).2 hle2) hr3
      have hq53 : q ≤ 2 ^ 53 := by
        have : a / 2 ^ S < 2 ^ 53 := by
          rw [Nat.div_lt_iff_lt_mul (by positivity), ← pow_add]
          have : 53 + S = S + 53 := by omega
          rw [this]
          exact hlt
        omega
      have hle2q : (2 : ℚ) ^ 52 * 2 ^ S ≤ a := by exact_mod_cast hle2
      have hrel : (2 : ℚ) ^ S / 2 * 2 ^ e ≤ (a : ℚ) * 2 ^ e * 2 ^ (-53 : ℤ) := by
        have h53 : (2 : ℚ) ^ (-53 : ℤ) = 1 / 2 ^ 53 := by norm_num
        rw [h53]
        have : (2 : ℚ) ^ S / 2 ≤ (a : ℚ) * (1 / 2 ^ 53) := by
          rw [mul_one_div, le_div_iff₀ (by positivity)]
          have h2 : (2 : ℚ) ^ 53 = 2 * 2 ^ 52 := by norm_num
          rw [h2]
          linarith
        calc (2 : ℚ) ^ S / 2 * 2 ^ e ≤ (a : ℚ) * (1 / 2 ^ 53) * 2 ^ e :=
              mul_le_mul_of_nonneg_right this hpe.le
          _ = (a : ℚ) * 2 ^ e * (1 / 2 ^ 53) := by ring
      have hp := pack_spec (n.sign * ((q : ℕ) : ℤ)) (e + (S : ℤ))
        (by rw [hnat]; exact hq53)
        (by omega)
        (by
          rw [habsm, shift_split]
          have h1 : (q : ℚ) * (2 ^ S * 2 ^ e) ≤ ((a : ℚ) + 2 ^ S / 2) * 2 ^ e := by
            have : (q : ℚ) * 2 ^ S ≤ (a : ℚ) + 2 ^ S / 2 := by linarith
            calc (q : ℚ) * (2 ^ S * 2 ^ e) = (q : ℚ) * 2 ^ S * 2 ^ e := by ring
              _ ≤ ((a : ℚ) + 2 ^ S / 2) * 2 ^ e := mul_le_mul_of_nonneg_right this hpe.le
          have h2 : ((a : ℚ) + 2 ^ S / 2) * 2 ^ e < 2 * ((a : ℚ) * 2 ^ e) := by
            have h4 : (2 : ℚ) ^ S ≤ 2 ^ 52 * 2 ^ S := le_mul_of_one_le_left hpS.le (by norm_num)
            have h5 : (a : ℚ) + 2 ^ S / 2 < 2 * a := by linarith only [h4, hle2q, hpS]
            have h6 := mul_lt_mul_of_pos_right h5 hpe
            rw [mul_assoc] at h6
            exact h6
          have h3 : (2 : ℚ) ^ (1024 : ℤ) = 2 * 2 ^ (1023 : ℤ) := by
            rw [show (1024 : ℤ) = 1 + 1023 by norm_num, two_zpow_add]; norm_num
          rw [h3]
          linarith)
        (Or.inl (by rw [hnat]; exact hq52))
      refine ⟨hp.1, Or.inl ?_⟩
      rw [hp.2]
      exact le_trans herr hrel
    · have hSe : (S : ℤ) = -1074 - e := by omega
      have hbS : b ≤ S + 52 := by omega
      have hq52 : q ≤ 2 ^ 52 := by
        have : a / 2 ^ S < 2 ^ 52 := by
          rw [Nat.div_lt_iff_lt_mul (by positivity), ← pow_add]
          exact lt_of_lt_of_le hlt (Nat.pow_le_pow_right (by norm_num) (by omega))
        omega
      have hes : e + (S : ℤ) = -1074 := by omega
      have hp := pack_spec (n.sign * ((q : ℕ) : ℤ)) (e + (S : ℤ))
        (by rw [hnat]; exact le_trans hq52 (by norm_num))
        (by omega)
        (by
          rw [habsm, hes]
          have h1 : (q : ℚ) ≤ 2 ^ 52 := by exact_mod_cast hq52
          have h2 : (0 : ℚ) < 2 ^ (-1074 : ℤ) := two_zpow_pos _
          have h3 : (2 : ℚ) ^ (-1074 : ℤ) ≤ 2 ^ (0 : ℤ) := two_zpow_le (by norm_num)
          have h4 : (2 : ℚ) ^ (52 : ℤ) ≤ 2 ^ (1023 : ℤ) := two_zpow_le (by norm_num)
          have h5 : (2 : ℚ) ^ (52 : ℤ) = 2 ^ 52 := by norm_num
          have h6 : (q : ℚ) * 2 ^ (-1074 : ℤ) ≤ 2 ^ 52 * 1 :=
            mul_le_mul h1 (by simpa using h3) h2.le (by positivity)
          linarith)
        (Or.inr (by omega))
      refine ⟨hp.1, Or.inr ⟨by omega, by omega, ?_⟩⟩
      rw [hp.2]
      refine le_trans herr (le_of_eq ?_)
      have : (-1075 : ℤ) = e + (S : ℤ) + (-1) := by omega
      rw [this, two_zpow_add, shift_split]
      norm_num
      ring

theorem finite_iff (a : F64) : a.finite = true ↔ ∃ m e, a = F64.fin m e ∧ -1074 ≤ e := by
  cases a with
  | nan => simp [F64.finite]
  | inf s => simp [F64.finite]
  | fin m e =>
    simp only [F64.finite, decide_eq_true_eq]
    constructor
    · intro h
      exact ⟨m, e, rfl, h⟩
    · rintro ⟨m2, e2, h, h2⟩
      cases h
      exact h2

/-- The error of `round` when the result is not subnormal. -/
theorem round_rel (n e : ℤ) (hx : |(n : ℚ)| * 2 ^ e ≤ 2 ^ (1023 : ℤ))
    (h : -1074 ≤ e ∨ 2 ^ (-1022 : ℤ) ≤ |(n : ℚ)| * 2 ^ e) :
    (F64.round n e).finite = true ∧
    |(F64.round n e).val - n * 2 ^ e| ≤ |(n : ℚ)| * 2 ^ e * 2 ^ (-53 : ℤ) := by
  obtain ⟨h1, h2 | ⟨h3, h4, _⟩⟩ := round_core n e hx
  · exact ⟨h1, h2⟩
  · exfalso
    rcases h with h | h
    · omega
    · have hlt := bits_lt n.natAbs
      have hq : |(n : ℚ)| < 2 ^ (bits n.natAbs : ℤ) := by
        rw [← cast_natAbs_rat, two_zpow_nat]
        exact_mod_cast hlt
      have h5 : |(n : ℚ)| * 2 ^ e < 2 ^ (bits n.natAbs : ℤ) * 2 ^ e :=
        mul_lt_mul_of_pos_right hq (two_zpow_pos e)
      rw [← two_zpow_add] at h5
      have h6 : (2 : ℚ) ^ ((bits n.natAbs : ℤ) + e) ≤ 2 ^ (-1022 : ℤ) := two_zpow_le (by omega)
      linarith

/-- The error of `round` in every case. -/
theorem round_abs (n e : ℤ) (hx : |(n : ℚ)| * 2 ^ e ≤ 2 ^ (1023 : ℤ)) :
    (F64.round n e).finite = true ∧
    |(F64.round n e).val - n * 2 ^ e| ≤ |(n : ℚ)| * 2 ^ e * 2 ^ (-53 : ℤ) + 2 ^ (-1075 : ℤ) := by
  have hp : (0 : ℚ) ≤ |(n : ℚ)| * 2 ^ e * 2 ^ (-53 : ℤ) :=
    mul_nonneg (mul_nonneg (abs_nonneg _) (two_zpow_pos e).le) (two_zpow_pos _).le
  have hq : (0 : ℚ) < 2 ^ (-1075 : ℤ) := two_zpow_pos _
  obtain ⟨h1, h2 | ⟨_, _, h5⟩⟩ := round_core n e hx
  · exact ⟨h1, by linarith⟩
  · exact ⟨h1, by linarith⟩

theorem abs_val_fin (m e : ℤ) : |(F64.fin m e).val| = |(m : ℚ)| * 2 ^ e := by
  simp only [F64.val]
  rw [abs_mul, abs_of_pos (two_zpow_pos e)]

/-- The sum of two finite floats is rounded with a relative error of at most
`2 ^ (-53)`, also when it is subnormal. -/
theorem add_spec (a b : F64) (ha : a.finite = true) (hb : b.finite = true)
    (hx : |a.val + b.val| ≤ 2 ^ (1023 : ℤ)) :
    (F64.add a b).finite = true ∧
    |(F64.add a b).val - (a.val + b.val)| ≤ |a.val + b.val| * 2 ^ (-53 : ℤ) := by
  obtain ⟨m1, e1, rfl, h1⟩ := (finite_iff a).1 ha
  obtain ⟨m2, e2, rfl, h2⟩ := (finite_iff b).1 hb
  simp only [F64.add]
  have hmin : -1074 ≤ min e1 e2 := le_min h1 h2
  obtain ⟨t1, ht1⟩ : ∃ t : ℕ, (t : ℤ) = e1 - min e1 e2 :=
    ⟨(e1 - min e1 e2).toNat, Int.toNat_of_nonneg (by have := min_le_left e1 e2; omega)⟩
  obtain ⟨t2, ht2⟩ : ∃ t : ℕ, (t : ℤ) = e2 - min e1 e2 :=
    ⟨(e2 - min e1 e2).toNat, Int.toNat_of_nonneg (by have := min_le_right e1 e2; omega)⟩
  have hn1 : (e1 - min e1 e2).toNat = t1 := by rw [← ht1]; simp
  have hn2 : (e2 - min e1 e2).toNat = t2 := by rw [← ht2]; simp
  rw [hn1, hn2]
  generalize min e1 e2 = g at *
  obtain rfl : e1 = g + (t1 : ℤ) := by omega
  obtain rfl : e2 = g + (t2 : ℤ) := by omega
  have hv : (((m1 * ((2 ^ t1 : ℕ) : ℤ) + m2 * ((2 ^ t2 : ℕ) : ℤ) : ℤ)) : ℚ) * 2 ^ g
      = (F64.fin m1 (g + (t1 : ℤ))).val + (F64.fin m2 (g + (t2 : ℤ))).val := by
    simp only [F64.val]
    rw [shift_split, shift_split]
    push_cast
    ring
  have hav : |(((m1 * ((2 ^ t1 : ℕ) : ℤ) + m2 * ((2 ^ t2 : ℕ) : ℤ) : ℤ)) : ℚ)| * 2 ^ g
      = |(F64.fin m1 (g + (t1 : ℤ))).val + (F64.fin m2 (g + (t2 : ℤ))).val| := by
    rw [← hv, abs_mul, abs_of_pos (two_zpow_pos _)]
  have := round_rel (m1 * ((2 ^ t1 : ℕ) : ℤ) + m2 * ((2 ^ t2 : ℕ) : ℤ)) g
    (by rw [hav]; exact hx) (Or.inl hmin)
  rw [hv, hav] at this
  exact this

/-- The product of two finite floats is rounded with a relative error of at
most `2 ^ (-53)` unless it falls in the subnormal range. -/
theorem mul_spec (a b : F64) (ha : a.finite = true) (hb : b.finite = true)
    (hx : |a.val * b.val| ≤ 2 ^ (1023 : ℤ))
    (hlo : a.val * b.val = 0 ∨ 2 ^ (-1022 : ℤ) ≤ |a.val * b.val|) :
    (F64.mul a b).finite = true ∧
    |(F64.mul a b).val - a.val * b.val| ≤ |a.val * b.val| * 2 ^ (-53 : ℤ) := by
  obtain ⟨m1, e1, rfl, h1⟩ := (finite_iff a).1 ha
  obtain ⟨m2, e2, rfl, h2⟩ := (finite_iff b).1 hb
  simp only [F64.mul]
  have hv : ((m1 * m2 : ℤ) : ℚ) * 2 ^ (e1 + e2) = (F64.fin m1 e1).val * (F64.fin m2 e2).val := by
    simp only [F64.val]
    rw [two_zpow_add]
    push_cast
    ring
  have hav : |((m1 * m2 : ℤ) : ℚ)| * 2 ^ (e1 + e2)
      = |(F64.fin m1 e1).val * (F64.fin m2 e2).val| := by
    rw [← hv, abs_mul, abs_of_pos (two_zpow_pos _)]
  rcases hlo with h0 | hlo
  · have hm : m1 * m2 = 0 := by
      rw [← hv] at h0
      have := (two_zpow_pos (e1 + e2)).ne'
      have h3 : ((m1 * m2 : ℤ) : ℚ) = 0 := by
        rcases mul_eq_zero.1 h0 with h | h
        · exact h
        · exact absurd h this
      exact_mod_cast h3
    rw [hm, h0]
    simp [F64.round, F64.finite, F64.val]
  · have := round_rel (m1 * m2) (e1 + e2) (by rw [hav]; exact hx) (Or.inr (by rw [hav]; exact hlo))
    rw [hv, hav] at this
    exact this

theorem cast_sign_sq (n : ℤ) (hn : n ≠ 0) : ((n.sign : ℤ) : ℚ) * ((n.sign : ℤ) : ℚ) = 1 := by
  rcases lt_or_gt_of_ne hn with h | h
  · rw [Int.sign_eq_neg_one_of_neg h]; norm_num
  · rw [Int.sign_eq_one_of_pos h]; norm_num

/-- The quotient of two finite floats is rounded with a relative error of at
most `2 ^ (-52)`, to which `2 ^ (-1075)` is added when the result is
subnormal. -/
theorem div_spec (a b : F64) (ha : a.finite = true) (hb : b.finite = true)
    (hb0 : b.val ≠ 0) (hx : |a.val / b.val| ≤ 2 ^ (1022 : ℤ)) :
    (F64.div a b).finite = true ∧
    |(F64.div a b).val - a.val / b.val| ≤ |a.val / b.val| * 2 ^ (-52 : ℤ) + 2 ^ (-1075 : ℤ) ∧
    (2 ^ (-1022 : ℤ) ≤ |a.val / b.val| →
      |(F64.div a b).val - a.val / b.val| ≤ |a.val / b.val| * 2 ^ (-52 : ℤ)) := by
  obtain ⟨m1, e1, rfl, h1⟩ := (finite_iff a).1 ha
  obtain ⟨m2, e2, rfl, h2⟩ := (finite_iff b).1 hb
  have hm2 : m2 ≠ 0 := by
    intro hc
    apply hb0
    simp [F64.val, hc]
  have h1075 : (0 : ℚ) < 2 ^ (-1075 : ℤ) := two_zpow_pos _
  have h52 : (0 : ℚ) < 2 ^ (-52 : ℤ) := two_zpow_pos _
  simp only [F64.div, if_neg hm2]
  by_cases hm1 : m1 = 0
  · subst hm1
    have hz : (F64.fin 0 e1).val / (F64.fin m2 e2).val = 0 := by simp [F64.val]
    rw [hz]
    simp [F64.round, F64.finite, F64.val]
    positivity
  have hB0 : m2.natAbs ≠ 0 := Int.natAbs_ne_zero.2 hm2
  have hA0 : m1.natAbs ≠ 0 := Int.natAbs_ne_zero.2 hm1
  have hs1 := cast_sign_mul m1
  have hs2 := cast_sign_mul m2
  have hq1 := cast_sign_sq m1 hm1
  have hq2 := cast_sign_sq m2 hm2
  have hBlt := bits_lt m2.natAbs
  generalize hA : m1.natAbs = A at *
  generalize hB : m2.natAbs = B at *
  generalize hk : 56 + bits B = k at *
  have hdm := Nat.div_add_mod (A * 2 ^ k) B
  have hrlt := Nat.mod_lt (A * 2 ^ k) (Nat.pos_of_ne_zero hB0)
  have hq56 : 2 ^ 56 ≤ A * 2 ^ k / B := by
    rw [Nat.le_div_iff_mul_le (Nat.pos_of_ne_zero hB0)]
    rw [← hk, pow_add]
    have h3 : 1 ≤ A := Nat.pos_of_ne_zero hA0
    calc 2 ^ 56 * B ≤ 2 ^ 56 * 2 ^ bits B := Nat.mul_le_mul_left _ hBlt.le
      _ = 1 * (2 ^ 56 * 2 ^ bits B) := by ring
      _ ≤ A * (2 ^ 56 * 2 ^ bits B) := Nat.mul_le_mul_right _ h3
  generalize hq : A * 2 ^ k / B = q at *
  generalize hr : A * 2 ^ k % B = r at *
  obtain ⟨st, hst, hst0, hst1⟩ : ∃ st : ℕ, (if r = 0 then 0 else 1) = st ∧
      (r = 0 → st = 0) ∧ (r ≠ 0 → st = 1) := by
    by_cases h : r = 0
    · exact ⟨0, by simp [h], fun _ => rfl, fun h2 => absurd h h2⟩
    · exact ⟨1, by simp [h], fun h2 => absurd h2 h, fun _ => rfl⟩
  rw [hst]
  generalize hE : e1 - e2 - (k : ℤ) - 1 = E
  have hpE := two_zpow_pos E
  have hBq : (0 : ℚ) < (B : ℚ) := by exact_mod_cast Nat.pos_of_ne_zero hB0
  have hAq : (0 : ℚ) < (A : ℚ) := by exact_mod_cast Nat.pos_of_ne_zero hA0
  have hdmq : (B : ℚ) * q + r = A * 2 ^ k := by exact_mod_cast hdm
  have hrq : (r : ℚ) < B := by exact_mod_cast hrlt
  have hr0 : (0 : ℚ) ≤ r := by positivity
  have hq56q : (2 : ℚ) ^ 56 ≤ q := by exact_mod_cast hq56
  -- the exact quotient
  have ht : (F64.fin m1 e1).val / (F64.fin m2 e2).val
      = (m1.sign : ℚ) * (m2.sign : ℚ) * ((2 * (q : ℚ) + 2 * r / B) * 2 ^ E) := by
    simp only [F64.val]
    rw [div_eq_iff (mul_ne_zero (by exact_mod_cast hm2) (two_zpow_pos e2).ne')]
    have he1 : e1 = E + e2 + (k : ℤ) + 1 := by omega
    rw [he1, ← hs1, ← hs2, two_zpow_add, two_zpow_add, two_zpow_add, zpow_natCast]
    have hkk : (A : ℚ) * 2 ^ k = B * q + r := hdmq.symm
    have : (m1.sign : ℚ) * (A : ℚ) * (2 ^ E * 2 ^ e2 * 2 ^ k * 2 ^ (1 : ℤ))
        = (m1.sign : ℚ) * ((A : ℚ) * 2 ^ k) * (2 ^ E * 2 ^ e2 * 2) := by
      norm_num
      ring
    rw [this, hkk]
    have hB' : (B : ℚ) ≠ 0 := hBq.ne'
    field_simp
    linear_combination (-((m1.sign : ℚ) * (2 * (q : ℚ) * B + 2 * r) * 2 ^ E * (B * 2 ^ e2))) * hq2
  have hσ : |(m1.sign : ℚ) * (m2.sign : ℚ)| = 1 := by
    rw [abs_mul, abs_cast_sign m1 hm1, abs_cast_sign m2 hm2, one_mul]
  have hw0 : (0 : ℚ) ≤ 2 * r / B := by positivity
  have hw2 : 2 * (r : ℚ) / B < 2 := by
    rw [div_lt_iff₀ hBq]
    linarith
  have hT : |(F64.fin m1 e1).val / (F64.fin m2 e2).val| = (2 * (q : ℚ) + 2 * r / B) * 2 ^ E := by
    rw [ht, abs_mul, hσ, one_mul, abs_of_nonneg]
    positivity
  generalize (F64.fin m1 e1).val / (F64.fin m2 e2).val = t at *
  have hNnat : (m1.sign * m2.sign * ((2 * q + st : ℕ) : ℤ)).natAbs = 2 * q + st := by
    rw [Int.natAbs_mul, Int.natAbs_mul, Int.natAbs_sign_of_nonzero hm1,
      Int.natAbs_sign_of_nonzero hm2, Int.natAbs_ofNat]
    ring
  have hNabs : |((m1.sign * m2.sign * ((2 * q + st : ℕ) : ℤ) : ℤ) : ℚ)| = 2 * (q : ℚ) + st := by
    rw [← cast_natAbs_rat, hNnat]
    push_cast
    ring
  have hstq : |(st : ℚ) - 2 * r / B| ≤ 1 := by
    by_cases h : r = 0
    · rw [hst0 h, h]; simp
    · rw [hst1 h]
      have : (0 : ℚ) < r := by
        have : 0 < r := Nat.pos_of_ne_zero h
        exact_mod_cast this
      have hw : (0 : ℚ) < 2 * r / B := by positivity
      rw [abs_le]
      constructor <;> push_cast <;> linarith
  have hyt : ((m1.sign * m2.sign * ((2 * q + st : ℕ) : ℤ) : ℤ) : ℚ) * 2 ^ E - t
      = (m1.sign : ℚ) * (m2.sign : ℚ) * (((st : ℚ) - 2 * r / B) * 2 ^ E) := by
    rw [ht]
    push_cast
    ring
  have hyt2 : |((m1.sign * m2.sign * ((2 * q + st : ℕ) : ℤ) : ℤ) : ℚ) * 2 ^ E - t| ≤ 2 ^ E := by
    rw [hyt, abs_mul, hσ, one_mul, abs_mul, abs_of_pos hpE]
    calc |(st : ℚ) - 2 * r / B| * 2 ^ E ≤ 1 * 2 ^ E := mul_le_mul_of_nonneg_right hstq hpE.le
      _ = 2 ^ E := one_mul _
  have hET : (2 : ℚ) ^ E * 2 ^ 57 ≤ |t| := by
    rw [hT]
    have : (2 : ℚ) ^ 57 ≤ 2 * (q : ℚ) + 2 * r / B := by
      have : (2 : ℚ) ^ 57 = 2 * 2 ^ 56 := by norm_num
      linarith
    calc (2 : ℚ) ^ E * 2 ^ 57 = 2 ^ 57 * 2 ^ E := mul_comm _ _
      _ ≤ (2 * (q : ℚ) + 2 * r / B) * 2 ^ E := mul_le_mul_of_nonneg_right this hpE.le
  have hY : (2 * (q : ℚ) + st) * 2 ^ E ≤ |t| + 2 ^ E := by
    rw [hT]
    have h1 : ((st : ℚ) - 2 * r / B) * 2 ^ E ≤ 1 * 2 ^ E :=
      mul_le_mul_of_nonneg_right (abs_le.1 hstq).2 hpE.le
    have h2 : (2 * (q : ℚ) + st) * 2 ^ E
        = (2 * (q : ℚ) + 2 * r / B) * 2 ^ E + ((st : ℚ) - 2 * r / B) * 2 ^ E := by ring
    rw [h2]
    linarith only [h1]
  have h1023 : (2 : ℚ) ^ (1023 : ℤ) = 2 * 2 ^ (1022 : ℤ) := by
    rw [show (1023 : ℤ) = 1 + 1022 by norm_num, two_zpow_add]; norm_num
  have hEsmall : (2 : ℚ) ^ E ≤ |t| / 2 ^ 57 := by
    rw [le_div_iff₀ (by positivity)]
    exact hET
  have hcore := round_core (m1.sign * m2.sign * ((2 * q + st : ℕ) : ℤ)) E (by
    rw [hNabs, h1023]
    have : |t| / 2 ^ 57 ≤ |t| := div_le_self (abs_nonneg _) (by norm_num)
    linarith only [this, hY, hEsmall, hx])
  rw [hNabs] at hcore
  obtain ⟨hfin, hcase⟩ := hcore
  have h53 : (2 : ℚ) ^ (-53 : ℤ) = 1 / 2 ^ 53 := by norm_num
  have h52' : (2 : ℚ) ^ (-52 : ℤ) = 1 / 2 ^ 52 := by norm_num
  have htri : ∀ v : ℚ, |v - t| ≤ |v - ((m1.sign * m2.sign * ((2 * q + st : ℕ) : ℤ) : ℤ) : ℚ) * 2 ^ E|
      + 2 ^ E := by
    intro v
    have := abs_sub_le v (((m1.sign * m2.sign * ((2 * q + st : ℕ) : ℤ) : ℤ) : ℚ) * 2 ^ E) t
    linarith
  have htn : (0 : ℚ) ≤ |t| := abs_nonneg _
  have hrel : ∀ v : ℚ,
      |v - ((m1.sign * m2.sign * ((2 * q + st : ℕ) : ℤ) : ℤ) : ℚ) * 2 ^ E|
        ≤ (2 * (q : ℚ) + st) * 2 ^ E * 2 ^ (-53 : ℤ) →
      |v - t| ≤ |t| * 2 ^ (-52 : ℤ) := by
    intro v hc
    have h0 := htri v
    rw [h53] at hc
    rw [h52']
    have hY2 : (2 * (q : ℚ) + st) * 2 ^ E ≤ |t| + |t| / 2 ^ 57 := le_trans hY (add_le_add le_rfl hEsmall)
    have h4 : (2 * (q : ℚ) + st) * 2 ^ E * (1 / 2 ^ 53) ≤ (|t| + |t| / 2 ^ 57) * (1 / 2 ^ 53) :=
      mul_le_mul_of_nonneg_right hY2 (by positivity)
    have h5 : (|t| + |t| / 2 ^ 57) * (1 / 2 ^ 53) + |t| / 2 ^ 57 ≤ |t| * (1 / 2 ^ 52) := by
      have : (|t| + |t| / 2 ^ 57) * (1 / 2 ^ 53) + |t| / 2 ^ 57
          = |t| * ((1 + 1 / 2 ^ 57) * (1 / 2 ^ 53) + 1 / 2 ^ 57) := by ring
      rw [this]
      exact mul_le_mul_of_nonneg_left (by norm_num) htn
    exact le_trans h0 (le_trans (add_le_add (le_trans hc h4) hEsmall) h5)
  refine ⟨hfin, ?_, ?_⟩
  · rcases hcase with hc | ⟨_, _, hc⟩
    · exact le_trans (hrel _ hc) (le_add_of_nonneg_right h1075.le)
    · have := htri (F64.round (m1.sign * m2.sign * ((2 * q + st : ℕ) : ℤ)) E).val
      rw [h52']
      have h5 : |t| / 2 ^ 57 ≤ |t| * (1 / 2 ^ 52) := by
        have : |t| / 2 ^ 57 = |t| * (1 / 2 ^ 57) := by ring
        rw [this]
        exact mul_le_mul_of_nonneg_left (by norm_num) htn
      exact le_trans this (le_trans (add_le_add hc (le_trans hEsmall h5)) (le_of_eq (add_comm _ _)))
  · intro hlo
    rcases hcase with hc | ⟨_, hb, _⟩
    · exact hrel _ hc
    · exfalso
      rw [hNnat] at hb
      have hlt := bits_lt (2 * q + st)
      generalize bits (2 * q + st) = b' at hlt hb
      have hlt2 : 2 * (q : ℚ) + 2 * r / B < 2 ^ b' := by
        by_cases h : r = 0
        · rw [hst0 h] at hlt
          rw [h]
          have h6 : 2 * q < 2 ^ b' := by omega
          have h7 : (2 : ℚ) * q < 2 ^ b' := by exact_mod_cast h6
          simpa using h7
        · rw [hst1 h] at hlt
          have h6 : 2 * q + 2 ≤ 2 ^ b' := by omega
          have h7 : (2 : ℚ) * q + 2 ≤ 2 ^ b' := by exact_mod_cast h6
          linarith only [h7, hw2]
      have h7 : |t| < 2 ^ b' * 2 ^ E := by
        rw [hT]
        exact mul_lt_mul_of_pos_right hlt2 hpE
      rw [← zpow_natCast, ← two_zpow_add] at h7
      have h8 : (2 : ℚ) ^ ((b' : ℤ) + E) ≤ 2 ^ (-1022 : ℤ) := two_zpow_le (by omega)
      exact absurd (lt_of_lt_of_le h7 h8) (not_lt.2 hlo)


/-! ## userMeans on float64 -/

theorem userMeans64_get? {userRaw : GoMap (GoMap ℤ)} (hwf : userRaw.WF) {u : ℤ}
    {items : GoMap ℤ} (hu : userRaw.get? u = some items) :
    (userMeans64 userRaw).get? u =
      some (F64.div (F64.ofInt (sumScores items)) (F64.ofInt (items.length : ℤ))) :=
  GoMap.foldl_set_get?_of_mem (fun e : ℤ × GoMap ℤ => e.1)
    (fun e => F64.div (F64.ofInt (sumScores e.2)) (F64.ofInt (e.2.length : ℤ))) userRaw [] hwf _
    (GoMap.mem_of_get? hu)

theorem userMeans64_keys (userRaw : GoMap (GoMap ℤ)) (v : ℤ) :
    v ∈ (userMeans64 userRaw).keys ↔ v ∈ userRaw.keys := by
  have := GoMap.foldl_set_mem_keys (fun e : ℤ × GoMap ℤ => e.1)
    (fun e => F64.div (F64.ofInt (sumScores e.2)) (F64.ofInt (e.2.length : ℤ))) userRaw [] v
  simpa [userMeans64, GoMap.keys] using this

theorem div_zero_zero : F64.div (F64.ofInt 0) (F64.ofInt 0) = F64.nan := by decide

set_option maxRecDepth 100000 in
/-- C18 fails as stated: for the profile map in which user 1 has no rating and
user 2 has the scores 3 and 4, `userMeans` returns a map; nothing fails, and
the value stored for user 1 is NaN, the `float64` quotient `0 / 0`. -/
theorem userMeans64_empty_example :
    GoMap.get? ([(1, []), (2, [(10, 3), (20, 4)])] : GoMap (GoMap ℤ)) 1 = some [] ∧
    userMeans64 [(1, []), (2, [(10, 3), (20, 4)])]
      = [(1, F64.nan), (2, F64.fin 7881299347898368 (-51))] := by
  decide

/-- C18, as amended: for every profile map that contains a user whose profile
is empty, `userMeans` signals no error: it returns a map with the same users,
in which that user has the value NaN (the `float64` quotient `0 / 0`) and every
user has the quotient `float64(sum) / float64(len(items))` of the sum of the
scores by their number. -/
theorem userMeans64_empty (userRaw : GoMap (GoMap ℤ)) (hwf : userRaw.WF) (u : ℤ)
    (hu : userRaw.get? u = some []) :
    (userMeans64 userRaw).get? u = some F64.nan ∧
    (∀ v, v ∈ (userMeans64 userRaw).keys ↔ v ∈ userRaw.keys) ∧
    ∀ v items, userRaw.get? v = some items →
      (userMeans64 userRaw).get? v
        = some (F64.div (F64.ofInt (items.map Prod.snd).sum) (F64.ofInt (items.length : ℤ))) := by
  refine ⟨?_, userMeans64_keys userRaw, ?_⟩
  · rw [userMeans64_get? hwf hu]
    exact congrArg some div_zero_zero
  · intro v items hv
    rw [userMeans64_get? hwf hv, sumScores_eq]

/-- A user without ratings next to a user with the scores 5 and 4. -/
theorem userMeans64_empty_witness :
    GoMap.WF ([(1, []), (2, [(10, 5), (20, 4)])] : GoMap (GoMap ℤ)) ∧
    GoMap.get? ([(1, []), (2, [(10, 5), (20, 4)])] : GoMap (GoMap ℤ)) 1 = some [] ∧
    (userMeans64 [(1, []), (2, [(10, 5), (20, 4)])]).get? 1 = some F64.nan :=
  ⟨by decide, by decide,
    (userMeans64_empty [(1, []), (2, [(10, 5), (20, 4)])] (by decide) 1 (by decide)).1⟩

/-! ## pearson on float64: the two argument orders -/

theorem pearsonLoop64_foldl (uMap vMap : GoMap F64) (acc : Acc64) :
    uMap.foldl (fun a e =>
      match vMap.get? e.1 with
      | some rv => (⟨F64.add a.num (F64.mul e.2 rv), F64.add a.denU (F64.mul e.2 e.2),
          F64.add a.denV (F64.mul rv rv), a.cnt + 1⟩ : Acc64)
      | none => a) acc = accum64 (common64 uMap vMap) acc := by
  induction uMap generalizing acc with
  | nil => simp [common64, accum64]
  | cons e uMap ih =>
    rw [List.foldl_cons, ih]
    cases h : vMap.get? e.1 with
    | none => simp [common64, h]
    | some rv => simp [common64, accum64, h]

theorem pearsonLoop64_eq (uMap vMap : GoMap F64) :
    pearsonLoop64 uMap vMap = accum64 (common64 uMap vMap) ⟨F64.fin 0 0, F64.fin 0 0, F64.fin 0 0, 0⟩ := by
  exact pearsonLoop64_foldl uMap vMap _

theorem mem_common64 {a : GoMap F64} (ha : a.WF) (b : GoMap F64) (i : ℤ) (x y : F64) :
    (i, x, y) ∈ common64 a b ↔ a.get? i = some x ∧ b.get? i = some y := by
  unfold common64
  rw [List.mem_filterMap]
  constructor
  · rintro ⟨e, he, hf⟩
    cases hb : b.get? e.1 with
    | none => simp [hb] at hf
    | some rv =>
      simp only [hb, Option.map_some', Option.some.injEq, Prod.mk.injEq] at hf
      obtain ⟨h1, h2, h3⟩ := hf
      subst h1 h2 h3
      exact ⟨GoMap.get?_of_mem ha he, hb⟩
  · rintro ⟨h1, h2⟩
    exact ⟨(i, x), GoMap.mem_of_get? h1, by simp [h2]⟩

theorem nodup_common64 {a : GoMap F64} (ha : a.WF) (b : GoMap F64) : (common64 a b).Nodup := by
  unfold common64
  refine List.Nodup.filterMap ?_ (List.Nodup.of_map _ ha)
  intro e e' t ht ht'
  cases hb : b.get? e.1 with
  | none => simp [hb] at ht
  | some rv =>
    cases hb' : b.get? e'.1 with
    | none => simp [hb'] at ht'
    | some rv' =>
      simp only [hb, hb', Option.map_some', Option.mem_def, Option.some.injEq] at ht ht'
      rw [← ht'] at ht
      simp only [Prod.mk.injEq] at ht
      exact Prod.ext ht.1 ht.2.1

/-- Ranging over the other map finds the same common items, with the two
values exchanged. -/
theorem common64_swap {a b : GoMap F64} (ha : a.WF) (hb : b.WF) :
    (common64 b a).Perm ((common64 a b).map (fun t => (t.1, t.2.2, t.2.1))) := by
  have hinj : Function.Injective (fun t : ℤ × F64 × F64 => (t.1, t.2.2, t.2.1)) := by
    rintro ⟨i, x, y⟩ ⟨i', x', y'⟩ h
    simp only [Prod.mk.injEq] at h
    obtain ⟨h1, h2, h3⟩ := h
    subst h1 h2 h3
    rfl
  rw [List.perm_ext_iff_of_nodup (nodup_common64 hb a) ((nodup_common64 ha b).map hinj)]
  rintro ⟨i, y, x⟩
  rw [mem_common64 hb, List.mem_map]
  constructor
  · rintro ⟨h1, h2⟩
    exact ⟨(i, x, y), (mem_common64 ha b i x y).2 ⟨h2, h1⟩, rfl⟩
  · rintro ⟨⟨i', x', y'⟩, hm, he⟩
    simp only [Prod.mk.injEq] at he
    obtain ⟨h1, h2, h3⟩ := he
    subst h1 h2 h3
    have := (mem_common64 ha b _ _ _).1 hm
    exact ⟨this.2, this.1⟩

theorem accum64_cnt (L : List (ℤ × F64 × F64)) (acc : Acc64) :
    (accum64 L acc).cnt = acc.cnt + (L.length : ℤ) := by
  unfold accum64
  induction L generalizing acc with
  | nil => simp
  | cons t L ih =>
    rw [List.foldl_cons, ih]
    simp only [List.length_cons]
    push_cast
    ring

/-- The product of two floats does not depend on their order. -/
theorem F64.mul_comm (x y : F64) : F64.mul x y = F64.mul y x := by
  cases x with
  | nan => cases y <;> rfl
  | inf s => 
    cases y with
    | nan => rfl
    | inf s2 => simp only [F64.mul]; cases s <;> cases s2 <;> rfl
    | fin m e => rfl
  | fin m e =>
    cases y with
    | nan => rfl
    | inf s2 => rfl
    | fin m2 e2 => simp only [F64.mul]; rw [Int.mul_comm, Int.add_comm]

/-- The loop run over the common items with the two values exchanged returns
`denU` and `denV` exchanged. -/
theorem accum64_swap (L : List (ℤ × F64 × F64)) (acc : Acc64) :
    accum64 (L.map (fun t => (t.1, t.2.2, t.2.1))) ⟨acc.num, acc.denV, acc.denU, acc.cnt⟩ =
      ⟨(accum64 L acc).num, (accum64 L acc).denV, (accum64 L acc).denU, (accum64 L acc).cnt⟩ := by
  unfold accum64
  induction L generalizing acc with
  | nil => rfl
  | cons t L ih =>
    rw [List.map_cons, List.foldl_cons, List.foldl_cons]
    have := ih ⟨F64.add acc.num (F64.mul t.2.1 t.2.2), F64.add acc.denU (F64.mul t.2.1 t.2.1),
      F64.add acc.denV (F64.mul t.2.2 t.2.2), acc.cnt + 1⟩
    simp only at this
    rw [← this]
    simp only [F64.mul_comm t.2.2 t.2.1]

theorem pearsonResult64_swap (a : Acc64) :
    pearsonResult64 ⟨a.num, a.denV, a.denU, a.cnt⟩ = pearsonResult64 a := by
  unfold pearsonResult64
  simp only [F64.mul_comm (sqrt64 a.denV), or_comm (a := F64.eq0 a.denV = true)]

theorem pearsonResult64_snd (a : Acc64) : (pearsonResult64 a).2 = a.cnt := by
  unfold pearsonResult64
  split <;> rfl

theorem pearsonLoop64_cnt (a b : GoMap F64) :
    (pearsonLoop64 a b).cnt = ((common64 a b).length : ℤ) := by
  rw [pearsonLoop64_eq, accum64_cnt]
  simp

theorem pearsonLoop64_cnt_swap {a b : GoMap F64} (ha : a.WF) (hb : b.WF) :
    (pearsonLoop64 b a).cnt = (pearsonLoop64 a b).cnt := by
  rw [pearsonLoop64_cnt, pearsonLoop64_cnt, (common64_swap ha hb).length_eq, List.length_map]

set_option maxRecDepth 100000 in
/-- C5 fails as stated on `float64`: the two users of `orderRaw` have six
common items and profiles of equal size, so each call of `pearson` sums in the
iteration order of its own first argument; the two similarities differ in the
last bit. -/
theorem pearson64_order_example :
    pearson64 (orderNorm 1) (orderNorm 2) = (F64.fin 6808802639214567 (-54), 6) ∧
    pearson64 (orderNorm 2) (orderNorm 1) = (F64.fin 6808802639214568 (-54), 6) := by
  decide

/-- C5, as amended: for all normalized profiles `a` and `b`, `pearson(a, b)`
and `pearson(b, a)` return the same overlap count; they return the same
similarity, bit for bit, when the profiles have different sizes (both calls
then run the same loop over the smaller profile) and when the two maps are
iterated so that their common items come in the same order.  (With equal sizes
and different orders the sums are rounded differently and the similarities may
differ.) -/
theorem pearson64_comm (a b : GoMap F64) (ha : a.WF) (hb : b.WF) :
    (pearson64 a b).2 = (pearson64 b a).2 ∧
    (a.length ≠ b.length → pearson64 a b = pearson64 b a) ∧
    (common64 b a = (common64 a b).map (fun t => (t.1, t.2.2, t.2.1)) →
      pearson64 a b = pearson64 b a) := by
  refine ⟨?_, ?_, ?_⟩
  · unfold pearson64
    split <;> split
    · rw [pearsonResult64_snd, pearsonResult64_snd, pearsonLoop64_cnt_swap ha hb]
    · rfl
    · rfl
    · rw [pearsonResult64_snd, pearsonResult64_snd, pearsonLoop64_cnt_swap ha hb]
  · intro hne
    unfold pearson64
    rcases lt_or_gt_of_ne hne with h | h
    · have h1 : ¬ a.length > b.length := by omega
      rw [if_neg h1, if_pos h]
    · have h1 : ¬ b.length > a.length := by omega
      rw [if_pos h, if_neg h1]
  · intro hc
    have hsw : pearsonLoop64 b a = ⟨(pearsonLoop64 a b).num, (pearsonLoop64 a b).denV,
        (pearsonLoop64 a b).denU, (pearsonLoop64 a b).cnt⟩ := by
      rw [pearsonLoop64_eq, pearsonLoop64_eq, hc]
      exact accum64_swap (common64 a b) ⟨F64.fin 0 0, F64.fin 0 0, F64.fin 0 0, 0⟩
    unfold pearson64
    split <;> split
    · rw [hsw, pearsonResult64_swap]
    · rfl
    · rfl
    · rw [hsw, pearsonResult64_swap]

set_option maxRecDepth 100000 in
/-- Two pairs of profiles with more than five common items and a similarity
that is not zero: the users of `unitRaw`, whose maps list the common items in
the same order, and two profiles of six and eight items. -/
theorem pearson64_comm_witness :
    (GoMap.WF (unitNorm 1) ∧ GoMap.WF (unitNorm 2) ∧
      common64 (unitNorm 2) (unitNorm 1)
        = (common64 (unitNorm 1) (unitNorm 2)).map (fun t => (t.1, t.2.2, t.2.1)) ∧
      pearson64 (unitNorm 1) (unitNorm 2) = pearson64 (unitNorm 2) (unitNorm 1)) ∧
    (GoMap.WF (orderNorm 1) ∧ (orderNorm 1).length ≠ (unitNorm 1).length ∧
      pearson64 (orderNorm 1) (unitNorm 1) = pearson64 (unitNorm 1) (orderNorm 1)) :=
  ⟨⟨by decide, by decide, by decide,
      (pearson64_comm (unitNorm 1) (unitNorm 2) (by decide) (by decide)).2.2 (by decide)⟩,
    ⟨by decide, by decide,
      (pearson64_comm (orderNorm 1) (unitNorm 1) (by decide) (by decide)).2.1 (by decide)⟩⟩

/-! ## sqrt and pearson on float64: two evaluations -/

set_option maxRecDepth 100000 in
theorem sqrt64_two : sqrt64 (F64.ofInt 2) = F64.fin 6369051672525772 (-52) := by decide

theorem ofInt_two : F64.ofInt 2 = F64.fin 4503599627370496 (-51) := by decide

set_option maxRecDepth 100000 in
theorem sqrt64_two_mul :
    F64.mul (sqrt64 (F64.ofInt 2)) (sqrt64 (F64.ofInt 2)) = F64.fin 9007199254740990 (-52) := by
  decide

/-- C20 fails as stated on `float64`: the result of `sqrt(2)` is
`6369051672525772 / 2 ^ 52`, whose square is less than 2, also when the square
is taken in `float64`, where it is `2 - 2 ^ (-51)`. -/
theorem sqrt64_undershoot :
    F64.le0 (F64.ofInt 2) = false ∧ (F64.ofInt 2).val = 2 ∧
    (sqrt64 (F64.ofInt 2)).val * (sqrt64 (F64.ofInt 2)).val < 2 ∧
    (F64.mul (sqrt64 (F64.ofInt 2)) (sqrt64 (F64.ofInt 2))).val < 2 := by
  rw [sqrt64_two_mul, sqrt64_two, ofInt_two]
  refine ⟨by decide, ?_, ?_, ?_⟩ <;> norm_num [F64.val]

set_option maxRecDepth 100000 in
theorem pearson64_unit : pearson64 (unitNorm 1) (unitNorm 2) = (F64.fin 4503599627370497 (-52), 5) := by
  decide

set_option maxRecDepth 100000 in
theorem unitNorm_one : unitNorm 1 =
    [(1, F64.fin 4503599627370496 (-52)), (2, F64.fin 4503599627370496 (-52)),
     (3, F64.fin 4503599627370496 (-52)), (4, F64.fin 0 0), (5, F64.fin 0 0),
     (6, F64.fin (-4503599627370496) (-52)), (7, F64.fin (-4503599627370496) (-52)),
     (8, F64.fin (-4503599627370496) (-52))] := by
  decide

/-- C7 fails as stated on `float64`: the two users of `unitRaw` have the scores
4, 4, 4, 3, 3 on their five common items and the mean 3, and `pearson` returns
the similarity `1 + 2 ^ (-52)` for them, which is greater than 1. -/
theorem pearson64_above_one :
    (pearson64 (unitNorm 1) (unitNorm 2)).2 = 5 ∧
    1 < (pearson64 (unitNorm 1) (unitNorm 2)).1.val := by
  rw [pearson64_unit]
  refine ⟨rfl, ?_⟩
  norm_num [F64.val]

/-! ## sqrt on float64: one Newton step -/

theorem val_half : F64.half.val = 1 / 2 := by
  norm_num [F64.half, F64.val]

theorem finite_half : F64.half.finite = true := by decide

/-- One step `z = 0.5 * (z + x/z)` on `float64` returns the exact step
`(z + x/z) / 2` up to the factors `1 - 2 / 2 ^ 52` and `1 + 3 / 2 ^ 52`. -/
theorem newton64_step (x z : F64) (hx : x.finite = true) (hz : z.finite = true)
    (hX1 : 2 ^ (-500 : ℤ) ≤ x.val) (hX2 : x.val ≤ 2 ^ (500 : ℤ))
    (hZ1 : 2 ^ (-500 : ℤ) ≤ z.val) (hZ2 : z.val ≤ 2 ^ (500 : ℤ)) :
    (F64.mul F64.half (F64.add z (F64.div x z))).finite = true ∧
    (1 - 2 / 2 ^ 52) * ((z.val + x.val / z.val) / 2)
      ≤ (F64.mul F64.half (F64.add z (F64.div x z))).val ∧
    (F64.mul F64.half (F64.add z (F64.div x z))).val
      ≤ (1 + 3 / 2 ^ 52) * ((z.val + x.val / z.val) / 2) := by
  have hp500 : (0 : ℚ) < 2 ^ (-500 : ℤ) := two_zpow_pos _
  have hXpos : 0 < x.val := lt_of_lt_of_le hp500 hX1
  have hZpos : 0 < z.val := lt_of_lt_of_le hp500 hZ1
  generalize hXv : x.val = X at *
  generalize hZv : z.val = Z at *
  have hWpos : 0 < X / Z := div_pos hXpos hZpos
  have hWlo : (2 : ℚ) ^ (-1000 : ℤ) ≤ X / Z := by
    rw [le_div_iff₀ hZpos]
    have h1 : (2 : ℚ) ^ (-1000 : ℤ) = 2 ^ (-500 : ℤ) / 2 ^ (500 : ℤ) := by
      rw [← zpow_sub₀ (by norm_num)]; norm_num
    rw [h1, div_mul_eq_mul_div, div_le_iff₀ (two_zpow_pos _)]
    exact mul_le_mul hX1 hZ2 hZpos.le hXpos.le
  have hWhi : X / Z ≤ 2 ^ (1000 : ℤ) := by
    rw [div_le_iff₀ hZpos]
    have h1 : (2 : ℚ) ^ (500 : ℤ) = 2 ^ (1000 : ℤ) * 2 ^ (-500 : ℤ) := by
      rw [← two_zpow_add]; norm_num
    calc X ≤ 2 ^ (500 : ℤ) := hX2
      _ = 2 ^ (1000 : ℤ) * 2 ^ (-500 : ℤ) := h1
      _ ≤ 2 ^ (1000 : ℤ) * Z := mul_le_mul_of_nonneg_left hZ1 (two_zpow_pos _).le
  -- the quotient
  obtain ⟨hdf, -, hd⟩ := div_spec x z hx hz (by rw [hZv]; exact hZpos.ne') (by
    rw [hXv, hZv, abs_of_pos hWpos]
    exact le_trans hWhi (two_zpow_le (by norm_num)))
  rw [hXv, hZv, abs_of_pos hWpos] at hd
  have hd := hd (le_trans (two_zpow_le (by norm_num)) hWlo)
  rw [abs_le] at hd
  generalize hDv : (F64.div x z).val = D at *
  have h52 : (2 : ℚ) ^ (-52 : ℤ) = 1 / 2 ^ 52 := by norm_num
  have h53 : (2 : ℚ) ^ (-53 : ℤ) = 1 / 2 ^ 53 := by norm_num
  rw [h52] at hd
  have hD1 : X / Z * (1 - 1 / 2 ^ 52) ≤ D := by linarith only [hd.1]
  have hD2 : D ≤ X / Z * (1 + 1 / 2 ^ 52) := by linarith only [hd.2]
  have hDpos : 0 < D := lt_of_lt_of_le (mul_pos hWpos (by norm_num)) hD1
  have hDhi : D ≤ 2 ^ (1001 : ℤ) := by
    have h1 : (2 : ℚ) ^ (1001 : ℤ) = 2 ^ (1000 : ℤ) * 2 := by
      rw [show (1001 : ℤ) = 1000 + 1 by norm_num, two_zpow_add]; norm_num
    rw [h1]
    refine le_trans hD2 ?_
    exact mul_le_mul hWhi (by norm_num) (by norm_num) (two_zpow_pos _).le
  -- the sum
  have hZD : 0 < Z + D := add_pos hZpos hDpos
  have hZDhi : Z + D ≤ 2 ^ (1002 : ℤ) := by
    have h1 : (2 : ℚ) ^ (1002 : ℤ) = 2 ^ (1001 : ℤ) + 2 ^ (1001 : ℤ) := by
      rw [show (1002 : ℤ) = 1001 + 1 by norm_num, two_zpow_add]; norm_num
    have h2 : (2 : ℚ) ^ (500 : ℤ) ≤ 2 ^ (1001 : ℤ) := two_zpow_le (by norm_num)
    linarith only [h1, h2, hZ2, hDhi]
  obtain ⟨hsf, hs⟩ := add_spec z (F64.div x z) hz hdf (by
    rw [hZv, hDv, abs_of_pos hZD]
    exact le_trans hZDhi (two_zpow_le (by norm_num)))
  rw [hZv, hDv, abs_of_pos hZD, abs_le, h53] at hs
  generalize hSv : (F64.add z (F64.div x z)).val = S at *
  have hS1 : (Z + D) * (1 - 1 / 2 ^ 53) ≤ S := by linarith only [hs.1]
  have hS2 : S ≤ (Z + D) * (1 + 1 / 2 ^ 53) := by linarith only [hs.2]
  have hSpos : 0 < S := lt_of_lt_of_le (mul_pos hZD (by norm_num)) hS1
  have hSlo : (2 : ℚ) ^ (-501 : ℤ) ≤ S := by
    have h1 : (2 : ℚ) ^ (-500 : ℤ) = 2 ^ (-501 : ℤ) * 2 := by
      rw [show (-500 : ℤ) = -501 + 1 by norm_num, two_zpow_add]; norm_num
    have h2 : Z * (1 - 1 / 2 ^ 53) ≤ S :=
      le_trans (mul_le_mul_of_nonneg_right (by linarith only [hDpos]) (by norm_num)) hS1
    have h3 : Z / 2 ≤ Z * (1 - 1 / 2 ^ 53) := by
      have : Z / 2 = Z * (1 / 2) := by ring
      rw [this]
      exact mul_le_mul_of_nonneg_left (by norm_num) hZpos.le
    linarith only [h1, h2, h3, hZ1]
  have hShi : S ≤ 2 ^ (1003 : ℤ) := by
    have h1 : (2 : ℚ) ^ (1003 : ℤ) = 2 ^ (1002 : ℤ) * 2 := by
      rw [show (1003 : ℤ) = 1002 + 1 by norm_num, two_zpow_add]; norm_num
    rw [h1]
    refine le_trans hS2 ?_
    exact mul_le_mul hZDhi (by norm_num) (by norm_num) (two_zpow_pos _).le
  -- the product with 0.5
  have hhS : 0 < 1 / 2 * S := by positivity
  obtain ⟨hrf, hr⟩ := mul_spec F64.half (F64.add z (F64.div x z)) finite_half hsf (by
    rw [val_half, hSv, abs_of_pos hhS]
    have h2 : (2 : ℚ) ^ (1003 : ℤ) ≤ 2 ^ (1023 : ℤ) := two_zpow_le (by norm_num)
    linarith only [hShi, h2, hSpos]) (Or.inr (by
    rw [val_half, hSv, abs_of_pos hhS]
    have h1 : (2 : ℚ) ^ (-501 : ℤ) = 2 ^ (-502 : ℤ) * 2 := by
      rw [show (-501 : ℤ) = -502 + 1 by norm_num, two_zpow_add]; norm_num
    have h2 : (2 : ℚ) ^ (-1022 : ℤ) ≤ 2 ^ (-502 : ℤ) := two_zpow_le (by norm_num)
    have h3 : (2 : ℚ) ^ (-502 : ℤ) = 1 / 2 * 2 ^ (-501 : ℤ) := by rw [h1]; ring
    calc (2 : ℚ) ^ (-1022 : ℤ) ≤ 2 ^ (-502 : ℤ) := h2
      _ = 1 / 2 * 2 ^ (-501 : ℤ) := h3
      _ ≤ 1 / 2 * S := mul_le_mul_of_nonneg_left hSlo (by norm_num)))
  rw [val_half, hSv, abs_of_pos hhS, abs_le, h53] at hr
  generalize hRv : (F64.mul F64.half (F64.add z (F64.div x z))).val = R at *
  have hR1 : S / 2 * (1 - 1 / 2 ^ 53) ≤ R := by linarith only [hr.1]
  have hR2 : R ≤ S / 2 * (1 + 1 / 2 ^ 53) := by linarith only [hr.2]
  refine ⟨hrf, ?_, ?_⟩
  · have h1 : (Z + X / Z) * (1 - 1 / 2 ^ 52) ≤ Z + D := by
      have : Z * (1 - 1 / 2 ^ 52) ≤ Z := by
        have : Z * (1 - 1 / 2 ^ 52) = Z - Z * (1 / 2 ^ 52) := by ring
        rw [this]
        have : 0 ≤ Z * (1 / 2 ^ 52) := by positivity
        linarith
      linarith only [this, hD1]
    have h2 : (Z + X / Z) * (1 - 1 / 2 ^ 52) * (1 - 1 / 2 ^ 53) ≤ S :=
      le_trans (mul_le_mul_of_nonneg_right h1 (by norm_num)) hS1
    have h3 : (Z + X / Z) * (1 - 1 / 2 ^ 52) * (1 - 1 / 2 ^ 53) / 2 * (1 - 1 / 2 ^ 53) ≤ R :=
      le_trans (mul_le_mul_of_nonneg_right (by linarith only [h2]) (by norm_num)) hR1
    refine le_trans ?_ h3
    have h4 : (1 - 2 / 2 ^ 52 : ℚ) ≤ (1 - 1 / 2 ^ 52) * (1 - 1 / 2 ^ 53) * (1 - 1 / 2 ^ 53) := by
      norm_num
    have h5 : 0 ≤ (Z + X / Z) / 2 := by positivity
    calc (1 - 2 / 2 ^ 52) * ((Z + X / Z) / 2)
        ≤ (1 - 1 / 2 ^ 52) * (1 - 1 / 2 ^ 53) * (1 - 1 / 2 ^ 53) * ((Z + X / Z) / 2) :=
          mul_le_mul_of_nonneg_right h4 h5
      _ = (Z + X / Z) * (1 - 1 / 2 ^ 52) * (1 - 1 / 2 ^ 53) / 2 * (1 - 1 / 2 ^ 53) := by ring
  · have h1 : Z + D ≤ (Z + X / Z) * (1 + 1 / 2 ^ 52) := by
      have : Z ≤ Z * (1 + 1 / 2 ^ 52) := by
        have : Z * (1 + 1 / 2 ^ 52) = Z + Z * (1 / 2 ^ 52) := by ring
        rw [this]
        have : 0 ≤ Z * (1 / 2 ^ 52) := by positivity
        linarith
      linarith only [this, hD2]
    have h2 : S ≤ (Z + X / Z) * (1 + 1 / 2 ^ 52) * (1 + 1 / 2 ^ 53) :=
      le_trans hS2 (mul_le_mul_of_nonneg_right h1 (by norm_num))
    have h3 : R ≤ (Z + X / Z) * (1 + 1 / 2 ^ 52) * (1 + 1 / 2 ^ 53) / 2 * (1 + 1 / 2 ^ 53) :=
      le_trans hR2 (mul_le_mul_of_nonneg_right (by linarith only [h2]) (by norm_num))
    refine le_trans h3 ?_
    have h4 : (1 + 1 / 2 ^ 52) * (1 + 1 / 2 ^ 53) * (1 + 1 / 2 ^ 53) ≤ (1 + 3 / 2 ^ 52 : ℚ) := by
      norm_num
    have h5 : 0 ≤ (Z + X / Z) / 2 := by positivity
    calc (Z + X / Z) * (1 + 1 / 2 ^ 52) * (1 + 1 / 2 ^ 53) / 2 * (1 + 1 / 2 ^ 53)
        = (1 + 1 / 2 ^ 52) * (1 + 1 / 2 ^ 53) * (1 + 1 / 2 ^ 53) * ((Z + X / Z) / 2) := by ring
      _ ≤ (1 + 3 / 2 ^ 52) * ((Z + X / Z) / 2) := mul_le_mul_of_nonneg_right h4 h5


/-! ## sqrt on float64: the twenty steps -/

/-- The exact Newton step does not undershoot. -/
theorem newton_exact_lower (X Z : ℚ) (hZ : 0 < Z) :
    X ≤ ((Z + X / Z) / 2) ^ 2 := by
  have h : ((Z + X / Z) / 2) ^ 2 - X = ((Z - X / Z) / 2) ^ 2 := by
    field_simp
    ring
  have h2 : 0 ≤ ((Z - X / Z) / 2) ^ 2 := sq_nonneg _
  linarith

/-- The exact Newton step maps `a * X ≤ Z ^ 2 ≤ B * X` with `1 ≤ a * B` to a
value whose square is at most `(B + 1) ^ 2 / (4 * B) * X`. -/
theorem newton_exact_upper (X Z a B : ℚ) (hX : 0 < X) (hZ : 0 < Z) (hB0 : 0 < B)
    (ha : a * X ≤ Z ^ 2) (hB : Z ^ 2 ≤ B * X) (haB : 1 ≤ a * B) :
    ((Z + X / Z) / 2) ^ 2 ≤ (B + 1) ^ 2 / (4 * B) * X := by
  have hP : 0 < Z ^ 2 := by positivity
  have hBP : X ≤ B * Z ^ 2 := by
    have h1 : X * 1 ≤ X * (a * B) := mul_le_mul_of_nonneg_left haB hX.le
    have h2 : B * (a * X) ≤ B * Z ^ 2 := mul_le_mul_of_nonneg_left ha hB0.le
    linarith
  have key : B * (Z ^ 2 + X) ^ 2 ≤ (B + 1) ^ 2 * X * Z ^ 2 := by
    nlinarith [mul_nonneg (sub_nonneg.2 hB) (sub_nonneg.2 hBP)]
  have h : ((Z + X / Z) / 2) ^ 2 = (Z ^ 2 + X) ^ 2 / (4 * Z ^ 2) := by
    field_simp
    ring
  rw [h, div_le_iff₀ (by positivity)]
  have h3 : (B + 1) ^ 2 / (4 * B) * X * (4 * Z ^ 2) = (B + 1) ^ 2 * X * Z ^ 2 / B := by
    field_simp
    ring
  rw [h3, le_div_iff₀ hB0]
  linarith

theorem le_of_sq_le (c Z : ℚ) (hc : 0 ≤ c) (hZ : 0 < Z) (h : c ^ 2 ≤ Z ^ 2) : c ≤ Z := by
  by_contra hn
  push_neg at hn
  have : Z ^ 2 < c ^ 2 := by nlinarith
  linarith

/-- One step of the loop of `sqrt` keeps the invariant: the square of the new
`z` is at least `(1 - 2 / 2 ^ 52) ^ 2 * x`, and at most `B2 * x` when `B2` bounds
the image of `B`. -/
theorem newton64_inv (x z : F64) (a B B2 : ℚ) (hx : x.finite = true)
    (hXlo : 1 / 2 ^ 402 ≤ x.val) (hXhi : x.val ≤ 2 ^ 402)
    (ha : 1 / 2 ^ 402 ≤ a) (hB : B ≤ 2 ^ 402) (haB : 1 ≤ a * B)
    (hchain : (1 + 3 / 2 ^ 52) ^ 2 * ((B + 1) ^ 2 / (4 * B)) ≤ B2)
    (hz : NewtonInv x a B z) :
    NewtonInv x ((1 - 2 / 2 ^ 52) ^ 2) B2 (F64.mul F64.half (F64.add z (F64.div x z))) := by
  obtain ⟨hzf, hZpos, hZa, hZB⟩ := hz
  unfold NewtonInv
  have hXpos : 0 < x.val := lt_of_lt_of_le (by positivity) hXlo
  have ha0 : 0 < a := lt_of_lt_of_le (by positivity) ha
  have hB0 : 0 < B := by
    by_contra hn
    push_neg at hn
    have : a * B ≤ 0 := mul_nonpos_of_nonneg_of_nonpos ha0.le hn
    linarith
  have hZ1 : (1 / 2 ^ 402 : ℚ) ≤ z.val := by
    apply le_of_sq_le _ _ (by positivity) hZpos
    have : (1 / 2 ^ 402 : ℚ) ^ 2 = 1 / 2 ^ 402 * (1 / 2 ^ 402) := by ring
    rw [this]
    exact le_trans (mul_le_mul ha hXlo (by positivity) ha0.le) hZa
  have hZ2 : z.val ≤ 2 ^ 402 := by
    by_contra hn
    push_neg at hn
    have h1 : (2 : ℚ) ^ 402 * 2 ^ 402 < z.val ^ 2 := by nlinarith
    have h2 : B * x.val ≤ 2 ^ 402 * 2 ^ 402 := mul_le_mul hB hXhi hXpos.le (by positivity)
    linarith
  have c1 : (2 : ℚ) ^ (-500 : ℤ) ≤ 1 / 2 ^ 402 := by norm_num
  have c2 : (2 : ℚ) ^ 402 ≤ 2 ^ (500 : ℤ) := by norm_num
  obtain ⟨hf, hlo, hhi⟩ := newton64_step x z hx hzf (le_trans c1 hXlo) (le_trans hXhi c2)
    (le_trans c1 hZ1) (le_trans hZ2 c2)
  generalize (F64.mul F64.half (F64.add z (F64.div x z))).val = R at *
  generalize x.val = X at *
  generalize z.val = Z at *
  have hN : 0 < (Z + X / Z) / 2 := div_pos (add_pos hZpos (div_pos hXpos hZpos)) two_pos
  have hcl : (0 : ℚ) < 1 - 2 / 2 ^ 52 := by norm_num
  have hRpos : 0 < R := lt_of_lt_of_le (mul_pos hcl hN) hlo
  refine ⟨hf, hRpos, ?_, ?_⟩
  · have h1 := newton_exact_lower X Z hZpos
    have h2 : ((1 - 2 / 2 ^ 52) * ((Z + X / Z) / 2)) ^ 2 ≤ R ^ 2 :=
      pow_le_pow_left₀ (mul_pos hcl hN).le hlo 2
    rw [mul_pow] at h2
    exact le_trans (mul_le_mul_of_nonneg_left h1 (by positivity)) h2
  · have h1 := newton_exact_upper X Z a B hXpos hZpos hB0 hZa hZB haB
    have h2 : R ^ 2 ≤ ((1 + 3 / 2 ^ 52) * ((Z + X / Z) / 2)) ^ 2 :=
      pow_le_pow_left₀ hRpos.le hhi 2
    rw [mul_pow] at h2
    refine le_trans h2 ?_
    refine le_trans (mul_le_mul_of_nonneg_left h1 (by positivity)) ?_
    rw [← mul_assoc]
    exact mul_le_mul_of_nonneg_right hchain hXpos.le

theorem le0_of_pos (x : F64) (h : 0 < x.val) : F64.le0 x = false := by
  cases x with
  | nan => rfl
  | inf s => simp [F64.val] at h
  | fin m e =>
    simp only [F64.le0, decide_eq_false_iff_not, not_le]
    simp only [F64.val] at h
    have h2 : (0 : ℚ) < (m : ℚ) := by
      by_contra hn
      push_neg at hn
      have := mul_nonpos_of_nonpos_of_nonneg hn (two_zpow_pos e).le
      linarith
    exact_mod_cast h2

theorem sqrt64_of_pos (x : F64) (h : 0 < x.val) :
    sqrt64 x = Nat.iterate (fun z => F64.mul F64.half (F64.add z (F64.div x z))) 20 x := by
  unfold sqrt64
  rw [le0_of_pos x h]
  rfl

/-- On a wide range of arguments the result of `sqrt` is finite and positive,
and its square is at least `(1 - 2 / 2 ^ 52) ^ 2 * x`. -/
theorem sqrt64_wide (x : F64) (hx : x.finite = true)
    (hXlo : 1 / 2 ^ 402 ≤ x.val) (hXhi : x.val ≤ 2 ^ 402) :
    NewtonInv x ((1 - 2 / 2 ^ 52) ^ 2) (2 ^ 402) (sqrt64 x) := by
  have hXpos : 0 < x.val := lt_of_lt_of_le (by positivity) hXlo
  rw [sqrt64_of_pos x hXpos]
  have hchain : (1 + 3 / 2 ^ 52 : ℚ) ^ 2 * (((2 : ℚ) ^ 402 + 1) ^ 2 / (4 * 2 ^ 402)) ≤ 2 ^ 402 := by
    norm_num
  have hall : ∀ k : ℕ, NewtonInv x (1 / 2 ^ 402) (2 ^ 402)
      (Nat.iterate (fun z => F64.mul F64.half (F64.add z (F64.div x z))) k x) := by
    intro k
    induction k with
    | zero =>
      refine ⟨hx, hXpos, ?_, ?_⟩
      · rw [Function.iterate_zero, id, sq]
        exact mul_le_mul_of_nonneg_right hXlo hXpos.le
      · rw [Function.iterate_zero, id, sq]
        exact mul_le_mul_of_nonneg_right hXhi hXpos.le
    | succ k ih =>
      rw [Function.iterate_succ_apply']
      have := newton64_inv x _ (1 / 2 ^ 402) (2 ^ 402) (2 ^ 402) hx hXlo hXhi le_rfl le_rfl
        (by norm_num) hchain ih
      exact ⟨this.1, this.2.1, le_trans (mul_le_mul_of_nonneg_right (by norm_num) hXpos.le) this.2.2.1,
        this.2.2.2⟩
  rw [Function.iterate_succ_apply']
  exact newton64_inv x _ (1 / 2 ^ 402) (2 ^ 402) (2 ^ 402) hx hXlo hXhi le_rfl le_rfl
    (by norm_num) hchain (hall 19)

theorem newton64_chain (x : F64) (B B2 : ℚ) (k k2 : ℕ) (hk : k2 = k + 1) (hx : x.finite = true)
    (hXlo : 1 / 2 ^ 402 ≤ x.val) (hXhi : x.val ≤ 2 ^ 402)
    (hB1 : 1 + 1 / 2 ^ 49 ≤ B) (hB2 : B ≤ 2 ^ 402)
    (hchain : (1 + 3 / 2 ^ 52) ^ 2 * ((B + 1) ^ 2 / (4 * B)) ≤ B2)
    (hz : NewtonInv x ((1 - 2 / 2 ^ 52) ^ 2) B
      (Nat.iterate (fun z => F64.mul F64.half (F64.add z (F64.div x z))) k x)) :
    NewtonInv x ((1 - 2 / 2 ^ 52) ^ 2) B2
      (Nat.iterate (fun z => F64.mul F64.half (F64.add z (F64.div x z))) k2 x) := by
  subst hk
  rw [Function.iterate_succ_apply']
  refine newton64_inv x _ ((1 - 2 / 2 ^ 52) ^ 2) B B2 hx hXlo hXhi (by norm_num) hB2 ?_ hchain hz
  have h1 : (1 : ℚ) ≤ (1 - 2 / 2 ^ 52) ^ 2 * (1 + 1 / 2 ^ 49) := by norm_num
  exact le_trans h1 (mul_le_mul_of_nonneg_left hB1 (by norm_num))

/-- For `10 ^ (-8) ≤ x ≤ 10 ^ 8` the twenty steps converge: the square of the
result of `sqrt` lies between `(1 - 2 / 2 ^ 52) ^ 2 * x` and
`(1 + 1 / 2 ^ 49) * x`. -/
theorem sqrt64_converges (x : F64) (hx : x.finite = true)
    (hXlo : 1 / 10 ^ 8 ≤ x.val) (hXhi : x.val ≤ 10 ^ 8) :
    NewtonInv x ((1 - 2 / 2 ^ 52) ^ 2) (1 + 1 / 2 ^ 49) (sqrt64 x) := by
  have hXpos : 0 < x.val := lt_of_lt_of_le (by positivity) hXlo
  have hlo : (1 / 2 ^ 402 : ℚ) ≤ x.val := le_trans (by norm_num) hXlo
  have hhi : x.val ≤ 2 ^ 402 := le_trans hXhi (by norm_num)
  rw [sqrt64_of_pos x hXpos]
  have h0 : NewtonInv x (1 / 10 ^ 8) (10 ^ 8)
      (Nat.iterate (fun z => F64.mul F64.half (F64.add z (F64.div x z))) 0 x) := by
    refine ⟨hx, hXpos, ?_, ?_⟩
    · rw [Function.iterate_zero, id, sq]
      exact mul_le_mul_of_nonneg_right hXlo hXpos.le
    · rw [Function.iterate_zero, id, sq]
      exact mul_le_mul_of_nonneg_right hXhi hXpos.le
  have h1 : NewtonInv x ((1 - 2 / 2 ^ 52) ^ 2) 25000001
      (Nat.iterate (fun z => F64.mul F64.half (F64.add z (F64.div x z))) 1 x) := by
    rw [Function.iterate_succ_apply']
    exact newton64_inv x _ (1 / 10 ^ 8) (10 ^ 8) 25000001 hx hlo hhi (by norm_num) (by norm_num)
      (by norm_num) (by norm_num) h0
  have h2 := newton64_chain x 25000001 6250001 1 2 rfl hx hlo hhi
    (by norm_num) (by norm_num) (by norm_num) h1
  have h3 := newton64_chain x 6250001 1562501 2 3 rfl hx hlo hhi
    (by norm_num) (by norm_num) (by norm_num) h2
  have h4 := newton64_chain x 1562501 390626 3 4 rfl hx hlo hhi
    (by norm_num) (by norm_num) (by norm_num) h3
  have h5 := newton64_chain x 390626 97658 4 5 rfl hx hlo hhi
    (by norm_num) (by norm_num) (by norm_num) h4
  have h6 := newton64_chain x 97658 24416 5 6 rfl hx hlo hhi
    (by norm_num) (by norm_num) (by norm_num) h5
  have h7 := newton64_chain x 24416 6105 6 7 rfl hx hlo hhi
    (by norm_num) (by norm_num) (by norm_num) h6
  have h8 := newton64_chain x 6105 1527 7 8 rfl hx hlo hhi
    (by norm_num) (by norm_num) (by norm_num) h7
  have h9 := newton64_chain x 1527 383 8 9 rfl hx hlo hhi
    (by norm_num) (by norm_num) (by norm_num) h8
  have h10 := newton64_chain x 383 97 9 10 rfl hx hlo hhi
    (by norm_num) (by norm_num) (by norm_num) h9
  have h11 := newton64_chain x 97 25 10 11 rfl hx hlo hhi
    (by norm_num) (by norm_num) (by norm_num) h10
  have h12 := newton64_chain x 25 7 11 12 rfl hx hlo hhi
    (by norm_num) (by norm_num) (by norm_num) h11
  have h13 := newton64_chain x 7 (5 / 2) 12 13 rfl hx hlo hhi
    (by norm_num) (by norm_num) (by norm_num) h12
  have h14 := newton64_chain x (5 / 2) (5 / 4) 13 14 rfl hx hlo hhi
    (by norm_num) (by norm_num) (by norm_num) h13
  have h15 := newton64_chain x (5 / 4) (102 / 100) 14 15 rfl hx hlo hhi
    (by norm_num) (by norm_num) (by norm_num) h14
  have h16 := newton64_chain x (102 / 100) (1 + 1 / 10 ^ 4) 15 16 rfl hx hlo hhi
    (by norm_num) (by norm_num) (by norm_num) h15
  have h17 := newton64_chain x (1 + 1 / 10 ^ 4) (1 + 1 / 10 ^ 8) 16 17 rfl hx hlo hhi
    (by norm_num) (by norm_num) (by norm_num) h16
  have h18 := newton64_chain x (1 + 1 / 10 ^ 8) (1 + 1 / 2 ^ 49) 17 18 rfl hx hlo hhi
    (by norm_num) (by norm_num) (by norm_num) h17
  have h19 := newton64_chain x (1 + 1 / 2 ^ 49) (1 + 1 / 2 ^ 49) 18 19 rfl hx hlo hhi
    (by norm_num) (by norm_num) (by norm_num) h18
  exact newton64_chain x (1 + 1 / 2 ^ 49) (1 + 1 / 2 ^ 49) 19 20 rfl hx hlo hhi
    (by norm_num) (by norm_num) (by norm_num) h19

/-- C20, as amended: the helper `sqrt` on `float64` returns 0 for every
`x ≤ 0`, and for every finite `x` with `10 ^ (-8) ≤ x ≤ 10 ^ 8` its result `z`
is finite and agrees with the square root up to a relative error of
`2 ^ (-49)`: `x * (1 - 2 ^ (-49)) ≤ z * z ≤ x * (1 + 2 ^ (-49))` and
`√x * (1 - 2 ^ (-49)) ≤ z ≤ √x * (1 + 2 ^ (-49))`.  (It may undershoot within
this bound.) -/
theorem sqrt64_accuracy :
    (∀ x : F64, F64.le0 x = true → sqrt64 x = F64.fin 0 0) ∧
    (∀ x : F64, x.finite = true → 1 / 10 ^ 8 ≤ x.val → x.val ≤ 10 ^ 8 →
      (sqrt64 x).finite = true ∧
      x.val * (1 - 1 / 2 ^ 49) ≤ (sqrt64 x).val * (sqrt64 x).val ∧
      (sqrt64 x).val * (sqrt64 x).val ≤ x.val * (1 + 1 / 2 ^ 49) ∧
      Real.sqrt ((x.val : ℚ) : ℝ) * (1 - 1 / 2 ^ 49) ≤ (((sqrt64 x).val : ℚ) : ℝ) ∧
      (((sqrt64 x).val : ℚ) : ℝ) ≤ Real.sqrt ((x.val : ℚ) : ℝ) * (1 + 1 / 2 ^ 49)) := by
  refine ⟨?_, ?_⟩
  · intro x h
    unfold sqrt64
    rw [if_pos h]
  · intro x hx hlo hhi
    obtain ⟨hf, hpos, h1, h2⟩ := sqrt64_converges x hx hlo hhi
    have hXpos : 0 < x.val := lt_of_lt_of_le (by positivity) hlo
    generalize (sqrt64 x).val = Z at *
    generalize x.val = X at *
    have hl : X * (1 - 1 / 2 ^ 49) ≤ Z * Z := by
      have h3 : X * (1 - 1 / 2 ^ 49) ≤ (1 - 2 / 2 ^ 52) ^ 2 * X := by
        rw [mul_comm]
        exact mul_le_mul_of_nonneg_right (by norm_num) hXpos.le
      rw [← sq]
      exact le_trans h3 h1
    have hu : Z * Z ≤ X * (1 + 1 / 2 ^ 49) := by
      rw [← sq, mul_comm]
      exact h2
    have hXr : (0 : ℝ) ≤ (X : ℝ) := by exact_mod_cast hXpos.le
    have hZr : (0 : ℝ) ≤ (Z : ℝ) := by exact_mod_cast hpos.le
    have hlR : (X : ℝ) * (1 - 1 / 2 ^ 49) ≤ (Z : ℝ) * (Z : ℝ) := by
      have h : ((X * (1 - 1 / 2 ^ 49) : ℚ) : ℝ) ≤ ((Z * Z : ℚ) : ℝ) := Rat.cast_le.2 hl
      push_cast at h
      exact h
    have huR : (Z : ℝ) * (Z : ℝ) ≤ (X : ℝ) * (1 + 1 / 2 ^ 49) := by
      have h : ((Z * Z : ℚ) : ℝ) ≤ ((X * (1 + 1 / 2 ^ 49) : ℚ) : ℝ) := Rat.cast_le.2 hu
      push_cast at h
      exact h
    refine ⟨hf, hl, hu, ?_, ?_⟩
    · have hsq : (Real.sqrt (X : ℝ) * (1 - 1 / 2 ^ 49)) ^ 2 ≤ (Z : ℝ) ^ 2 := by
        rw [mul_pow, Real.sq_sqrt hXr, sq (Z : ℝ)]
        have : (X : ℝ) * (1 - 1 / 2 ^ 49) ^ 2 ≤ (X : ℝ) * (1 - 1 / 2 ^ 49) :=
          mul_le_mul_of_nonneg_left (by norm_num) hXr
        exact le_trans this hlR
      exact (abs_le_of_sq_le_sq' hsq hZr).2
    · have hb : (0 : ℝ) ≤ Real.sqrt (X : ℝ) * (1 + 1 / 2 ^ 49) :=
        mul_nonneg (Real.sqrt_nonneg _) (by norm_num)
      have hsq : (Z : ℝ) ^ 2 ≤ (Real.sqrt (X : ℝ) * (1 + 1 / 2 ^ 49)) ^ 2 := by
        rw [mul_pow, Real.sq_sqrt hXr, sq (Z : ℝ)]
        have : (X : ℝ) * (1 + 1 / 2 ^ 49) ≤ (X : ℝ) * (1 + 1 / 2 ^ 49) ^ 2 :=
          mul_le_mul_of_nonneg_left (by norm_num) hXr
        exact le_trans huR this
      exact (abs_le_of_sq_le_sq' hsq hb).2

/-- The argument 2: it lies in the range, and the square of the result of
`sqrt` lies between `2 * (1 - 2 ^ (-49))` and `2 * (1 + 2 ^ (-49))`. -/
theorem sqrt64_accuracy_witness :
    (F64.ofInt 2).finite = true ∧ 1 / 10 ^ 8 ≤ (F64.ofInt 2).val ∧ (F64.ofInt 2).val ≤ 10 ^ 8 ∧
    (F64.ofInt 2).val * (1 - 1 / 2 ^ 49)
      ≤ (sqrt64 (F64.ofInt 2)).val * (sqrt64 (F64.ofInt 2)).val ∧
    (sqrt64 (F64.ofInt 2)).val * (sqrt64 (F64.ofInt 2)).val
      ≤ (F64.ofInt 2).val * (1 + 1 / 2 ^ 49) :=
  ⟨by decide, by rw [ofInt_two]; norm_num [F64.val], by rw [ofInt_two]; norm_num [F64.val],
    (sqrt64_accuracy.2 (F64.ofInt 2) (by decide) (by rw [ofInt_two]; norm_num [F64.val])
      (by rw [ofInt_two]; norm_num [F64.val])).2.1,
    (sqrt64_accuracy.2 (F64.ofInt 2) (by decide) (by rw [ofInt_two]; norm_num [F64.val])
      (by rw [ofInt_two]; norm_num [F64.val])).2.2.1⟩

/-! ## pearson on float64: the rounding error of the three sums -/

theorem moderate_spec (x : F64) (h : x.moderate = true) :
    x.finite = true ∧ (x.val = 0 ∨ (1 / 2 ^ 100 ≤ |x.val| ∧ |x.val| ≤ 2 ^ 100)) := by
  cases x with
  | nan => simp [F64.moderate] at h
  | inf s => simp [F64.moderate] at h
  | fin m e =>
    simp only [F64.moderate, decide_eq_true_eq] at h
    rcases h with ⟨h0, he⟩ | ⟨h1, h2, h3, h4⟩
    · subst h0
      exact ⟨by simp [F64.finite]; exact he, Or.inl (by simp [F64.val])⟩
    · refine ⟨by simp [F64.finite]; omega, Or.inr ?_⟩
      rw [abs_val_fin, ← cast_natAbs_rat]
      have hm1 : (2 : ℚ) ^ 52 ≤ (m.natAbs : ℚ) := by exact_mod_cast h1
      have hm2 : (m.natAbs : ℚ) ≤ 2 ^ 53 := by exact_mod_cast h2.le
      have he1 : (2 : ℚ) ^ (-152 : ℤ) ≤ 2 ^ e := two_zpow_le h3
      have he2 : (2 : ℚ) ^ e ≤ 2 ^ (47 : ℤ) := two_zpow_le h4
      have hpe := two_zpow_pos e
      constructor
      · have : (1 / 2 ^ 100 : ℚ) = 2 ^ 52 * 2 ^ (-152 : ℤ) := by norm_num
        rw [this]
        exact mul_le_mul hm1 he1 (two_zpow_pos _).le (by positivity)
      · have : (2 : ℚ) ^ 100 = 2 ^ 53 * 2 ^ (47 : ℤ) := by norm_num
        rw [this]
        exact mul_le_mul hm2 he2 hpe.le (by positivity)

/-- An upper bound of `(1 + u) ^ k` for small `k * u`. -/
theorem one_add_pow_le (u : ℚ) (hu : 0 ≤ u) (k : ℕ) (hk : 2 * (k : ℚ) * u ≤ 1) :
    (1 + u) ^ k ≤ 1 + 2 * k * u := by
  induction k with
  | zero => simp
  | succ k ih =>
    have hk' : 2 * (k : ℚ) * u ≤ 1 := by
      push_cast at hk
      nlinarith
    have h := ih hk'
    rw [pow_succ]
    push_cast
    have h1 : (1 + u) ^ k * (1 + u) ≤ (1 + 2 * k * u) * (1 + u) :=
      mul_le_mul_of_nonneg_right h (by linarith)
    nlinarith

/-- A lower bound of `(1 - u) ^ k`. -/
theorem one_sub_pow_ge (u : ℚ) (hu1 : u ≤ 1) (k : ℕ) :
    1 - k * u ≤ (1 - u) ^ k := by
  have h := one_add_mul_le_pow (show (-2 : ℚ) ≤ -u by linarith) k
  have h2 : 1 + (k : ℚ) * -u = 1 - k * u := by ring
  have h3 : (1 + -u : ℚ) = 1 - u := by ring
  rw [h2, h3] at h
  exact h

/-- The product of two moderate floats is rounded with a relative error of at
most `2 ^ (-53)`. -/
theorem mul_moderate (x y : F64) (hx : x.moderate = true) (hy : y.moderate = true) :
    (F64.mul x y).finite = true ∧
    |(F64.mul x y).val - x.val * y.val| ≤ |x.val * y.val| * (1 / 2 ^ 53) ∧
    |x.val * y.val| ≤ 2 ^ 200 ∧
    (x.val * y.val = 0 ∨ 1 / 2 ^ 200 ≤ |x.val * y.val|) := by
  obtain ⟨hxf, hxv⟩ := moderate_spec x hx
  obtain ⟨hyf, hyv⟩ := moderate_spec y hy
  have hhi : |x.val * y.val| ≤ 2 ^ 200 := by
    rw [abs_mul]
    have hx2 : |x.val| ≤ 2 ^ 100 := by
      rcases hxv with h | h
      · rw [h]; norm_num
      · exact h.2
    have hy2 : |y.val| ≤ 2 ^ 100 := by
      rcases hyv with h | h
      · rw [h]; norm_num
      · exact h.2
    have : (2 : ℚ) ^ 200 = 2 ^ 100 * 2 ^ 100 := by norm_num
    rw [this]
    exact mul_le_mul hx2 hy2 (abs_nonneg _) (by positivity)
  have hlo : x.val * y.val = 0 ∨ 1 / 2 ^ 200 ≤ |x.val * y.val| := by
    rcases hxv with h | h
    · left; rw [h, zero_mul]
    · rcases hyv with h' | h'
      · left; rw [h', mul_zero]
      · right
        rw [abs_mul]
        have : (1 / 2 ^ 200 : ℚ) = 1 / 2 ^ 100 * (1 / 2 ^ 100) := by norm_num
        rw [this]
        exact mul_le_mul h.1 h'.1 (by positivity) (abs_nonneg _)
  have h53 : (2 : ℚ) ^ (-53 : ℤ) = 1 / 2 ^ 53 := by norm_num
  have hs := mul_spec x y hxf hyf (le_trans hhi (by norm_num)) (by
    rcases hlo with h | h
    · exact Or.inl h
    · exact Or.inr (le_trans (by norm_num) h))
  rw [h53] at hs
  exact ⟨hs.1, hs.2, hhi, hlo⟩

/-- Adding a rounded non-negative term to a rounded non-negative sum. -/
theorem add_nonneg_step (s p : F64) (σ P : ℚ) (k : ℕ) (hs : s.finite = true)
    (hp : p.finite = true) (hσ : 0 ≤ σ) (hP : 0 ≤ P)
    (hs1 : (1 - 1 / 2 ^ 53) ^ (k + 1) * σ ≤ s.val)
    (hs2 : s.val ≤ (1 + 1 / 2 ^ 53) ^ (k + 1) * σ)
    (hp1 : (1 - 1 / 2 ^ 53) * P ≤ p.val) (hp2 : p.val ≤ (1 + 1 / 2 ^ 53) * P)
    (hbig : (1 + 1 / 2 ^ 53) ^ (k + 1) * σ + (1 + 1 / 2 ^ 53) * P ≤ 2 ^ 1023) :
    (F64.add s p).finite = true ∧
    (1 - 1 / 2 ^ 53) ^ (k + 2) * (σ + P) ≤ (F64.add s p).val ∧
    (F64.add s p).val ≤ (1 + 1 / 2 ^ 53) ^ (k + 2) * (σ + P) := by
  have hd0 : (0 : ℚ) ≤ 1 - 1 / 2 ^ 53 := by norm_num
  have hd1 : (1 - 1 / 2 ^ 53 : ℚ) ≤ 1 := by norm_num
  have hu1 : (1 : ℚ) ≤ 1 + 1 / 2 ^ 53 := by norm_num
  have hdk : (0 : ℚ) ≤ (1 - 1 / 2 ^ 53) ^ (k + 1) := pow_nonneg hd0 _
  have hdk1 : ((1 - 1 / 2 ^ 53 : ℚ)) ^ (k + 1) ≤ 1 := pow_le_one₀ hd0 hd1
  have huk : (1 : ℚ) ≤ (1 + 1 / 2 ^ 53) ^ (k + 1) := one_le_pow₀ hu1
  have hsnn : 0 ≤ s.val := le_trans (mul_nonneg hdk hσ) hs1
  have hpnn : 0 ≤ p.val := le_trans (mul_nonneg hd0 hP) hp1
  have hsum : 0 ≤ s.val + p.val := add_nonneg hsnn hpnn
  have h53 : (2 : ℚ) ^ (-53 : ℤ) = 1 / 2 ^ 53 := by norm_num
  have h1023 : (2 : ℚ) ^ (1023 : ℤ) = 2 ^ 1023 := by norm_num
  obtain ⟨hf, he⟩ := add_spec s p hs hp (by
    rw [abs_of_nonneg hsum, h1023]
    exact le_trans (add_le_add hs2 hp2) hbig)
  rw [abs_of_nonneg hsum, h53, abs_le] at he
  generalize (F64.add s p).val = r at *
  generalize s.val = sv at *
  generalize p.val = pv at *
  generalize hD : (1 - 1 / 2 ^ 53 : ℚ) = d at *
  generalize hU : (1 + 1 / 2 ^ 53 : ℚ) = c at *
  have hud : (1 / 2 ^ 53 : ℚ) = 1 - d := by rw [← hD]; ring
  have huc : (1 / 2 ^ 53 : ℚ) = c - 1 := by rw [← hU]; ring
  refine ⟨hf, ?_, ?_⟩
  · have h1 : (sv + pv) * d ≤ r := by
      have := he.1
      rw [hud] at this
      linarith only [this]
    have h2 : d ^ (k + 1) * σ + d * P ≤ sv + pv := add_le_add hs1 hp1
    have h3 : d ^ (k + 2) * (σ + P) ≤ (d ^ (k + 1) * σ + d * P) * d := by
      have h4 : d ^ (k + 2) = d ^ k * d * d := by ring
      have h4' : d ^ (k + 1) = d ^ k * d := by ring
      have hk1 : d ^ k ≤ 1 := pow_le_one₀ hd0 hd1
      have h5 : d ^ k * (d * d * P) ≤ 1 * (d * d * P) :=
        mul_le_mul_of_nonneg_right hk1 (mul_nonneg (mul_nonneg hd0 hd0) hP)
      rw [h4, h4']
      linarith only [h5]
    exact le_trans h3 (le_trans (mul_le_mul_of_nonneg_right h2 hd0) h1)
  · have h1 : r ≤ (sv + pv) * c := by
      have := he.2
      rw [huc] at this
      linarith only [this]
    have h2 : sv + pv ≤ c ^ (k + 1) * σ + c * P := add_le_add hs2 hp2
    have hc0 : (0 : ℚ) ≤ c := le_trans zero_le_one hu1
    have h3 : (c ^ (k + 1) * σ + c * P) * c ≤ c ^ (k + 2) * (σ + P) := by
      have h4 : c ^ (k + 2) = c ^ k * c * c := by ring
      have h4' : c ^ (k + 1) = c ^ k * c := by ring
      have hk1 : 1 ≤ c ^ k := one_le_pow₀ hu1
      have h5 : 1 * (c * c * P) ≤ c ^ k * (c * c * P) :=
        mul_le_mul_of_nonneg_right hk1 (mul_nonneg (mul_nonneg hc0 hc0) hP)
      rw [h4, h4']
      linarith only [h5]
    exact le_trans h1 (le_trans (mul_le_mul_of_nonneg_right h2 hc0) h3)

/-- Adding a rounded term to a rounded sum: the absolute values. -/
theorem add_abs_step (s p : F64) (A P : ℚ) (k : ℕ) (hs : s.finite = true)
    (hp : p.finite = true) (hP : 0 ≤ P)
    (hs2 : |s.val| ≤ (1 + 1 / 2 ^ 53) ^ (k + 1) * A)
    (hp2 : |p.val| ≤ (1 + 1 / 2 ^ 53) * P)
    (hbig : (1 + 1 / 2 ^ 53) ^ (k + 1) * A + (1 + 1 / 2 ^ 53) * P ≤ 2 ^ 1023) :
    (F64.add s p).finite = true ∧
    |(F64.add s p).val| ≤ (1 + 1 / 2 ^ 53) ^ (k + 2) * (A + P) := by
  have hu1 : (1 : ℚ) ≤ 1 + 1 / 2 ^ 53 := by norm_num
  have huk : (1 : ℚ) ≤ (1 + 1 / 2 ^ 53) ^ (k + 1) := one_le_pow₀ hu1
  have h53 : (2 : ℚ) ^ (-53 : ℤ) = 1 / 2 ^ 53 := by norm_num
  have h1023 : (2 : ℚ) ^ (1023 : ℤ) = 2 ^ 1023 := by norm_num
  have htri : |s.val + p.val| ≤ |s.val| + |p.val| := abs_add _ _
  obtain ⟨hf, he⟩ := add_spec s p hs hp (by
    rw [h1023]
    exact le_trans htri (le_trans (add_le_add hs2 hp2) hbig))
  rw [h53] at he
  generalize (F64.add s p).val = r at *
  generalize s.val = sv at *
  generalize p.val = pv at *
  generalize hU : (1 + 1 / 2 ^ 53 : ℚ) = c at *
  have huc : (1 / 2 ^ 53 : ℚ) = c - 1 := by rw [← hU]; ring
  refine ⟨hf, ?_⟩
  have h0 : |r| ≤ |r - (sv + pv)| + |sv + pv| := by
    have := abs_add (r - (sv + pv)) (sv + pv)
    rw [sub_add_cancel] at this
    exact this
  have h1 : |r| ≤ |sv + pv| * c := by
    rw [huc] at he
    linarith only [h0, he]
  have hc0 : (0 : ℚ) ≤ c := le_trans zero_le_one hu1
  have h2 : |sv + pv| ≤ c ^ (k + 1) * A + c * P := le_trans htri (add_le_add hs2 hp2)
  have h3 : (c ^ (k + 1) * A + c * P) * c ≤ c ^ (k + 2) * (A + P) := by
    have h4 : c ^ (k + 2) = c ^ k * c * c := by ring
    have h4' : c ^ (k + 1) = c ^ k * c := by ring
    have hk1 : 1 ≤ c ^ k := one_le_pow₀ hu1
    have h5 : 1 * (c * c * P) ≤ c ^ k * (c * c * P) :=
      mul_le_mul_of_nonneg_right hk1 (mul_nonneg (mul_nonneg hc0 hc0) hP)
    rw [h4, h4']
    linarith only [h5]
  exact le_trans h1 (le_trans (mul_le_mul_of_nonneg_right h2 hc0) h3)

theorem pow_c_le_two (k : ℕ) (hk : k ≤ 2 ^ 40 + 1) : (1 + 1 / 2 ^ 53 : ℚ) ^ k ≤ 2 := by
  have hkq : (k : ℚ) ≤ 2 ^ 40 + 1 := by exact_mod_cast hk
  have h := one_add_pow_le (1 / 2 ^ 53) (by norm_num) k (by
    have : 2 * (k : ℚ) * (1 / 2 ^ 53) = k * (1 / 2 ^ 52) := by norm_num; ring
    rw [this]
    have : (k : ℚ) * (1 / 2 ^ 52) ≤ (2 ^ 40 + 1) * (1 / 2 ^ 52) :=
      mul_le_mul_of_nonneg_right hkq (by norm_num)
    exact le_trans this (by norm_num))
  refine le_trans h ?_
  have h2 : 2 * (k : ℚ) * (1 / 2 ^ 53) ≤ 2 * (2 ^ 40 + 1) * (1 / 2 ^ 53) :=
    mul_le_mul_of_nonneg_right (by linarith only [hkq]) (by norm_num)
  have h3 : (2 : ℚ) * (2 ^ 40 + 1) * (1 / 2 ^ 53) ≤ 1 := by norm_num
  linarith only [h2, h3]

theorem sq_moderate (X : ℚ) (h : X * X = 0 ∨ 1 / 2 ^ 200 ≤ |X * X|) (SU : ℚ) (hSU : 0 ≤ SU)
    (ih : SU = 0 ∨ 1 / 2 ^ 200 ≤ SU) : SU + X * X = 0 ∨ 1 / 2 ^ 200 ≤ SU + X * X := by
  rcases h with h | h
  · rw [h, add_zero]
    exact ih
  · right
    rw [abs_of_nonneg (mul_self_nonneg X)] at h
    linarith only [h, hSU]

/-- One turn of the loop of `pearson` on a common item with moderate values
keeps the invariant. -/
theorem accumInv_step (n : ℕ) (acc : Acc64) (A SU SV : ℚ) (x y : F64)
    (hx : x.moderate = true) (hy : y.moderate = true) (hn : n + 1 ≤ 2 ^ 40)
    (h : AccumInv n acc A SU SV) :
    AccumInv (n + 1) ⟨F64.add acc.num (F64.mul x y), F64.add acc.denU (F64.mul x x),
      F64.add acc.denV (F64.mul y y), acc.cnt + 1⟩
      (A + |x.val * y.val|) (SU + x.val * x.val) (SV + y.val * y.val) := by
  obtain ⟨hf1, hf2, hf3, hA, hSU, hSV, hcs, hAb, hSUb, hSVb, hSU0, hSV0, hnum, hU1, hU2, hV1, hV2⟩ := h
  obtain ⟨pf, pe, phi, plo⟩ := mul_moderate x y hx hy
  obtain ⟨uf, ue, uhi, ulo⟩ := mul_moderate x x hx hx
  obtain ⟨vf, ve, vhi, vlo⟩ := mul_moderate y y hy hy
  have hnq : (n : ℚ) ≤ 2 ^ 40 := by
    have : n ≤ 2 ^ 40 := by omega
    exact_mod_cast this
  have hck : (1 + 1 / 2 ^ 53 : ℚ) ^ (n + 1) ≤ 2 := pow_c_le_two (n + 1) (by omega)
  have hc1 : (1 + 1 / 2 ^ 53 : ℚ) ≤ 2 := by norm_num
  have hxx : |x.val * x.val| = x.val * x.val := abs_of_nonneg (mul_self_nonneg _)
  have hyy : |y.val * y.val| = y.val * y.val := abs_of_nonneg (mul_self_nonneg _)
  rw [hxx] at ue uhi
  rw [hyy] at ve vhi
  have hbig : ∀ σ P : ℚ, 0 ≤ σ → 0 ≤ P → σ ≤ n * 2 ^ 200 → P ≤ 2 ^ 200 →
      (1 + 1 / 2 ^ 53) ^ (n + 1) * σ + (1 + 1 / 2 ^ 53) * P ≤ 2 ^ 1023 := by
    intro σ P h0 h1 h2 h3
    have h4 : (1 + 1 / 2 ^ 53 : ℚ) ^ (n + 1) * σ ≤ 2 * (2 ^ 40 * 2 ^ 200) :=
      mul_le_mul hck (le_trans h2 (mul_le_mul_of_nonneg_right hnq (by positivity))) h0
        (by norm_num)
    have h5 : (1 + 1 / 2 ^ 53 : ℚ) * P ≤ 2 * 2 ^ 200 := mul_le_mul hc1 h3 h1 (by norm_num)
    have h6 : (2 : ℚ) * (2 ^ 40 * 2 ^ 200) + 2 * 2 ^ 200 ≤ 2 ^ 1023 := by norm_num
    linarith only [h4, h5, h6]
  have habs : ∀ r t : ℚ, |r - t| ≤ |t| * (1 / 2 ^ 53) → |r| ≤ (1 + 1 / 2 ^ 53) * |t| := by
    intro r t h
    have h0 : |r| ≤ |r - t| + |t| := by
      have := abs_add (r - t) t
      rw [sub_add_cancel] at this
      exact this
    linarith only [h0, h]
  have hnn : ∀ r t : ℚ, |r - t| ≤ t * (1 / 2 ^ 53) →
      (1 - 1 / 2 ^ 53) * t ≤ r ∧ r ≤ (1 + 1 / 2 ^ 53) * t := by
    intro r t h
    rw [abs_le] at h
    constructor
    · linarith only [h.1]
    · linarith only [h.2]
  obtain ⟨a1, a2⟩ := add_abs_step acc.num (F64.mul x y) A |x.val * y.val| n hf1 pf
    (abs_nonneg _) hnum (habs _ _ pe) (hbig A _ hA (abs_nonneg _) hAb phi)
  obtain ⟨b1, b2, b3⟩ := add_nonneg_step acc.denU (F64.mul x x) SU (x.val * x.val) n hf2 uf hSU
    (mul_self_nonneg _) hU1 hU2 (hnn _ _ ue).1 (hnn _ _ ue).2
    (hbig SU _ hSU (mul_self_nonneg _) hSUb uhi)
  obtain ⟨c1, c2, c3⟩ := add_nonneg_step acc.denV (F64.mul y y) SV (y.val * y.val) n hf3 vf hSV
    (mul_self_nonneg _) hV1 hV2 (hnn _ _ ve).1 (hnn _ _ ve).2
    (hbig SV _ hSV (mul_self_nonneg _) hSVb vhi)
  have hcast : ((n + 1 : ℕ) : ℚ) * 2 ^ 200 = n * 2 ^ 200 + 2 ^ 200 := by push_cast; ring
  refine ⟨a1, b1, c1, add_nonneg hA (abs_nonneg _), add_nonneg hSU (mul_self_nonneg _),
    add_nonneg hSV (mul_self_nonneg _), ?_, ?_, ?_, ?_, ?_, ?_, a2, b2, b3, c2, c3⟩
  · have := @cauchy_step A SU SV |x.val| |y.val| hcs hSU hSV
    rw [← abs_mul, abs_mul_abs_self, abs_mul_abs_self] at this
    rw [add_comm A, add_comm SU, add_comm SV]
    exact this
  · rw [hcast]
    exact add_le_add hAb phi
  · rw [hcast]
    exact add_le_add hSUb uhi
  · rw [hcast]
    exact add_le_add hSVb vhi
  · exact sq_moderate _ ulo SU hSU hSU0
  · exact sq_moderate _ vlo SV hSV hSV0

theorem accum64_append (L : List (ℤ × F64 × F64)) (t : ℤ × F64 × F64) (acc : Acc64) :
    accum64 (L ++ [t]) acc =
      ⟨F64.add (accum64 L acc).num (F64.mul t.2.1 t.2.2),
        F64.add (accum64 L acc).denU (F64.mul t.2.1 t.2.1),
        F64.add (accum64 L acc).denV (F64.mul t.2.2 t.2.2), (accum64 L acc).cnt + 1⟩ := by
  unfold accum64
  rw [List.foldl_append]
  rfl

/-- The loop of `pearson` over common items with moderate values: the three
sums are within the rounding error of exact sums that satisfy the inequality
of Cauchy and Schwarz. -/
theorem accum64_inv (L : List (ℤ × F64 × F64))
    (hmod : ∀ t ∈ L, t.2.1.moderate = true ∧ t.2.2.moderate = true)
    (hlen : L.length ≤ 2 ^ 40) :
    ∃ A SU SV : ℚ, AccumInv L.length
      (accum64 L ⟨F64.fin 0 0, F64.fin 0 0, F64.fin 0 0, 0⟩) A SU SV := by
  induction L using List.reverseRecOn with
  | nil =>
    refine ⟨0, 0, 0, ?_⟩
    simp [AccumInv, accum64, F64.finite, F64.val]
  | append_singleton L t ih =>
    have hlen' : L.length + 1 ≤ 2 ^ 40 := by
      simpa using hlen
    obtain ⟨A, SU, SV, h⟩ := ih (fun s hs => hmod s (List.mem_append_left _ hs)) (by omega)
    have ht := hmod t (List.mem_append_right _ (List.mem_singleton_self t))
    refine ⟨A + |t.2.1.val * t.2.2.val|, SU + t.2.1.val * t.2.1.val,
      SV + t.2.2.val * t.2.2.val, ?_⟩
    rw [accum64_append, List.length_append, List.length_singleton]
    exact accumInv_step L.length _ A SU SV t.2.1 t.2.2 ht.1 ht.2 hlen' h

/-! ## pearson on float64: the range of the similarity -/

theorem val_ne_zero_of_eq0 (f : F64) (h : F64.eq0 f = false) (hf : f.finite = true) :
    f.val ≠ 0 := by
  obtain ⟨m, e, rfl, -⟩ := (finite_iff f).1 hf
  simp only [F64.eq0, decide_eq_false_iff_not] at h
  simp only [F64.val]
  exact mul_ne_zero (by exact_mod_cast h) (two_zpow_pos e).ne'

/-- The exact part of the bound: the quotient of the rounded sum of products
by the rounded denominator. -/
theorem ratio_bound (N Dv ZU ZV dU dV A SU SV up dn cl2 d1 : ℚ)
    (hA : 0 ≤ A) (hcs : A ^ 2 ≤ SU * SV) (hSV : 0 ≤ SV)
    (hN : |N| ≤ up * A) (hup : 0 ≤ up) (hdn : 0 < dn) (hcl : 0 < cl2) (hd1 : 0 < d1)
    (hU : dn * SU ≤ dU) (hV : dn * SV ≤ dV)
    (hZU : cl2 * dU ≤ ZU ^ 2) (hZV : cl2 * dV ≤ ZV ^ 2) (hZU0 : 0 < ZU) (hZV0 : 0 < ZV)
    (hD : d1 * (ZU * ZV) ≤ Dv) :
    |N| / Dv ≤ up / (d1 * dn * cl2) := by
  have hZZ : 0 < ZU * ZV := mul_pos hZU0 hZV0
  have hDv : 0 < Dv := lt_of_lt_of_le (mul_pos hd1 hZZ) hD
  have hsq : (A * (dn * cl2)) ^ 2 ≤ (ZU * ZV) ^ 2 := by
    have h1 : (cl2 * (dn * SU)) * (cl2 * (dn * SV)) ≤ ZU ^ 2 * ZV ^ 2 :=
      mul_le_mul (le_trans (mul_le_mul_of_nonneg_left hU hcl.le) hZU)
        (le_trans (mul_le_mul_of_nonneg_left hV hcl.le) hZV)
        (mul_nonneg hcl.le (mul_nonneg hdn.le hSV)) (sq_nonneg _)
    have h2 : (A * (dn * cl2)) ^ 2 = (dn * cl2) ^ 2 * A ^ 2 := by ring
    have h3 : (cl2 * (dn * SU)) * (cl2 * (dn * SV)) = (dn * cl2) ^ 2 * (SU * SV) := by ring
    have h4 : (ZU * ZV) ^ 2 = ZU ^ 2 * ZV ^ 2 := by ring
    rw [h2, h4]
    rw [h3] at h1
    exact le_trans (mul_le_mul_of_nonneg_left hcs (sq_nonneg _)) h1
  have hle : A * (dn * cl2) ≤ ZU * ZV :=
    le_of_sq_le _ _ (mul_nonneg hA (mul_nonneg hdn.le hcl.le)) hZZ hsq
  rw [div_le_div_iff₀ hDv (mul_pos (mul_pos hd1 hdn) hcl)]
  have h5 : |N| * (d1 * dn * cl2) ≤ up * A * (d1 * dn * cl2) :=
    mul_le_mul_of_nonneg_right hN (mul_nonneg (mul_nonneg hd1.le hdn.le) hcl.le)
  have h6 : up * (d1 * (A * (dn * cl2))) ≤ up * Dv :=
    mul_le_mul_of_nonneg_left
      (le_trans (mul_le_mul_of_nonneg_left hle hd1.le) hD) hup
  have h7 : up * A * (d1 * dn * cl2) = up * (d1 * (A * (dn * cl2))) := by ring
  rw [h7] at h5
  exact le_trans h5 h6

/-- The numerical part of the bound. -/
theorem final_num (y : ℚ) (hy0 : 0 ≤ y) (hy1 : y ≤ 1 / 2 ^ 11) :
    (1 + y) / ((1 - 1 / 2 ^ 53) * (1 - y / 2) * (1 - 2 / 2 ^ 52) ^ 2) * (1 + 1 / 2 ^ 52)
      + 1 / 2 ^ 1075 ≤ 1 + 2 * y + 12 / 2 ^ 52 := by
  have hK : (1 - y / 2) * (1 - 5 / 2 ^ 52) ≤
      (1 - 1 / 2 ^ 53) * (1 - y / 2) * (1 - 2 / 2 ^ 52) ^ 2 := by
    have h1 : (1 - 5 / 2 ^ 52 : ℚ) ≤ (1 - 1 / 2 ^ 53) * (1 - 2 / 2 ^ 52) ^ 2 := by norm_num
    have h2 : (0 : ℚ) ≤ 1 - y / 2 := by linarith only [hy1, show (1 / 2 ^ 11 : ℚ) ≤ 1 by norm_num]
    have h3 := mul_le_mul_of_nonneg_left h1 h2
    have h4 : (1 - 1 / 2 ^ 53) * (1 - y / 2) * (1 - 2 / 2 ^ 52) ^ 2
        = (1 - y / 2) * ((1 - 1 / 2 ^ 53) * (1 - 2 / 2 ^ 52) ^ 2) := by ring
    rw [h4]
    exact h3
  have hKpos : (0 : ℚ) < (1 - y / 2) * (1 - 5 / 2 ^ 52) := by
    have h2 : (0 : ℚ) < 1 - y / 2 := by linarith only [hy1, show (1 / 2 ^ 11 : ℚ) ≤ 1 by norm_num]
    exact mul_pos h2 (by norm_num)
  have hpos := lt_of_lt_of_le hKpos hK
  have h1 : (1 + y) / ((1 - 1 / 2 ^ 53) * (1 - y / 2) * (1 - 2 / 2 ^ 52) ^ 2)
      ≤ (1 + y) / ((1 - y / 2) * (1 - 5 / 2 ^ 52)) :=
    div_le_div_of_nonneg_left (by linarith only [hy0]) hKpos hK
  have h2 : (1 + y) / ((1 - y / 2) * (1 - 5 / 2 ^ 52)) * (1 + 1 / 2 ^ 52)
      ≤ 1 + 2 * y + 11 / 2 ^ 52 := by
    rw [div_mul_eq_mul_div, div_le_iff₀ hKpos]
    nlinarith [mul_nonneg hy0 (sub_nonneg.2 hy1)]
  have h3 : (1 / 2 ^ 1075 : ℚ) ≤ 1 / 2 ^ 52 := by norm_num
  have h4 := mul_le_mul_of_nonneg_right h1 (show (0 : ℚ) ≤ 1 + 1 / 2 ^ 52 by norm_num)
  have h5 : (11 / 2 ^ 52 : ℚ) + 1 / 2 ^ 52 = 12 / 2 ^ 52 := by norm_num
  linarith only [h2, h3, h4, h5]

/-- A sum of squares that is not zero, rounded, lies in the range on which
`sqrt` is analysed. -/
theorem den_range (n : ℕ) (hn : n ≤ 2 ^ 40) (f : F64) (S : ℚ) (hf : f.finite = true)
    (h0 : F64.eq0 f = false) (hS : 0 ≤ S) (hSb : S ≤ n * 2 ^ 200)
    (hS0 : S = 0 ∨ 1 / 2 ^ 200 ≤ S)
    (h1 : (1 - 1 / 2 ^ 53) ^ (n + 1) * S ≤ f.val)
    (h2 : f.val ≤ (1 + 1 / 2 ^ 53) ^ (n + 1) * S) :
    1 / 2 ^ 201 ≤ f.val ∧ f.val ≤ 2 ^ 241 ∧ 1 / 2 ≤ (1 - 1 / 2 ^ 53 : ℚ) ^ (n + 1) := by
  have hne := val_ne_zero_of_eq0 f h0 hf
  have hnq : (n : ℚ) ≤ 2 ^ 40 := by exact_mod_cast hn
  have hdn : (1 / 2 : ℚ) ≤ (1 - 1 / 2 ^ 53) ^ (n + 1) := by
    have h := one_sub_pow_ge (1 / 2 ^ 53) (by norm_num) (n + 1)
    refine le_trans ?_ h
    push_cast
    have : ((n : ℚ) + 1) * (1 / 2 ^ 53) ≤ (2 ^ 40 + 1) * (1 / 2 ^ 53) :=
      mul_le_mul_of_nonneg_right (by linarith only [hnq]) (by norm_num)
    have h3 : ((2 : ℚ) ^ 40 + 1) * (1 / 2 ^ 53) ≤ 1 / 2 := by norm_num
    linarith only [this, h3]
  have hup : (1 + 1 / 2 ^ 53 : ℚ) ^ (n + 1) ≤ 2 := pow_c_le_two (n + 1) (by omega)
  have hSpos : 1 / 2 ^ 200 ≤ S := by
    rcases hS0 with h | h
    · exfalso
      rw [h, mul_zero] at h1 h2
      exact hne (le_antisymm h2 h1)
    · exact h
  refine ⟨?_, ?_, hdn⟩
  · have : (1 / 2 : ℚ) * (1 / 2 ^ 200) ≤ (1 - 1 / 2 ^ 53) ^ (n + 1) * S :=
      mul_le_mul hdn hSpos (by norm_num) (le_trans (by norm_num) hdn)
    refine le_trans ?_ (le_trans this h1)
    norm_num
  · have h3 : (1 + 1 / 2 ^ 53 : ℚ) ^ (n + 1) * S ≤ 2 * (2 ^ 40 * 2 ^ 200) :=
      mul_le_mul hup (le_trans hSb (mul_le_mul_of_nonneg_right hnq (by positivity))) hS
        (by norm_num)
    refine le_trans h2 (le_trans h3 ?_)
    norm_num

/-- The result of `sqrt` on such a sum. -/
theorem sqrt64_den (f : F64) (hf : f.finite = true) (h1 : 1 / 2 ^ 201 ≤ f.val)
    (h2 : f.val ≤ 2 ^ 241) :
    (sqrt64 f).finite = true ∧ 1 / 2 ^ 101 ≤ (sqrt64 f).val ∧ (sqrt64 f).val ≤ 2 ^ 322 ∧
    (1 - 2 / 2 ^ 52) ^ 2 * f.val ≤ (sqrt64 f).val ^ 2 := by
  obtain ⟨zf, z0, z1, z2⟩ := sqrt64_wide f hf (le_trans (by norm_num) h1)
    (le_trans h2 (by norm_num))
  have hfpos : 0 < f.val := lt_of_lt_of_le (by norm_num) h1
  refine ⟨zf, ?_, ?_, z1⟩
  · apply le_of_sq_le _ _ (by norm_num) z0
    refine le_trans ?_ z1
    have : (1 / 2 : ℚ) * (1 / 2 ^ 201) ≤ (1 - 2 / 2 ^ 52) ^ 2 * f.val :=
      mul_le_mul (by norm_num) h1 (by norm_num) (by norm_num)
    refine le_trans ?_ this
    norm_num
  · by_contra hc
    push_neg at hc
    have h3 : (2 : ℚ) ^ 322 * 2 ^ 322 < (sqrt64 f).val * (sqrt64 f).val :=
      mul_lt_mul'' hc hc (by norm_num) (by norm_num)
    have h4 : (2 : ℚ) ^ 402 * f.val ≤ 2 ^ 402 * 2 ^ 241 :=
      mul_le_mul_of_nonneg_left h2 (by norm_num)
    rw [sq] at z2
    have h5 : (2 : ℚ) ^ 402 * 2 ^ 241 ≤ 2 ^ 322 * 2 ^ 322 := by norm_num
    exact absurd (lt_of_lt_of_le h3 (le_trans z2 (le_trans h4 h5))) (lt_irrefl _)

/-- The end of `pearson` on sums that satisfy the invariant of the loop: the
similarity is finite and exceeds 1 in absolute value by at most
`(n + 7) / 2 ^ 51`. -/
theorem pearsonResult64_range (n : ℕ) (acc : Acc64) (A SU SV : ℚ)
    (h : AccumInv n acc A SU SV) (hn : n ≤ 2 ^ 40) :
    (pearsonResult64 acc).1.finite = true ∧
    |(pearsonResult64 acc).1.val| ≤ 1 + 2 * (((n : ℚ) + 1) / 2 ^ 52) + 12 / 2 ^ 52 := by
  unfold pearsonResult64
  split_ifs with hg
  · refine ⟨rfl, ?_⟩
    simp only [F64.val, Int.cast_zero, zero_mul, abs_zero]
    positivity
  · push_neg at hg
    obtain ⟨-, hU0, hV0⟩ := hg
    have hU0 : F64.eq0 acc.denU = false := by simpa using hU0
    have hV0 : F64.eq0 acc.denV = false := by simpa using hV0
    dsimp only
    obtain ⟨hf1, hf2, hf3, hA, hSU, hSV, hcs, hAb, hSUb, hSVb, hSU0, hSV0, hnum, hU1, hU2, hV1,
      hV2⟩ := h
    obtain ⟨hdU1, hdU2, hdn⟩ := den_range n hn acc.denU SU hf2 hU0 hSU hSUb hSU0 hU1 hU2
    obtain ⟨hdV1, hdV2, -⟩ := den_range n hn acc.denV SV hf3 hV0 hSV hSVb hSV0 hV1 hV2
    obtain ⟨zUf, zU1, zU2, zU3⟩ := sqrt64_den acc.denU hf2 hdU1 hdU2
    obtain ⟨zVf, zV1, zV2, zV3⟩ := sqrt64_den acc.denV hf3 hdV1 hdV2
    have hnq : (n : ℚ) ≤ 2 ^ 40 := by exact_mod_cast hn
    have hup : (1 + 1 / 2 ^ 53 : ℚ) ^ (n + 1) ≤ 2 := pow_c_le_two (n + 1) (by omega)
    have hup0 : (0 : ℚ) < (1 + 1 / 2 ^ 53) ^ (n + 1) := by positivity
    have hdn0 : (0 : ℚ) < (1 - 1 / 2 ^ 53) ^ (n + 1) := lt_of_lt_of_le (by norm_num) hdn
    generalize hZU : (sqrt64 acc.denU).val = ZU at *
    generalize hZV : (sqrt64 acc.denV).val = ZV at *
    have hZU0 : 0 < ZU := lt_of_lt_of_le (by norm_num) zU1
    have hZV0 : 0 < ZV := lt_of_lt_of_le (by norm_num) zV1
    have hZZ0 : 0 < ZU * ZV := mul_pos hZU0 hZV0
    have hZZ1 : (1 / 2 ^ 202 : ℚ) ≤ ZU * ZV := by
      have : (1 / 2 ^ 101 : ℚ) * (1 / 2 ^ 101) ≤ ZU * ZV :=
        mul_le_mul zU1 zV1 (by norm_num) hZU0.le
      exact le_trans (by norm_num) this
    have hZZ2 : ZU * ZV ≤ 2 ^ 644 := by
      have : ZU * ZV ≤ 2 ^ 322 * 2 ^ 322 := mul_le_mul zU2 zV2 hZV0.le (by norm_num)
      exact le_trans this (by norm_num)
    -- the denominator
    have h53 : (2 : ℚ) ^ (-53 : ℤ) = 1 / 2 ^ 53 := by norm_num
    have h52 : (2 : ℚ) ^ (-52 : ℤ) = 1 / 2 ^ 52 := by norm_num
    have h1075 : (2 : ℚ) ^ (-1075 : ℤ) = 1 / 2 ^ 1075 := by norm_num
    obtain ⟨Df, De⟩ := mul_spec (sqrt64 acc.denU) (sqrt64 acc.denV) zUf zVf
      (by rw [hZU, hZV, abs_of_pos hZZ0]; exact le_trans hZZ2 (by norm_num))
      (Or.inr (by rw [hZU, hZV, abs_of_pos hZZ0]; exact le_trans (by norm_num) hZZ1))
    rw [hZU, hZV, abs_of_pos hZZ0, h53, abs_le] at De
    generalize hDv : (F64.mul (sqrt64 acc.denU) (sqrt64 acc.denV)).val = Dv at *
    have hD1 : (1 - 1 / 2 ^ 53) * (ZU * ZV) ≤ Dv := by linarith only [De.1]
    have hDpos : 0 < Dv := lt_of_lt_of_le (mul_pos (by norm_num) hZZ0) hD1
    have hDlo : (1 / 2 ^ 203 : ℚ) ≤ Dv := by
      have : (1 / 2 : ℚ) * (1 / 2 ^ 202) ≤ (1 - 1 / 2 ^ 53) * (ZU * ZV) :=
        mul_le_mul (by norm_num) hZZ1 (by norm_num) (by norm_num)
      exact le_trans (by norm_num) (le_trans this hD1)
    -- the quotient
    generalize hNv : acc.num.val = N at *
    have hNb : |N| ≤ 2 ^ 241 := by
      have h3 : (1 + 1 / 2 ^ 53 : ℚ) ^ (n + 1) * A ≤ 2 * (2 ^ 40 * 2 ^ 200) :=
        mul_le_mul hup (le_trans hAb (mul_le_mul_of_nonneg_right hnq (by positivity))) hA
          (by norm_num)
      exact le_trans hnum (le_trans h3 (by norm_num))
    have hquot : |N / Dv| = |N| / Dv := by rw [abs_div, abs_of_pos hDpos]
    have hqb : |N| / Dv ≤ 2 ^ 444 := by
      rw [div_le_iff₀ hDpos]
      have : (2 : ℚ) ^ 241 ≤ 2 ^ 444 * (1 / 2 ^ 203) := by norm_num
      exact le_trans hNb (le_trans this (mul_le_mul_of_nonneg_left hDlo (by norm_num)))
    obtain ⟨Sf, Se, -⟩ := div_spec acc.num (F64.mul (sqrt64 acc.denU) (sqrt64 acc.denV)) hf1 Df
      (by rw [hDv]; exact hDpos.ne')
      (by rw [hNv, hDv, hquot]; exact le_trans hqb (by norm_num))
    rw [hNv, hDv, hquot, h52, h1075] at Se
    generalize (F64.div acc.num (F64.mul (sqrt64 acc.denU) (sqrt64 acc.denV))).val = S at *
    refine ⟨Sf, ?_⟩
    have hS : |S| ≤ |N| / Dv * (1 + 1 / 2 ^ 52) + 1 / 2 ^ 1075 := by
      have h0 : |S| ≤ |S - N / Dv| + |N / Dv| := by
        have := abs_add (S - N / Dv) (N / Dv)
        rw [sub_add_cancel] at this
        exact this
      rw [hquot] at h0
      linarith only [h0, Se]
    have hT := ratio_bound N Dv ZU ZV acc.denU.val acc.denV.val A SU SV
      ((1 + 1 / 2 ^ 53) ^ (n + 1)) ((1 - 1 / 2 ^ 53) ^ (n + 1)) ((1 - 2 / 2 ^ 52) ^ 2)
      (1 - 1 / 2 ^ 53) hA hcs hSV hnum hup0.le hdn0 (by norm_num) (by norm_num) hU1 hV1 zU3 zV3
      hZU0 hZV0 hD1
    -- the powers
    have hn0 : (0 : ℚ) ≤ (n : ℚ) := Nat.cast_nonneg n
    have hy0 : (0 : ℚ) ≤ ((n : ℚ) + 1) / 2 ^ 52 :=
      div_nonneg (by linarith only [hn0]) (by norm_num)
    have hy1 : ((n : ℚ) + 1) / 2 ^ 52 ≤ 1 / 2 ^ 11 := by
      rw [div_le_iff₀ (by norm_num)]
      have : (1 / 2 ^ 11 : ℚ) * 2 ^ 52 = 2 ^ 41 := by norm_num
      rw [this]
      have : (2 : ℚ) ^ 40 + 1 ≤ 2 ^ 41 := by norm_num
      linarith only [hnq, this]
    have hc : (1 + 1 / 2 ^ 53 : ℚ) ^ (n + 1) ≤ 1 + ((n : ℚ) + 1) / 2 ^ 52 := by
      have h := one_add_pow_le (1 / 2 ^ 53) (by norm_num) (n + 1) (by
        push_cast
        have : 2 * ((n : ℚ) + 1) * (1 / 2 ^ 53) = ((n : ℚ) + 1) / 2 ^ 52 := by norm_num; ring
        rw [this]
        exact le_trans hy1 (by norm_num))
      refine le_trans h (le_of_eq ?_)
      push_cast
      norm_num
      ring
    have hd : 1 - ((n : ℚ) + 1) / 2 ^ 52 / 2 ≤ (1 - 1 / 2 ^ 53 : ℚ) ^ (n + 1) := by
      have h := one_sub_pow_ge (1 / 2 ^ 53) (by norm_num) (n + 1)
      refine le_trans (le_of_eq ?_) h
      push_cast
      norm_num
      ring
    have hden1 : (0 : ℚ) < 1 - ((n : ℚ) + 1) / 2 ^ 52 / 2 := by
      linarith only [hy1, show (1 / 2 ^ 11 : ℚ) ≤ 1 by norm_num]
    have hK1 : (0 : ℚ) < (1 - 1 / 2 ^ 53) * (1 - ((n : ℚ) + 1) / 2 ^ 52 / 2) * (1 - 2 / 2 ^ 52) ^ 2 :=
      mul_pos (mul_pos (by norm_num) hden1) (by norm_num)
    have hK2 : (1 - 1 / 2 ^ 53) * (1 - ((n : ℚ) + 1) / 2 ^ 52 / 2) * (1 - 2 / 2 ^ 52) ^ 2
        ≤ (1 - 1 / 2 ^ 53) * (1 - 1 / 2 ^ 53) ^ (n + 1) * (1 - 2 / 2 ^ 52) ^ 2 :=
      mul_le_mul_of_nonneg_right (mul_le_mul_of_nonneg_left hd (by norm_num)) (by norm_num)
    have hT2 : (1 + 1 / 2 ^ 53 : ℚ) ^ (n + 1) /
        ((1 - 1 / 2 ^ 53) * (1 - 1 / 2 ^ 53) ^ (n + 1) * (1 - 2 / 2 ^ 52) ^ 2)
        ≤ (1 + ((n : ℚ) + 1) / 2 ^ 52) /
          ((1 - 1 / 2 ^ 53) * (1 - ((n : ℚ) + 1) / 2 ^ 52 / 2) * (1 - 2 / 2 ^ 52) ^ 2) :=
      div_le_div₀ (by linarith only [hy0]) hc hK1 hK2
    have hfin := final_num (((n : ℚ) + 1) / 2 ^ 52) hy0 hy1
    have h9 : |N| / Dv * (1 + 1 / 2 ^ 52) ≤
        (1 + ((n : ℚ) + 1) / 2 ^ 52) /
          ((1 - 1 / 2 ^ 53) * (1 - ((n : ℚ) + 1) / 2 ^ 52 / 2) * (1 - 2 / 2 ^ 52) ^ 2)
          * (1 + 1 / 2 ^ 52) :=
      mul_le_mul_of_nonneg_right (le_trans hT hT2) (by norm_num)
    exact le_trans hS (le_trans (add_le_add h9 le_rfl) hfin)

theorem common64_values (u v : GoMap F64) (t : ℤ × F64 × F64) (ht : t ∈ common64 u v) :
    (∃ e ∈ u, e.2 = t.2.1) ∧ (∃ e ∈ v, e.2 = t.2.2) := by
  unfold common64 at ht
  rw [List.mem_filterMap] at ht
  obtain ⟨e, he, hf⟩ := ht
  cases hg : v.get? e.1 with
  | none => simp [hg] at hf
  | some rv =>
    simp only [hg, Option.map_some', Option.some.injEq] at hf
    subst hf
    exact ⟨⟨e, he, rfl⟩, ⟨(e.1, rv), GoMap.mem_of_get? hg, rfl⟩⟩

theorem pearsonLoop64_range (u v : GoMap F64) (hu : ∀ e ∈ u, e.2.moderate = true)
    (hv : ∀ e ∈ v, e.2.moderate = true) (hlu : u.length ≤ 2 ^ 40) :
    (pearsonResult64 (pearsonLoop64 u v)).1.finite = true ∧
    |(pearsonResult64 (pearsonLoop64 u v)).1.val|
      ≤ 1 + (((pearsonResult64 (pearsonLoop64 u v)).2 : ℚ) + 7) / 2 ^ 51 := by
  have hlen : (common64 u v).length ≤ 2 ^ 40 := by
    unfold common64
    exact le_trans (List.length_filterMap_le _ _) hlu
  have hmod : ∀ t ∈ common64 u v, t.2.1.moderate = true ∧ t.2.2.moderate = true := by
    intro t ht
    obtain ⟨⟨e, he, h1⟩, ⟨e2, he2, h2⟩⟩ := common64_values u v t ht
    rw [← h1, ← h2]
    exact ⟨hu e he, hv e2 he2⟩
  obtain ⟨A, SU, SV, hinv⟩ := accum64_inv (common64 u v) hmod hlen
  rw [← pearsonLoop64_eq] at hinv
  obtain ⟨h1, h2⟩ := pearsonResult64_range _ _ A SU SV hinv hlen
  refine ⟨h1, le_trans h2 (le_of_eq ?_)⟩
  rw [pearsonResult64_snd, pearsonLoop64_cnt]
  push_cast
  ring

/-- C7, as amended: for all normalized `float64` profiles `a` and `b` of at
most `2 ^ 40` entries, each entry zero or a normal float of magnitude from
`2 ^ (-100)` up to `2 ^ 100`, the similarity `S` returned by `pearson(a, b)` is
finite and `|S| ≤ 1 + (cnt + 7) / 2 ^ 51`, where `cnt` is the overlap count
returned with it.  (It can exceed 1 within this bound.) -/
theorem pearson64_range (a b : GoMap F64) (ha : ∀ e ∈ a, e.2.moderate = true)
    (hb : ∀ e ∈ b, e.2.moderate = true) (hla : a.length ≤ 2 ^ 40) (hlb : b.length ≤ 2 ^ 40) :
    (pearson64 a b).1.finite = true ∧
    |(pearson64 a b).1.val| ≤ 1 + (((pearson64 a b).2 : ℚ) + 7) / 2 ^ 51 := by
  unfold pearson64
  split
  · exact pearsonLoop64_range b a hb ha hlb
  · exact pearsonLoop64_range a b ha hb hla

set_option maxRecDepth 100000 in
/-- The two users of `unitRaw`: their normalized profiles have moderate
entries, five common items, and the similarity `1 + 2 ^ (-52)`. -/
theorem pearson64_range_witness :
    (∀ e ∈ unitNorm 1, e.2.moderate = true) ∧ (∀ e ∈ unitNorm 2, e.2.moderate = true) ∧
    (unitNorm 1).length ≤ 2 ^ 40 ∧ (unitNorm 2).length ≤ 2 ^ 40 ∧
    (pearson64 (unitNorm 1) (unitNorm 2)).1.finite = true ∧
    |(pearson64 (unitNorm 1) (unitNorm 2)).1.val|
      ≤ 1 + (((pearson64 (unitNorm 1) (unitNorm 2)).2 : ℚ) + 7) / 2 ^ 51 :=
  ⟨by decide, by decide, by decide, by decide,
    pearson64_range (unitNorm 1) (unitNorm 2) (by decide) (by decide) (by decide) (by decide)⟩

end CF
